/-
Verification of the VDF (Valve Data Format) codec, github.com/woozymasta/vdf.

Shallow embedding conventions:
  * Go strings are modelled as lists of runes (`List Char`); the text codec in
    the source operates rune by rune, so this matches the source directly.
  * The binary wire is a list of byte values (`List Nat`).  A rune is written
    to the wire as its code point; this is observationally faithful for every
    behaviour examined here, because a multi-byte UTF-8 sequence never
    contains a 0x00 (string terminator) or 0x08 (map-end) byte.
  * Go `error` results become `Except VdfErr`; the error value mirrors the
    sentinel error variables of the source.  Error wrapping text (positions,
    key names) is not modelled, only the sentinel identity.
  * Mutable decoder/encoder state (input position, node counter, manual
    depth) is threaded explicitly.  Loops and recursion over input are
    expressed with an explicit fuel argument so that every definition is a
    structurally recursive, executable function; wrappers instantiate the
    fuel with a bound that the accompanying lemmas show sufficient.
  * `nil` node pointers cannot arise from the public constructors (Add and
    AddRoot discard nil arguments in the source), so nodes are modelled as a
    plain inductive value type without a nil case; the source's nil checks
    and nil-skipping branches are therefore dropped, and its pointer-identity
    cycle detection has no counterpart (a value tree is always acyclic).
  * Line/column bookkeeping of the text lexer is used by the source only to
    decorate error messages; it is omitted here.
-/
import Mathlib

namespace Vdf

/-! ## Characters used by the text format -/

/-- The double-quote character. -/
def dquote : Char := Char.ofNat 34

/-- The backslash character. -/
def bslash : Char := Char.ofNat 92

/-- The newline character. -/
def nlChar : Char := Char.ofNat 10

/-- The horizontal tab character. -/
def tabChar : Char := Char.ofNat 9

/-- The carriage-return character. -/
def crChar : Char := Char.ofNat 13

/-- The vertical tab character. -/
def vtChar : Char := Char.ofNat 11

/-- The form-feed character. -/
def ffChar : Char := Char.ofNat 12

/-- The space character. -/
def spChar : Char := Char.ofNat 32

/-- The opening-brace character. -/
def lbrace : Char := Char.ofNat 123

/-- The closing-brace character. -/
def rbrace : Char := Char.ofNat 125

/-- Go strings, as rune lists. -/
abbrev Str := List Char

/-! ## Errors (errors.go): one constructor per sentinel error variable -/

/-- The sentinel error values of the package.  `unrecognizedType` carries the
offending type byte, as `ErrUnrecognizedType`'s formatted message does. -/
inductive VdfErr where
  | invalidFormat
  | unrecognizedType (b : Nat)
  | bufferOverflow
  | nullInString
  | unsupportedMapValueType
  | intOutOfRange
  | duplicateKeyInStrictMode
  | invalidNodeState
  | depthLimitExceeded
  | nodeLimitExceeded
  | unexpectedEOFInQuotedString
  | unexpectedEOFInEscapeSequence
  | unexpectedCharacter
  | expectedStringKey
  | expectedValueOrObject
  | expectedObjectStart
  | unexpectedEOFInObject
deriving DecidableEq, Repr

instance exceptDecEq {e a : Type} [DecidableEq e] [DecidableEq a] : DecidableEq (Except e a)
  | .ok x, .ok y => decidable_of_iff (x = y) (by simp)
  | .error x, .error y => decidable_of_iff (x = y) (by simp)
  | .ok _, .error _ => isFalse (by simp)
  | .error _, .ok _ => isFalse (by simp)

/-! ## Data model (types.go) -/

/-- `Format` selector: auto-detect, text VDF, binary VDF. -/
inductive Format where
  | auto
  | text
  | binary
deriving DecidableEq, Repr

/-- `NodeKind`: the payload shape carried by a node. -/
inductive NodeKind where
  | object
  | string
  | uint32
deriving DecidableEq, Repr

/-- `Node`: one AST node.  Field order follows the source struct:
StringValue, Uint32Value, Key, Children, Kind.  The `uint32` payload is a
`Nat`; the public constructor only produces values below `2 ^ 32`. -/
inductive Node : Type where
  | mk (stringValue : Option Str) (uint32Value : Option Nat) (key : Str)
       (children : List Node) (kind : NodeKind)
deriving Repr

/-- The `StringValue` field. -/
def Node.stringValue : Node → Option Str
  | .mk sv _ _ _ _ => sv

/-- The `Uint32Value` field. -/
def Node.uint32Value : Node → Option Nat
  | .mk _ uv _ _ _ => uv

/-- The `Key` field. -/
def Node.key : Node → Str
  | .mk _ _ k _ _ => k

/-- The `Children` field. -/
def Node.children : Node → List Node
  | .mk _ _ _ cs _ => cs

/-- The `Kind` field. -/
def Node.kind : Node → NodeKind
  | .mk _ _ _ _ kd => kd

mutual

/-- Boolean structural equality on nodes (decidable equality is derived from
it below; the automatic derivation does not handle the nested `List Node`). -/
def nodeBeq : Node → Node → Bool
  | .mk sv1 uv1 k1 cs1 kd1, .mk sv2 uv2 k2 cs2 kd2 =>
    decide (sv1 = sv2) && decide (uv1 = uv2) && decide (k1 = k2) &&
      nodeListBeq cs1 cs2 && decide (kd1 = kd2)

/-- Pointwise `nodeBeq` on node lists. -/
def nodeListBeq : List Node → List Node → Bool
  | [], [] => true
  | a :: as, b :: bs => nodeBeq a b && nodeListBeq as bs
  | _, _ => false

end

mutual

theorem nodeBeq_refl : ∀ a : Node, nodeBeq a a = true
  | .mk _ _ _ cs _ => by simp [nodeBeq, nodeListBeq_refl cs]

theorem nodeListBeq_refl : ∀ cs : List Node, nodeListBeq cs cs = true
  | [] => rfl
  | c :: cs => by simp [nodeListBeq, nodeBeq_refl c, nodeListBeq_refl cs]

end

mutual

theorem nodeBeq_eq : ∀ a b : Node, nodeBeq a b = true → a = b
  | .mk sv1 uv1 k1 cs1 kd1, .mk sv2 uv2 k2 cs2 kd2 => by
    intro h
    simp only [nodeBeq, Bool.and_eq_true, decide_eq_true_eq] at h
    obtain ⟨⟨⟨⟨h1, h2⟩, h3⟩, h4⟩, h5⟩ := h
    have h6 := nodeListBeq_eq cs1 cs2 h4
    subst h1 h2 h3 h5 h6
    rfl

theorem nodeListBeq_eq : ∀ as bs : List Node, nodeListBeq as bs = true → as = bs
  | [], [], _ => rfl
  | a :: as, b :: bs, h => by
    simp only [nodeListBeq, Bool.and_eq_true] at h
    rw [nodeBeq_eq a b h.1, nodeListBeq_eq as bs h.2]
  | [], _ :: _, h => by simp [nodeListBeq] at h
  | _ :: _, [], h => by simp [nodeListBeq] at h

end

instance : DecidableEq Node := fun a b =>
  decidable_of_iff (nodeBeq a b = true) ⟨nodeBeq_eq a b, fun h => h ▸ nodeBeq_refl a⟩

/-- `Document`: ordered root nodes plus a format tag. -/
structure Document where
  roots : List Node
  format : Format
deriving DecidableEq, Repr

/-! ## Public constructors (types.go) -/

/-- `NewDocument`: empty document with the auto format marker. -/
def NewDocument : Document :=
  { roots := [], format := .auto }

/-- `NewDocumentWithFormat`: empty document with an explicit format marker. -/
def NewDocumentWithFormat (format : Format) : Document :=
  { NewDocument with format := format }

/-- `NewObjectNode`: object node with the provided key. -/
def NewObjectNode (key : Str) : Node :=
  .mk none none key [] .object

/-- `NewStringNode`: string node with the provided key and value. -/
def NewStringNode (key value : Str) : Node :=
  .mk (some value) none key [] .string

/-- `NewUint32Node`: uint32 node with the provided key and value.  The Go
parameter has type `uint32`; callers can only pass values below `2 ^ 32`,
which the `BuiltNode` predicate records. -/
def NewUint32Node (key : Str) (value : Nat) : Node :=
  .mk none (some value) key [] .uint32

/-- `Node.Add`: append a child to an object node; no-op when the receiver is
not an object.  (The source's nil checks have no counterpart here.) -/
def Node.add (n : Node) (child : Node) : Node :=
  match n with
  | .mk sv uv k cs kd =>
    if kd = .object then .mk sv uv k (cs ++ [child]) kd else n

/-- `Node.First`: first child with the given key. -/
def Node.first (n : Node) (key : Str) : Option Node :=
  if n.kind = .object then n.children.find? (fun c => c.key = key) else none

/-- `Node.All`: all children with the given key in source order. -/
def Node.all (n : Node) (key : Str) : List Node :=
  if n.kind = .object then n.children.filter (fun c => c.key = key) else []

/-- `Document.AddRoot`: append a root node. -/
def Document.addRoot (d : Document) (node : Node) : Document :=
  { d with roots := d.roots ++ [node] }

/-- Nodes reachable from the public constructors `NewObjectNode`,
`NewStringNode`, `NewUint32Node` and `Add`. -/
inductive BuiltNode : Node → Prop where
  | obj (key : Str) : BuiltNode (NewObjectNode key)
  | str (key value : Str) : BuiltNode (NewStringNode key value)
  | u32 (key : Str) (value : Nat) (h : value < 4294967296) :
      BuiltNode (NewUint32Node key value)
  | add (n child : Node) : BuiltNode n → BuiltNode child → BuiltNode (n.add child)

/-- Documents reachable from `NewDocument`, `NewDocumentWithFormat` and
`AddRoot` with built nodes. -/
inductive BuiltDoc : Document → Prop where
  | new : BuiltDoc NewDocument
  | newWithFormat (f : Format) : BuiltDoc (NewDocumentWithFormat f)
  | addRoot (d : Document) (n : Node) : BuiltDoc d → BuiltNode n →
      BuiltDoc (d.addRoot n)

mutual

/-- Well-formedness: each node's populated fields match its kind (the AST
invariant that the public constructors establish). -/
def wfNode : Node → Bool
  | .mk sv uv _ cs kind =>
    match kind with
    | .object => sv.isNone && uv.isNone && wfNodes cs
    | .string => sv.isSome && uv.isNone && decide (cs = [])
    | .uint32 =>
      (match uv with
       | some v => decide (v < 4294967296)
       | none => false) && sv.isNone && decide (cs = [])

/-- `wfNode` on every element of a list. -/
def wfNodes : List Node → Bool
  | [] => true
  | c :: cs => wfNode c && wfNodes cs

end

theorem wfNodes_append : ∀ as bs : List Node,
    wfNodes (as ++ bs) = (wfNodes as && wfNodes bs)
  | [], _ => by simp [wfNodes]
  | a :: as, bs => by
    simp [wfNodes, wfNodes_append as bs, Bool.and_assoc]

/-- Every constructor-built node is well-formed. -/
theorem BuiltNode.wfNode_of {n : Node} (h : BuiltNode n) : wfNode n = true := by
  induction h with
  | obj key => simp [NewObjectNode, wfNode, wfNodes]
  | str key value => simp [NewStringNode, wfNode]
  | u32 key value hv => simp [NewUint32Node, wfNode, hv]
  | add n child _ _ ihn ihc =>
    cases n with
    | mk sv uv k cs kd =>
      cases kd with
      | object =>
        simp only [Node.add, reduceIte]
        simp only [wfNode, Bool.and_eq_true] at ihn ⊢
        exact ⟨⟨ihn.1.1, ihn.1.2⟩, by
          rw [wfNodes_append]
          simp [ihn.2, wfNodes, ihc]⟩
      | string => simpa [Node.add] using ihn
      | uint32 => simpa [Node.add] using ihn

/-- Every root of a constructor-built document is well-formed. -/
theorem BuiltDoc.wfRoots_of {d : Document} (h : BuiltDoc d) : wfNodes d.roots = true := by
  induction h with
  | new => rfl
  | newWithFormat f => rfl
  | addRoot d n _ hn ihd =>
    simp only [Document.addRoot]
    rw [wfNodes_append]
    simp [ihd, wfNodes, hn.wfNode_of]

/-! ## Node metrics used by the limit lemmas -/

mutual

/-- Total node count of a subtree (every node counts, objects included),
matching what the decoders' node counter accumulates for the subtree. -/
def countN : Node → Nat
  | .mk _ _ _ cs kind =>
    match kind with
    | .object => 1 + countL cs
    | _ => 1

/-- Total node count of a list of subtrees. -/
def countL : List Node → Nat
  | [] => 0
  | c :: cs => countN c + countL cs

end

mutual

/-- Nesting height of a subtree: a leaf is 1, an object is 1 more than its
deepest child (1 when childless). -/
def heightN : Node → Nat
  | .mk _ _ _ cs kind =>
    match kind with
    | .object => 1 + heightL cs
    | _ => 1

/-- Maximum `heightN` over a list, 0 when empty. -/
def heightL : List Node → Nat
  | [] => 0
  | c :: cs => max (heightN c) (heightL cs)

end

theorem countN_pos : ∀ n : Node, 1 ≤ countN n
  | .mk _ _ _ _ kind => by cases kind <;> simp [countN]

theorem heightN_pos : ∀ n : Node, 1 ≤ heightN n
  | .mk _ _ _ _ kind => by cases kind <;> simp [heightN]

/-- Height of a document: maximum nesting depth over all roots. -/
def docHeight (d : Document) : Nat := heightL d.roots

/-- Node count of a document. -/
def docCount (d : Document) : Nat := countL d.roots

/-! ## Options (types.go) -/

/-- `DecodeOptions`.  `maxDepth`/`maxNodes` are Go `int`s (0 or negative
means unlimited). -/
structure DecodeOptions where
  format : Format
  strict : Bool
  maxDepth : Int
  maxNodes : Int
deriving DecidableEq, Repr

/-- `EncodeOptions`. -/
structure EncodeOptions where
  indent : Str
  format : Format
  compact : Bool
  deterministic : Bool
  validate : Bool
deriving DecidableEq, Repr

/-- `normalizeEncodeOptions`: default indent is one tab; auto output format
resolves to text. -/
def normalizeEncodeOptions (opts : EncodeOptions) : EncodeOptions :=
  let opts := if opts.indent = [] then { opts with indent := [tabChar] } else opts
  if opts.format = .auto then { opts with format := .text } else opts

/-! ## Sibling ordering (node_order.go) -/

/-- Lexicographic strict order on rune lists (Go `<` on strings). -/
def strLt : Str → Str → Bool
  | [], [] => false
  | [], _ :: _ => true
  | _ :: _, [] => false
  | a :: as, b :: bs => a < b || (a = b && strLt as bs)

/-- The `le` relation corresponding to `slices.SortStableFunc`'s comparator on
node keys (nil handling dropped: no nil nodes in the model). -/
def nodeKeyLe (a b : Node) : Bool := !(strLt b.key a.key)

/-- `orderedNodes`: source order, or a stable sort by key when the
deterministic option is set (stability preserves duplicate-key runs). -/
def orderedNodes (ns : List Node) (deterministic : Bool) : List Node :=
  if !deterministic then ns else ns.mergeSort nodeKeyLe

/-! ## Binary wire constants and primitives (binary_decode.go / binary_encode.go) -/

/-- Type byte 0x00: object start. -/
def binaryTypeMapStart : Nat := 0

/-- Type byte 0x01: string entry. -/
def binaryTypeString : Nat := 1

/-- Type byte 0x02: uint32 entry. -/
def binaryTypeNumber : Nat := 2

/-- Type byte 0x08: object / document end. -/
def binaryTypeMapEnd : Nat := 8

/-- The bytes of a string (one wire item per rune; see the header note). -/
def strBytes (s : Str) : List Nat := s.map Char.toNat

/-- `writeNullTerminatedString`: rejects strings holding a NUL byte, else
emits the bytes followed by one zero terminator.  The pure model returns the
bytes to append; stream write errors cannot occur. -/
def writeNullTerminatedString (value : Str) : Except VdfErr (List Nat) :=
  if (strBytes value).contains 0 then .error .nullInString
  else .ok (strBytes value ++ [0])

/-- `binary.LittleEndian.PutUint32` for a value below `2 ^ 32`. -/
def putUint32LE (v : Nat) : List Nat :=
  [v % 256, v / 256 % 256, v / 65536 % 256, v / 16777216 % 256]

/-! ## Binary encoder (binary_encode.go), with explicit fuel -/

mutual

/-- `encodeBinaryNode`: one AST node as a binary entry.  The fuel argument
makes the recursion through `orderedNodes` structural; the out-of-fuel branch
is unreachable from the wrapper below. -/
def encodeBinaryNodeF : Nat → EncodeOptions → Node → Except VdfErr (List Nat)
  | 0, _, _ => .error .invalidNodeState
  | fuel + 1, opts, .mk sv uv key cs kind =>
    match kind with
    | .object => do
      let k ← writeNullTerminatedString key
      let body ← encodeBinaryNodesF fuel opts (orderedNodes cs opts.deterministic)
      .ok (binaryTypeMapStart :: k ++ body ++ [binaryTypeMapEnd])
    | .string => do
      let k ← writeNullTerminatedString key
      match sv with
      | none => .error .invalidNodeState
      | some v => do
        let vb ← writeNullTerminatedString v
        .ok (binaryTypeString :: k ++ vb)
    | .uint32 => do
      let k ← writeNullTerminatedString key
      match uv with
      | none => .error .invalidNodeState
      | some v => .ok (binaryTypeNumber :: k ++ putUint32LE v)

/-- The `for _, child := range children` loop of `encodeBinaryNode`. -/
def encodeBinaryNodesF : Nat → EncodeOptions → List Node → Except VdfErr (List Nat)
  | 0, _, _ => .error .invalidNodeState
  | _ + 1, _, [] => .ok []
  | fuel + 1, opts, c :: cs => do
    let e ← encodeBinaryNodeF fuel opts c
    let rest ← encodeBinaryNodesF fuel opts cs
    .ok (e ++ rest)

end

mutual

/-- Fuel sufficient for `encodeBinaryNodeF` (and for the binary decoder):
one unit per recursion level; leaves never recurse. -/
def encFuelN : Node → Nat
  | .mk _ _ _ cs kind =>
    match kind with
    | .object => 1 + encFuelL cs
    | _ => 1

/-- Fuel sufficient for `encodeBinaryNodesF` on a list. -/
def encFuelL : List Node → Nat
  | [] => 1
  | c :: cs => 1 + max (encFuelN c) (encFuelL cs)

end

/-- `encodeBinaryDocument`: ordered roots, then the trailing document
terminator byte. -/
def encodeBinaryDocument (opts : EncodeOptions) (doc : Document) : Except VdfErr (List Nat) := do
  let roots := orderedNodes doc.roots opts.deterministic
  let body ← encodeBinaryNodesF (encFuelL roots) opts roots
  .ok (body ++ [binaryTypeMapEnd])

/-! ## Specification form of the default binary encoding

`binEncNode` is the byte string that `encodeBinaryNodeF` produces for a
well-formed NUL-free node with `deterministic = false`; the equivalence is
proved below and lets the decoder lemmas work by structural induction. -/

mutual

/-- Default-options binary encoding of one node. -/
def binEncNode : Node → List Nat
  | .mk sv uv key cs kind =>
    match kind with
    | .object =>
      binaryTypeMapStart :: (strBytes key ++ [0]) ++ binEncNodes cs ++ [binaryTypeMapEnd]
    | .string =>
      binaryTypeString :: (strBytes key ++ [0]) ++ (strBytes (sv.getD []) ++ [0])
    | .uint32 =>
      binaryTypeNumber :: (strBytes key ++ [0]) ++ putUint32LE (uv.getD 0)

/-- Default-options binary encoding of a node list. -/
def binEncNodes : List Node → List Nat
  | [] => []
  | c :: cs => binEncNode c ++ binEncNodes cs

end

/-- Default-options binary encoding of a whole document. -/
def binEncDoc (d : Document) : List Nat := binEncNodes d.roots ++ [binaryTypeMapEnd]

mutual

/-- No key or string value in the subtree holds a NUL byte (the condition for
binary encoding to succeed). -/
def nulFreeN : Node → Bool
  | .mk sv _ key cs kind =>
    !(strBytes key).contains 0 &&
      (match kind with
       | .object => nulFreeL cs
       | .string => !(strBytes (sv.getD [])).contains 0
       | .uint32 => true)

/-- `nulFreeN` on every element of a list. -/
def nulFreeL : List Node → Bool
  | [] => true
  | c :: cs => nulFreeN c && nulFreeL cs

end

/-! ## Binary decoder (binary_decode.go), with explicit fuel -/

/-- `checkDepth` of the binary decoder and the text parser (identical
bodies): fail once `depth` exceeds a positive `maxDepth`. -/
def checkDepthLimit (opts : DecodeOptions) (depth : Nat) : Except VdfErr Unit :=
  if 0 < opts.maxDepth ∧ opts.maxDepth < (depth : Int) then .error .depthLimitExceeded
  else .ok ()

/-- `incrementNodeCount` of both decoders: bump the counter, fail once it
exceeds a positive `maxNodes`. -/
def incrementNodeCount (opts : DecodeOptions) (c : Int) : Except VdfErr Int :=
  let c := c + 1
  if 0 < opts.maxNodes ∧ opts.maxNodes < c then .error .nodeLimitExceeded
  else .ok c

/-- `containsKey`: whether a node list already holds the key. -/
def containsKey (nodes : List Node) (key : Str) : Bool :=
  nodes.any (fun n => n.key = key)

/-- `readNullTerminatedString` of the binary decoder: bytes up to the zero
terminator become the string; end of input first is a buffer overflow.  (The
source's pooled scratch buffer only affects allocation, not the result.) -/
def readNullTerminatedString : List Nat → Except VdfErr (Str × List Nat)
  | [] => .error .bufferOverflow
  | b :: rest =>
    if b = 0 then .ok ([], rest)
    else do
      let (s, r) ← readNullTerminatedString rest
      .ok (Char.ofNat b :: s, r)

/-- `readUint32`: four little-endian bytes; fewer is a buffer overflow. -/
def readUint32 : List Nat → Except VdfErr (Nat × List Nat)
  | b0 :: b1 :: b2 :: b3 :: rest =>
    .ok (b0 + 256 * b1 + 65536 * b2 + 16777216 * b3, rest)
  | _ => .error .bufferOverflow

mutual

/-- `binaryDecoder.decodeEntry`: one entry whose type byte has already been
consumed by the caller.  State: type byte, current depth, node counter,
remaining input.  The out-of-fuel branch is unreachable from the wrapper
(every decrement consumes at least one input byte). -/
def decodeEntryF : Nat → DecodeOptions → Nat → Nat → Int → List Nat →
    Except VdfErr (Node × List Nat × Int)
  | 0, _, _, _, _, _ => .error .bufferOverflow
  | fuel + 1, opts, typeByte, depth, c, input => do
    let _ ← checkDepthLimit opts depth
    let (key, input) ← readNullTerminatedString input
    if typeByte = binaryTypeMapStart then do
      let c ← incrementNodeCount opts c
      decodeObjLoopF fuel opts (NewObjectNode key) depth c input
    else if typeByte = binaryTypeString then do
      let (value, input) ← readNullTerminatedString input
      let c ← incrementNodeCount opts c
      .ok (NewStringNode key value, input, c)
    else if typeByte = binaryTypeNumber then do
      let (value, input) ← readUint32 input
      let c ← incrementNodeCount opts c
      .ok (NewUint32Node key value, input, c)
    else .error (.unrecognizedType typeByte)

/-- The child loop of `decodeEntry`'s object case: read entries until the
map-end byte; end of input inside an open object is a buffer overflow. -/
def decodeObjLoopF : Nat → DecodeOptions → Node → Nat → Int → List Nat →
    Except VdfErr (Node × List Nat × Int)
  | 0, _, _, _, _, _ => .error .bufferOverflow
  | fuel + 1, opts, node, depth, c, input =>
    match input with
    | [] => .error .bufferOverflow
    | t :: input =>
      if t = binaryTypeMapEnd then .ok (node, input, c)
      else do
        let (child, input, c) ← decodeEntryF fuel opts t (depth + 1) c input
        if opts.strict ∧ containsKey node.children child.key then
          .error .duplicateKeyInStrictMode
        else
          decodeObjLoopF fuel opts (node.add child) depth c input

end

/-- `binaryDecoder.decodeDocument`'s root loop: end of input with no roots is
an empty document; the root-level map-end byte finishes the document; end of
input after at least one root is a buffer overflow. -/
def decodeDocLoopF : Nat → DecodeOptions → Document → Int → List Nat → Except VdfErr Document
  | 0, _, _, _, _ => .error .bufferOverflow
  | fuel + 1, opts, doc, c, input =>
    match input with
    | [] => if doc.roots = [] then .ok doc else .error .bufferOverflow
    | t :: input =>
      if t = binaryTypeMapEnd then .ok doc
      else do
        let (node, input, c) ← decodeEntryF fuel opts t 1 c input
        if opts.strict ∧ containsKey doc.roots node.key then
          .error .duplicateKeyInStrictMode
        else
          decodeDocLoopF fuel opts (doc.addRoot node) c input

/-- `parseBinaryDocument`: decode a full binary stream.  Fuel
`input.length + 1` always suffices: every fuel decrement consumes at least
one input byte. -/
def parseBinaryDocument (opts : DecodeOptions) (input : List Nat) : Except VdfErr Document :=
  decodeDocLoopF (input.length + 1) opts (NewDocumentWithFormat .binary) 0 input

/-! ## Format detection (binary_decode.go / decoder.go) -/

/-- `looksBinaryPrefix`: first byte must be one of the three entry type
bytes, and a NUL byte must occur among positions `1 ..= 49` (the source scans
indices `1 ..< min 50 (length data)`). -/
def looksBinaryPrefix (data : List Nat) : Bool :=
  match data with
  | [] => false
  | first :: rest =>
    if first ≠ binaryTypeMapStart ∧ first ≠ binaryTypeString ∧ first ≠ binaryTypeNumber then
      false
    else
      (rest.take 49).contains 0

/-- `detectStreamFormat`: peek at most 64 bytes; empty input and anything
that does not look binary is text. -/
def detectStreamFormat (input : List Nat) : Format :=
  let pre := input.take 64
  if pre = [] then .text
  else if looksBinaryPrefix pre then .binary
  else .text

/-! ## Supporting lemmas: bytes, strings, monadic steps -/

@[simp] theorem except_bind_ok {α β : Type} (x : α) (k : α → Except VdfErr β) :
    (Except.ok x >>= k) = k x := rfl

@[simp] theorem except_bind_error {α β : Type} (e : VdfErr) (k : α → Except VdfErr β) :
    ((Except.error e : Except VdfErr α) >>= k) = .error e := rfl

/-- A rune's code point maps back to the rune. -/
theorem ofNat_toNat_char (c : Char) : Char.ofNat c.toNat = c := Char.ofNat_toNat c

/-- `orderedNodes` is the identity when the deterministic option is off. -/
theorem orderedNodes_id (ns : List Node) : orderedNodes ns false = ns := rfl

/-- `Node.add` on an object node appends the child. -/
theorem add_object (sv : Option Str) (uv : Option Nat) (k : Str) (cs : List Node) (child : Node) :
    (Node.mk sv uv k cs .object).add child = .mk sv uv k (cs ++ [child]) .object := by
  simp [Node.add]

/-- Success characterization of `writeNullTerminatedString`. -/
theorem writeNTS_eq_ok {value : Str} {bs : List Nat} :
    writeNullTerminatedString value = .ok bs ↔
      ((strBytes value).contains 0 = false ∧ bs = strBytes value ++ [0]) := by
  unfold writeNullTerminatedString
  split <;> simp_all [eq_comm]

/-- Reading back a NUL-free zero-terminated string recovers it exactly and
leaves the rest of the input untouched. -/
theorem readNTS_strBytes : ∀ (s : Str), (strBytes s).contains 0 = false →
    ∀ rest, readNullTerminatedString (strBytes s ++ 0 :: rest) = .ok (s, rest)
  | [], _, rest => by simp [strBytes, readNullTerminatedString]
  | c :: s, h, rest => by
    simp only [strBytes, List.map_cons, List.contains_cons, Bool.or_eq_false_iff] at h
    have hc : c.toNat ≠ 0 := by
      intro h0
      simp [h0] at h
    have ih := readNTS_strBytes s (by simpa [strBytes] using h.2) rest
    simp [readNullTerminatedString, hc, strBytes] at ih ⊢
    simp [ih, ofNat_toNat_char]

/-- Reading back a little-endian uint32 below `2 ^ 32`. -/
theorem readUint32_put (v : Nat) (hv : v < 4294967296) (rest : List Nat) :
    readUint32 (putUint32LE v ++ rest) = .ok (v, rest) := by
  simp only [putUint32LE, List.cons_append, List.nil_append, readUint32, Except.ok.injEq,
    Prod.mk.injEq, and_true]
  omega

/-! ## The fueled binary encoder matches the specification encoding -/

theorem encodeBinary_ok : ∀ (fuel : Nat) (opts : EncodeOptions),
    opts.deterministic = false →
    (∀ (n : Node) (bs : List Nat), wfNode n = true →
      encodeBinaryNodeF fuel opts n = .ok bs → bs = binEncNode n ∧ nulFreeN n = true) ∧
    (∀ (ns : List Node) (bs : List Nat), wfNodes ns = true →
      encodeBinaryNodesF fuel opts ns = .ok bs → bs = binEncNodes ns ∧ nulFreeL ns = true)
  | 0, opts, _ => by
    constructor <;> intro x bs _ h <;> simp [encodeBinaryNodeF, encodeBinaryNodesF] at h
  | fuel + 1, opts, hdet => by
    obtain ⟨ihn, ihl⟩ := encodeBinary_ok fuel opts hdet
    constructor
    · rintro ⟨sv, uv, key, cs, kind⟩ bs hwf henc
      cases kind with
      | object =>
        simp only [wfNode, Bool.and_eq_true, Option.isNone_iff_eq_none] at hwf
        obtain ⟨⟨hsv, huv⟩, hcs⟩ := hwf
        simp only [encodeBinaryNodeF, hdet, orderedNodes_id] at henc
        cases hk : writeNullTerminatedString key with
        | error e => simp [hk] at henc
        | ok kb =>
          cases hb : encodeBinaryNodesF fuel opts cs with
          | error e => simp [hk, hb] at henc
          | ok body =>
            simp only [hk, hb, except_bind_ok, Except.ok.injEq] at henc
            obtain ⟨hk0, hkb⟩ := writeNTS_eq_ok.mp hk
            obtain ⟨hbody, hnul⟩ := ihl cs body hcs hb
            subst hkb hbody henc
            have hk0m : (0 : Nat) ∉ strBytes key := by simpa using hk0
            simp [binEncNode, nulFreeN, hk0m, hnul]
      | string =>
        simp only [wfNode, Bool.and_eq_true, Option.isSome_iff_exists,
          Option.isNone_iff_eq_none, decide_eq_true_eq] at hwf
        obtain ⟨⟨⟨v, hsv⟩, huv⟩, hcs⟩ := hwf
        subst hsv
        simp only [encodeBinaryNodeF] at henc
        cases hk : writeNullTerminatedString key with
        | error e => simp [hk] at henc
        | ok kb =>
          cases hv : writeNullTerminatedString v with
          | error e => simp [hk, hv] at henc
          | ok vb =>
            simp only [hk, hv, except_bind_ok, Except.ok.injEq] at henc
            obtain ⟨hk0, hkb⟩ := writeNTS_eq_ok.mp hk
            obtain ⟨hv0, hvb⟩ := writeNTS_eq_ok.mp hv
            subst hkb hvb henc
            have hk0m : (0 : Nat) ∉ strBytes key := by simpa using hk0
            have hv0m : (0 : Nat) ∉ strBytes v := by simpa using hv0
            simp [binEncNode, nulFreeN, hk0m, hv0m]
      | uint32 =>
        simp only [wfNode, Bool.and_eq_true, Option.isNone_iff_eq_none,
          decide_eq_true_eq] at hwf
        cases uv with
        | none => simp at hwf
        | some v =>
          obtain ⟨⟨_, hsv⟩, hcs⟩ := hwf
          simp only [encodeBinaryNodeF] at henc
          cases hk : writeNullTerminatedString key with
          | error e => simp [hk] at henc
          | ok kb =>
            simp only [hk, except_bind_ok, Except.ok.injEq] at henc
            obtain ⟨hk0, hkb⟩ := writeNTS_eq_ok.mp hk
            subst hkb henc
            have hk0m : (0 : Nat) ∉ strBytes key := by simpa using hk0
            simp [binEncNode, nulFreeN, hk0m]
    · intro ns bs hwf henc
      cases ns with
      | nil =>
        simp only [encodeBinaryNodesF, Except.ok.injEq] at henc
        simp [← henc, binEncNodes, nulFreeL]
      | cons c cs =>
        simp only [wfNodes, Bool.and_eq_true] at hwf
        simp only [encodeBinaryNodesF] at henc
        cases hc : encodeBinaryNodeF fuel opts c with
        | error e => simp [hc] at henc
        | ok e1 =>
          cases hcs : encodeBinaryNodesF fuel opts cs with
          | error e => simp [hc, hcs] at henc
          | ok e2 =>
            simp only [hc, hcs, except_bind_ok, Except.ok.injEq] at henc
            obtain ⟨h1, h1n⟩ := ihn c e1 hwf.1 hc
            obtain ⟨h2, h2n⟩ := ihl cs e2 hwf.2 hcs
            subst h1 h2 henc
            simp [binEncNodes, nulFreeL, h1n, h2n]

/-- Success characterization of the document-level binary encoder (default
sibling order). -/
theorem encodeBinaryDocument_ok {opts : EncodeOptions} {d : Document} {bs : List Nat}
    (hdet : opts.deterministic = false) (hwf : wfNodes d.roots = true)
    (henc : encodeBinaryDocument opts d = .ok bs) :
    bs = binEncDoc d ∧ nulFreeL d.roots = true := by
  simp only [encodeBinaryDocument, hdet, orderedNodes_id] at henc
  cases hb : encodeBinaryNodesF (encFuelL d.roots) opts d.roots with
  | error e => simp [hb] at henc
  | ok body =>
    simp only [hb, except_bind_ok, Except.ok.injEq] at henc
    obtain ⟨h1, h2⟩ := (encodeBinary_ok (encFuelL d.roots) opts hdet).2 d.roots body hwf hb
    subst h1 henc
    exact ⟨rfl, h2⟩

/-! ## Binary decoder specification lemmas -/

/-- The type byte a node's binary encoding starts with. -/
def binType (n : Node) : Nat :=
  match n.kind with
  | .object => binaryTypeMapStart
  | .string => binaryTypeString
  | .uint32 => binaryTypeNumber

/-- A node's binary encoding after its leading type byte. -/
def binTail : Node → List Nat
  | .mk sv uv key cs kind =>
    match kind with
    | .object => (strBytes key ++ [0]) ++ binEncNodes cs ++ [binaryTypeMapEnd]
    | .string => (strBytes key ++ [0]) ++ (strBytes (sv.getD []) ++ [0])
    | .uint32 => (strBytes key ++ [0]) ++ putUint32LE (uv.getD 0)

theorem binEncNode_eq : ∀ n : Node, binEncNode n = binType n :: binTail n
  | .mk sv uv key cs kind => by cases kind <;> rfl

theorem binType_ne_mapEnd : ∀ n : Node, binType n ≠ binaryTypeMapEnd
  | .mk _ _ _ _ kind => by
    cases kind <;> simp [binType, Node.kind, binaryTypeMapStart, binaryTypeString,
      binaryTypeNumber, binaryTypeMapEnd]

theorem encFuelN_pos (n : Node) : 1 ≤ encFuelN n := by
  cases n with
  | mk sv uv key cs kind => cases kind <;> simp [encFuelN]

theorem encFuelL_pos (ns : List Node) : 1 ≤ encFuelL ns := by
  cases ns <;> simp [encFuelL]

/-- The depth check passes while the depth budget is not yet exceeded. -/
theorem checkDepth_ok {opts : DecodeOptions} {depth : Nat}
    (h : opts.maxDepth ≤ 0 ∨ (depth : Int) ≤ opts.maxDepth) :
    checkDepthLimit opts depth = .ok () := by
  unfold checkDepthLimit
  split
  · omega
  · rfl

/-- The depth check fails once the depth budget is exceeded. -/
theorem checkDepth_err {opts : DecodeOptions} {depth : Nat}
    (h1 : 0 < opts.maxDepth) (h2 : opts.maxDepth < (depth : Int)) :
    checkDepthLimit opts depth = .error .depthLimitExceeded := by
  unfold checkDepthLimit
  split
  · rfl
  · omega

/-- The depth check always passes at depth 1 (no positive `Int` is below 1). -/
theorem checkDepth_one (opts : DecodeOptions) : checkDepthLimit opts 1 = .ok () := by
  unfold checkDepthLimit
  split
  · omega
  · rfl

/-- The node counter check passes while the budget is not yet exceeded. -/
theorem increment_ok {opts : DecodeOptions} {c : Int}
    (h : opts.maxNodes ≤ 0 ∨ c + 1 ≤ opts.maxNodes) :
    incrementNodeCount opts c = .ok (c + 1) := by
  show (if 0 < opts.maxNodes ∧ opts.maxNodes < c + 1 then
      (Except.error .nodeLimitExceeded : Except VdfErr Int) else .ok (c + 1)) = .ok (c + 1)
  split
  · omega
  · rfl

/-- The node counter check fails once the budget is exceeded. -/
theorem increment_err {opts : DecodeOptions} {c : Int}
    (h1 : 0 < opts.maxNodes) (h2 : opts.maxNodes < c + 1) :
    incrementNodeCount opts c = .error .nodeLimitExceeded := by
  show (if 0 < opts.maxNodes ∧ opts.maxNodes < c + 1 then
      (Except.error .nodeLimitExceeded : Except VdfErr Int) else .ok (c + 1)) =
    .error .nodeLimitExceeded
  split
  · rfl
  · omega

/-- Reading a NUL-terminated string succeeds exactly when a NUL is present. -/
theorem readNTS_of_mem : ∀ l : List Nat, 0 ∈ l →
    ∃ s r, readNullTerminatedString l = .ok (s, r)
  | b :: rest, h => by
    by_cases hb : b = 0
    · subst hb
      exact ⟨[], rest, by simp [readNullTerminatedString]⟩
    · have hm : 0 ∈ rest := by
        cases h with
        | head => omega
        | tail _ h => exact h
      obtain ⟨s, r, hr⟩ := readNTS_of_mem rest hm
      exact ⟨Char.ofNat b :: s, r, by simp [readNullTerminatedString, hb, hr]⟩

/-- Reading a NUL-terminated string from NUL-free input is a buffer overflow. -/
theorem readNTS_of_not_mem : ∀ l : List Nat, 0 ∉ l →
    readNullTerminatedString l = .error .bufferOverflow
  | [], _ => rfl
  | b :: rest, h => by
    have hb : b ≠ 0 := by simp at h; omega
    have hr := readNTS_of_not_mem rest (by simp at h; exact fun hm => h.2 hm)
    simp [readNullTerminatedString, hb, hr]

/-- Core success lemma: decoding the specification encoding of a well-formed
NUL-free subtree—when neither resource limit is hit—returns exactly that
subtree, consumes exactly its encoding, and advances the node counter by its
node count.  Stated jointly for one entry and for an object's child loop. -/
theorem decodeEntryF_enc : ∀ (fuel : Nat) (opts : DecodeOptions), opts.strict = false →
    (∀ (n : Node) (depth : Nat) (c : Int) (rest : List Nat),
      wfNode n = true → nulFreeN n = true → encFuelN n ≤ fuel →
      (opts.maxDepth ≤ 0 ∨ (depth : Int) + ((heightN n : Int) - 1) ≤ opts.maxDepth) →
      (opts.maxNodes ≤ 0 ∨ c + (countN n : Int) ≤ opts.maxNodes) →
      decodeEntryF fuel opts (binType n) depth c (binTail n ++ rest) =
        .ok (n, rest, c + countN n)) ∧
    (∀ (ns : List Node) (key : Str) (acc : List Node) (depth : Nat) (c : Int)
        (rest : List Nat),
      wfNodes ns = true → nulFreeL ns = true → encFuelL ns ≤ fuel →
      (opts.maxDepth ≤ 0 ∨ (depth : Int) + (heightL ns : Int) ≤ opts.maxDepth) →
      (opts.maxNodes ≤ 0 ∨ c + (countL ns : Int) ≤ opts.maxNodes) →
      decodeObjLoopF fuel opts (.mk none none key acc .object) depth c
          (binEncNodes ns ++ binaryTypeMapEnd :: rest) =
        .ok (.mk none none key (acc ++ ns) .object, rest, c + countL ns))
  | 0, opts, _ => by
    constructor
    · intro n _ _ _ _ _ hf _ _
      have := encFuelN_pos n
      omega
    · intro ns _ _ _ _ _ _ _ hf _ _
      have := encFuelL_pos ns
      omega
  | fuel + 1, opts, hstrict => by
    obtain ⟨ihn, ihl⟩ := decodeEntryF_enc fuel opts hstrict
    constructor
    · rintro ⟨sv, uv, key, cs, kind⟩ depth c rest hwf hnul hf hd hc
      have hdep : checkDepthLimit opts depth = .ok () := by
        refine checkDepth_ok ?_
        have := heightN_pos (Node.mk sv uv key cs kind)
        omega
      cases kind with
      | object =>
        simp only [wfNode, Bool.and_eq_true, Option.isNone_iff_eq_none] at hwf
        obtain ⟨⟨hsv, huv⟩, hcs⟩ := hwf
        subst hsv huv
        simp only [nulFreeN, Bool.and_eq_true, Bool.not_eq_true'] at hnul
        have hkey : readNullTerminatedString
            (strBytes key ++ 0 :: (binEncNodes cs ++ binaryTypeMapEnd :: rest)) =
            .ok (key, binEncNodes cs ++ binaryTypeMapEnd :: rest) :=
          readNTS_strBytes key hnul.1 _
        have hinc : incrementNodeCount opts c = .ok (c + 1) := by
          refine increment_ok ?_
          have := countN_pos (Node.mk none none key cs .object)
          omega
        have hloop := ihl cs key [] depth (c + 1) rest hcs hnul.2
          (by simp only [encFuelN] at hf; omega)
          (by simp only [heightN, Node.kind] at hd ⊢; omega)
          (by simp only [countN, Node.kind] at hc ⊢; omega)
        simp only [binType, Node.kind, binTail]
        simp only [decodeEntryF, hdep, except_bind_ok, List.append_assoc, List.cons_append,
          List.nil_append, hkey, reduceIte, hinc]
        simp only [NewObjectNode, hloop, List.nil_append, Except.ok.injEq, Prod.mk.injEq,
          countN, Node.kind]
        refine ⟨trivial, trivial, ?_⟩
        push_cast
        omega
      | string =>
        simp only [wfNode, Bool.and_eq_true, Option.isSome_iff_exists,
          Option.isNone_iff_eq_none, decide_eq_true_eq] at hwf
        obtain ⟨⟨⟨v, hsv⟩, huv⟩, hcs⟩ := hwf
        subst hsv huv hcs
        simp only [nulFreeN, Bool.and_eq_true, Bool.not_eq_true', Option.getD_some] at hnul
        have hkey := readNTS_strBytes key hnul.1 (strBytes v ++ 0 :: rest)
        have hval := readNTS_strBytes v hnul.2 rest
        have hinc : incrementNodeCount opts c = .ok (c + 1) := by
          refine increment_ok ?_
          simp only [countN, Node.kind] at hc
          omega
        simp only [binType, Node.kind, binTail, Option.getD_some]
        simp only [decodeEntryF, hdep, except_bind_ok, List.append_assoc, List.cons_append,
          List.nil_append, hkey, binaryTypeString, binaryTypeMapStart, reduceIte, hval, hinc]
        simp [NewStringNode, countN, Node.kind]
      | uint32 =>
        cases uv with
        | none => simp [wfNode] at hwf
        | some v =>
          simp only [wfNode, Bool.and_eq_true, Option.isNone_iff_eq_none,
            decide_eq_true_eq] at hwf
          obtain ⟨⟨hv, hsv⟩, hcs⟩ := hwf
          subst hsv hcs
          simp only [nulFreeN, Bool.and_eq_true, Bool.not_eq_true'] at hnul
          have hkey := readNTS_strBytes key hnul.1 (putUint32LE v ++ rest)
          have hval := readUint32_put v hv rest
          have hinc : incrementNodeCount opts c = .ok (c + 1) := by
            refine increment_ok ?_
            simp only [countN, Node.kind] at hc
            omega
          simp only [binType, Node.kind, binTail, Option.getD_some]
          simp only [decodeEntryF, hdep, except_bind_ok, List.append_assoc, List.cons_append,
            List.nil_append, hkey, binaryTypeNumber, binaryTypeMapStart, binaryTypeString,
            reduceIte, hval, hinc]
          simp [NewUint32Node, countN, Node.kind]
    · intro ns key acc depth c rest hwf hnul hf hd hc
      cases ns with
      | nil =>
        simp [binEncNodes, decodeObjLoopF, countL]
      | cons hd' tl =>
        simp only [wfNodes, Bool.and_eq_true] at hwf
        simp only [nulFreeL, Bool.and_eq_true] at hnul
        have hdhd := heightN_pos hd'
        have hshape := binEncNode_eq hd'
        have htne := binType_ne_mapEnd hd'
        have hhead := ihn hd' (depth + 1) c (binEncNodes tl ++ binaryTypeMapEnd :: rest)
          hwf.1 hnul.1
          (by simp only [encFuelL] at hf; omega)
          (by
            rcases hd with h | h
            · exact Or.inl h
            · right
              have := le_max_left (heightN hd') (heightL tl)
              simp only [heightL] at h
              push_cast
              omega)
          (by
            rcases hc with h | h
            · exact Or.inl h
            · right
              simp only [countL] at h
              push_cast at h ⊢
              omega)
        have htail := ihl tl key (acc ++ [hd']) depth (c + countN hd') rest hwf.2 hnul.2
          (by simp only [encFuelL] at hf; omega)
          (by
            rcases hd with h | h
            · exact Or.inl h
            · right
              have := le_max_right (heightN hd') (heightL tl)
              simp only [heightL] at h
              push_cast at h ⊢
              omega)
          (by
            rcases hc with h | h
            · exact Or.inl h
            · right
              simp only [countL] at h
              push_cast at h ⊢
              omega)
        simp only [binEncNodes, hshape, List.append_assoc, List.cons_append]
        simp only [decodeObjLoopF, htne, reduceIte, hhead, except_bind_ok]
        simp only [hstrict, Bool.false_eq_true, false_and, reduceIte]
        rw [add_object]
        simp only [htail, countL, Except.ok.injEq, Prod.mk.injEq, List.append_assoc,
          List.cons_append, List.nil_append]
        refine ⟨trivial, trivial, ?_⟩
        push_cast
        omega

/-- Depth-limit lemma: with the node budget unlimited and a positive depth
budget, decoding the encoding of a subtree that reaches past the budget fails
with exactly the depth-limit error. -/
theorem decodeEntryF_depthErr : ∀ (fuel : Nat) (opts : DecodeOptions), opts.strict = false →
    opts.maxNodes ≤ 0 → 0 < opts.maxDepth →
    (∀ (n : Node) (depth : Nat) (c : Int) (rest : List Nat),
      wfNode n = true → nulFreeN n = true → encFuelN n ≤ fuel →
      opts.maxDepth < (depth : Int) + ((heightN n : Int) - 1) →
      decodeEntryF fuel opts (binType n) depth c (binTail n ++ rest) =
        .error .depthLimitExceeded) ∧
    (∀ (ns : List Node) (key : Str) (acc : List Node) (depth : Nat) (c : Int)
        (rest : List Nat),
      wfNodes ns = true → nulFreeL ns = true → encFuelL ns ≤ fuel →
      (depth : Int) ≤ opts.maxDepth →
      opts.maxDepth < (depth : Int) + (heightL ns : Int) →
      decodeObjLoopF fuel opts (.mk none none key acc .object) depth c
          (binEncNodes ns ++ binaryTypeMapEnd :: rest) =
        .error .depthLimitExceeded)
  | 0, opts, _, _, _ => by
    constructor
    · intro n _ _ _ _ _ hf _
      have := encFuelN_pos n
      omega
    · intro ns _ _ _ _ _ _ _ hf _ _
      have := encFuelL_pos ns
      omega
  | fuel + 1, opts, hstrict, hmn, hmd => by
    obtain ⟨ihn, ihl⟩ := decodeEntryF_depthErr fuel opts hstrict hmn hmd
    obtain ⟨okn, okl⟩ := decodeEntryF_enc fuel opts hstrict
    constructor
    · rintro ⟨sv, uv, key, cs, kind⟩ depth c rest hwf hnul hf hd
      by_cases hdeep : opts.maxDepth < (depth : Int)
      · -- the depth check itself fails, whatever the node is
        have hdep := checkDepth_err hmd hdeep
        cases kind <;>
          simp [binType, Node.kind, binTail, decodeEntryF, hdep]
      · -- the check passes here, so the node is an object with a deep subtree
        push_neg at hdeep
        have hdep := @checkDepth_ok opts depth (Or.inr hdeep)
        cases kind with
        | object =>
          simp only [wfNode, Bool.and_eq_true, Option.isNone_iff_eq_none] at hwf
          obtain ⟨⟨hsv, huv⟩, hcs⟩ := hwf
          subst hsv huv
          simp only [nulFreeN, Bool.and_eq_true, Bool.not_eq_true'] at hnul
          have hkey := readNTS_strBytes key hnul.1
            (binEncNodes cs ++ binaryTypeMapEnd :: rest)
          have hinc : incrementNodeCount opts c = .ok (c + 1) := increment_ok (Or.inl hmn)
          have hloop := ihl cs key [] depth (c + 1) rest hcs hnul.2
            (by simp only [encFuelN] at hf; omega) hdeep
            (by simp only [heightN, Node.kind] at hd ⊢; push_cast at hd ⊢; omega)
          simp only [binType, Node.kind, binTail]
          simp only [decodeEntryF, hdep, except_bind_ok, List.append_assoc, List.cons_append,
            List.nil_append, hkey, reduceIte, hinc]
          simpa [NewObjectNode] using hloop
        | string =>
          -- a leaf has height 1, contradicting the deep-subtree hypothesis
          simp only [heightN, Node.kind] at hd
          push_cast at hd
          omega
        | uint32 =>
          simp only [heightN, Node.kind] at hd
          push_cast at hd
          omega
    · intro ns key acc depth c rest hwf hnul hf hdle hd
      cases ns with
      | nil =>
        simp only [heightL] at hd
        push_cast at hd
        omega
      | cons hd' tl =>
        simp only [wfNodes, Bool.and_eq_true] at hwf
        simp only [nulFreeL, Bool.and_eq_true] at hnul
        have hshape := binEncNode_eq hd'
        have htne := binType_ne_mapEnd hd'
        simp only [heightL] at hd
        by_cases hh : opts.maxDepth < ((depth : Int) + 1) + ((heightN hd' : Int) - 1)
        · -- the head child's subtree overruns the budget
          have hhead := ihn hd' (depth + 1) c (binEncNodes tl ++ binaryTypeMapEnd :: rest)
            hwf.1 hnul.1 (by simp only [encFuelL] at hf; omega)
            (by push_cast at hh ⊢; omega)
          simp only [binEncNodes, hshape, List.append_assoc, List.cons_append]
          simp only [decodeObjLoopF, htne, reduceIte, hhead, except_bind_error]
        · -- the head child decodes; the overrun is among the remaining children
          push_neg at hh
          have hhead := okn hd' (depth + 1) c (binEncNodes tl ++ binaryTypeMapEnd :: rest)
            hwf.1 hnul.1 (by simp only [encFuelL] at hf; omega)
            (Or.inr (by push_cast at hh ⊢; omega)) (Or.inl hmn)
          have htl : opts.maxDepth < (depth : Int) + (heightL tl : Int) := by
            rcases max_choice (heightN hd') (heightL tl) with hmx | hmx <;>
              rw [hmx] at hd <;> omega
          have htail := ihl tl key (acc ++ [hd']) depth (c + countN hd') rest hwf.2 hnul.2
            (by simp only [encFuelL] at hf; omega) hdle htl
          simp only [binEncNodes, hshape, List.append_assoc, List.cons_append]
          simp only [decodeObjLoopF, htne, reduceIte, hhead, except_bind_ok]
          simp only [hstrict, Bool.false_eq_true, false_and, reduceIte]
          rw [add_object]
          exact htail

/-- Node-limit lemma: with the depth budget unlimited and a positive node
budget not yet exhausted, decoding the encoding of a subtree whose node count
overruns the budget fails with exactly the node-limit error. -/
theorem decodeEntryF_nodesErr : ∀ (fuel : Nat) (opts : DecodeOptions), opts.strict = false →
    opts.maxDepth ≤ 0 → 0 < opts.maxNodes →
    (∀ (n : Node) (depth : Nat) (c : Int) (rest : List Nat),
      wfNode n = true → nulFreeN n = true → encFuelN n ≤ fuel →
      c ≤ opts.maxNodes → opts.maxNodes < c + (countN n : Int) →
      decodeEntryF fuel opts (binType n) depth c (binTail n ++ rest) =
        .error .nodeLimitExceeded) ∧
    (∀ (ns : List Node) (key : Str) (acc : List Node) (depth : Nat) (c : Int)
        (rest : List Nat),
      wfNodes ns = true → nulFreeL ns = true → encFuelL ns ≤ fuel →
      c ≤ opts.maxNodes → opts.maxNodes < c + (countL ns : Int) →
      decodeObjLoopF fuel opts (.mk none none key acc .object) depth c
          (binEncNodes ns ++ binaryTypeMapEnd :: rest) =
        .error .nodeLimitExceeded)
  | 0, opts, _, _, _ => by
    constructor
    · intro n _ _ _ _ _ hf _ _
      have := encFuelN_pos n
      omega
    · intro ns _ _ _ _ _ _ _ hf _ _
      have := encFuelL_pos ns
      omega
  | fuel + 1, opts, hstrict, hmd, hmn => by
    obtain ⟨ihn, ihl⟩ := decodeEntryF_nodesErr fuel opts hstrict hmd hmn
    obtain ⟨okn, okl⟩ := decodeEntryF_enc fuel opts hstrict
    constructor
    · rintro ⟨sv, uv, key, cs, kind⟩ depth c rest hwf hnul hf hcle hc
      have hdep := @checkDepth_ok opts depth (Or.inl hmd)
      cases kind with
      | object =>
        simp only [wfNode, Bool.and_eq_true, Option.isNone_iff_eq_none] at hwf
        obtain ⟨⟨hsv, huv⟩, hcs⟩ := hwf
        subst hsv huv
        simp only [nulFreeN, Bool.and_eq_true, Bool.not_eq_true'] at hnul
        have hkey := readNTS_strBytes key hnul.1
          (binEncNodes cs ++ binaryTypeMapEnd :: rest)
        by_cases hover : opts.maxNodes < c + 1
        · -- the object itself overruns the budget
          have hinc := increment_err hmn hover
          simp only [binType, Node.kind, binTail]
          simp only [decodeEntryF, hdep, except_bind_ok, List.append_assoc, List.cons_append,
            List.nil_append, hkey, reduceIte, hinc, except_bind_error]
        · -- the overrun is among the children
          push_neg at hover
          have hinc := @increment_ok opts c (Or.inr hover)
          have hloop := ihl cs key [] depth (c + 1) rest hcs hnul.2
            (by simp only [encFuelN] at hf; omega) hover
            (by simp only [countN, Node.kind] at hc ⊢; push_cast at hc ⊢; omega)
          simp only [binType, Node.kind, binTail]
          simp only [decodeEntryF, hdep, except_bind_ok, List.append_assoc, List.cons_append,
            List.nil_append, hkey, reduceIte, hinc]
          simpa [NewObjectNode] using hloop
      | string =>
        simp only [wfNode, Bool.and_eq_true, Option.isSome_iff_exists,
          Option.isNone_iff_eq_none, decide_eq_true_eq] at hwf
        obtain ⟨⟨⟨v, hsv⟩, huv⟩, hcs⟩ := hwf
        subst hsv huv hcs
        simp only [nulFreeN, Bool.and_eq_true, Bool.not_eq_true', Option.getD_some] at hnul
        have hkey := readNTS_strBytes key hnul.1 (strBytes v ++ 0 :: rest)
        have hval := readNTS_strBytes v hnul.2 rest
        have hinc : incrementNodeCount opts c = .error .nodeLimitExceeded := by
          refine increment_err hmn ?_
          simp only [countN, Node.kind] at hc
          push_cast at hc
          omega
        simp only [binType, Node.kind, binTail, Option.getD_some]
        simp only [decodeEntryF, hdep, except_bind_ok, List.append_assoc, List.cons_append,
          List.nil_append, hkey, binaryTypeString, binaryTypeMapStart, reduceIte, hval, hinc,
          except_bind_error]
        simp
      | uint32 =>
        cases uv with
        | none => simp [wfNode] at hwf
        | some v =>
          simp only [wfNode, Bool.and_eq_true, Option.isNone_iff_eq_none,
            decide_eq_true_eq] at hwf
          obtain ⟨⟨hv, hsv⟩, hcs⟩ := hwf
          subst hsv hcs
          simp only [nulFreeN, Bool.and_eq_true, Bool.not_eq_true'] at hnul
          have hkey := readNTS_strBytes key hnul.1 (putUint32LE v ++ rest)
          have hval := readUint32_put v hv rest
          have hinc : incrementNodeCount opts c = .error .nodeLimitExceeded := by
            refine increment_err hmn ?_
            simp only [countN, Node.kind] at hc
            push_cast at hc
            omega
          simp only [binType, Node.kind, binTail, Option.getD_some]
          simp only [decodeEntryF, hdep, except_bind_ok, List.append_assoc, List.cons_append,
            List.nil_append, hkey, binaryTypeNumber, binaryTypeMapStart, binaryTypeString,
            reduceIte, hval, hinc, except_bind_error]
          simp
    · intro ns key acc depth c rest hwf hnul hf hcle hc
      cases ns with
      | nil =>
        simp only [countL] at hc
        push_cast at hc
        omega
      | cons hd' tl =>
        simp only [wfNodes, Bool.and_eq_true] at hwf
        simp only [nulFreeL, Bool.and_eq_true] at hnul
        have hshape := binEncNode_eq hd'
        have htne := binType_ne_mapEnd hd'
        simp only [countL] at hc
        by_cases hh : opts.maxNodes < c + (countN hd' : Int)
        · -- already the head child overruns the budget
          have hhead := ihn hd' (depth + 1) c (binEncNodes tl ++ binaryTypeMapEnd :: rest)
            hwf.1 hnul.1 (by simp only [encFuelL] at hf; omega) hcle hh
          simp only [binEncNodes, hshape, List.append_assoc, List.cons_append]
          simp only [decodeObjLoopF, htne, reduceIte, hhead, except_bind_error]
        · -- the head child decodes; the overrun is among the remaining children
          push_neg at hh
          have hhead := okn hd' (depth + 1) c (binEncNodes tl ++ binaryTypeMapEnd :: rest)
            hwf.1 hnul.1 (by simp only [encFuelL] at hf; omega)
            (Or.inl hmd) (Or.inr hh)
          have htail := ihl tl key (acc ++ [hd']) depth (c + countN hd') rest hwf.2 hnul.2
            (by simp only [encFuelL] at hf; omega) hh
            (by push_cast at hc ⊢; omega)
          simp only [binEncNodes, hshape, List.append_assoc, List.cons_append]
          simp only [decodeObjLoopF, htne, reduceIte, hhead, except_bind_ok]
          simp only [hstrict, Bool.false_eq_true, false_and, reduceIte]
          rw [add_object]
          exact htail

/-- Root-loop success: the roots decode, the loop stops at the root-level
map-end byte, and the bytes after it are never examined. -/
theorem decodeDocLoopF_enc {opts : DecodeOptions} (hstrict : opts.strict = false) :
    ∀ (roots : List Node) (fuel : Nat) (doc0 : Document) (c : Int) (junk : List Nat),
      wfNodes roots = true → nulFreeL roots = true → encFuelL roots ≤ fuel →
      (opts.maxDepth ≤ 0 ∨ (heightL roots : Int) ≤ opts.maxDepth) →
      (opts.maxNodes ≤ 0 ∨ c + (countL roots : Int) ≤ opts.maxNodes) →
      decodeDocLoopF fuel opts doc0 c (binEncNodes roots ++ binaryTypeMapEnd :: junk) =
        .ok { doc0 with roots := doc0.roots ++ roots }
  | [], fuel, doc0, c, junk, _, _, hf, _, _ => by
    have h1 : 1 ≤ fuel := le_trans (encFuelL_pos []) hf
    obtain ⟨f, rfl⟩ : ∃ f, fuel = f + 1 := ⟨fuel - 1, by omega⟩
    simp [binEncNodes, decodeDocLoopF]
  | hd' :: tl, fuel, doc0, c, junk, hwf, hnul, hf, hdep, hnode => by
    have h1 : 1 ≤ fuel := le_trans (encFuelL_pos _) hf
    obtain ⟨f, rfl⟩ : ∃ f, fuel = f + 1 := ⟨fuel - 1, by omega⟩
    simp only [wfNodes, Bool.and_eq_true] at hwf
    simp only [nulFreeL, Bool.and_eq_true] at hnul
    simp only [encFuelL] at hf
    simp only [heightL] at hdep
    simp only [countL] at hnode
    have hshape := binEncNode_eq hd'
    have htne := binType_ne_mapEnd hd'
    have hhead := (decodeEntryF_enc f opts hstrict).1 hd' 1 c
      (binEncNodes tl ++ binaryTypeMapEnd :: junk) hwf.1 hnul.1 (by omega)
      (by
        rcases hdep with h | h
        · exact Or.inl h
        · right
          have := le_max_left (heightN hd') (heightL tl)
          push_cast
          omega)
      (by
        rcases hnode with h | h
        · exact Or.inl h
        · right
          push_cast at h ⊢
          omega)
    have htail := decodeDocLoopF_enc hstrict tl f (doc0.addRoot hd') (c + countN hd') junk
      hwf.2 hnul.2 (by omega)
      (by
        rcases hdep with h | h
        · exact Or.inl h
        · right
          have := le_max_right (heightN hd') (heightL tl)
          omega)
      (by
        rcases hnode with h | h
        · exact Or.inl h
        · right
          push_cast at h ⊢
          omega)
    simp only [binEncNodes, hshape, List.append_assoc, List.cons_append]
    simp only [decodeDocLoopF, htne, reduceIte, hhead, except_bind_ok]
    simp only [hstrict, Bool.false_eq_true, false_and, reduceIte]
    rw [htail]
    simp [Document.addRoot]

/-- Root-loop truncation: after at least one root, end of input without the
root-level terminator is a buffer overflow. -/
theorem decodeDocLoopF_truncated {opts : DecodeOptions} (hstrict : opts.strict = false)
    (hmd : opts.maxDepth ≤ 0) (hmn : opts.maxNodes ≤ 0) :
    ∀ (roots : List Node) (fuel : Nat) (doc0 : Document) (c : Int),
      wfNodes roots = true → nulFreeL roots = true → encFuelL roots ≤ fuel →
      doc0.roots ++ roots ≠ [] →
      decodeDocLoopF fuel opts doc0 c (binEncNodes roots) = .error .bufferOverflow
  | [], fuel, doc0, c, _, _, hf, hne => by
    have h1 : 1 ≤ fuel := le_trans (encFuelL_pos []) hf
    obtain ⟨f, rfl⟩ : ∃ f, fuel = f + 1 := ⟨fuel - 1, by omega⟩
    have : doc0.roots ≠ [] := by simpa using hne
    simp [binEncNodes, decodeDocLoopF, this]
  | hd' :: tl, fuel, doc0, c, hwf, hnul, hf, _ => by
    have h1 : 1 ≤ fuel := le_trans (encFuelL_pos _) hf
    obtain ⟨f, rfl⟩ : ∃ f, fuel = f + 1 := ⟨fuel - 1, by omega⟩
    simp only [wfNodes, Bool.and_eq_true] at hwf
    simp only [nulFreeL, Bool.and_eq_true] at hnul
    simp only [encFuelL] at hf
    have hshape := binEncNode_eq hd'
    have htne := binType_ne_mapEnd hd'
    have hhead := (decodeEntryF_enc f opts hstrict).1 hd' 1 c (binEncNodes tl)
      hwf.1 hnul.1 (by omega) (Or.inl hmd) (Or.inl hmn)
    have htail := decodeDocLoopF_truncated hstrict hmd hmn tl f (doc0.addRoot hd')
      (c + countN hd') hwf.2 hnul.2 (by omega) (by simp [Document.addRoot])
    simp only [binEncNodes, hshape, List.append_assoc, List.cons_append]
    simp only [decodeDocLoopF, htne, reduceIte, hhead, except_bind_ok]
    simp only [hstrict, Bool.false_eq_true, false_and, reduceIte]
    exact htail

/-- Root-loop depth error: with the node budget unlimited and a positive
depth budget smaller than the document's height, decoding fails with exactly
the depth-limit error. -/
theorem decodeDocLoopF_depthErr {opts : DecodeOptions} (hstrict : opts.strict = false)
    (hmn : opts.maxNodes ≤ 0) (hmd : 0 < opts.maxDepth) :
    ∀ (roots : List Node) (fuel : Nat) (doc0 : Document) (c : Int) (junk : List Nat),
      wfNodes roots = true → nulFreeL roots = true → encFuelL roots ≤ fuel →
      opts.maxDepth < (heightL roots : Int) →
      decodeDocLoopF fuel opts doc0 c (binEncNodes roots ++ binaryTypeMapEnd :: junk) =
        .error .depthLimitExceeded
  | [], _, _, _, _, _, _, _, hh => by
    simp only [heightL] at hh
    omega
  | hd' :: tl, fuel, doc0, c, junk, hwf, hnul, hf, hh => by
    have h1 : 1 ≤ fuel := le_trans (encFuelL_pos _) hf
    obtain ⟨f, rfl⟩ : ∃ f, fuel = f + 1 := ⟨fuel - 1, by omega⟩
    simp only [wfNodes, Bool.and_eq_true] at hwf
    simp only [nulFreeL, Bool.and_eq_true] at hnul
    simp only [encFuelL] at hf
    simp only [heightL] at hh
    have hshape := binEncNode_eq hd'
    have htne := binType_ne_mapEnd hd'
    by_cases hhead : opts.maxDepth < (heightN hd' : Int)
    · have herr := (decodeEntryF_depthErr f opts hstrict hmn hmd).1 hd' 1 c
        (binEncNodes tl ++ binaryTypeMapEnd :: junk) hwf.1 hnul.1 (by omega)
        (by push_cast at hhead ⊢; omega)
      simp only [binEncNodes, hshape, List.append_assoc, List.cons_append]
      simp only [decodeDocLoopF, htne, reduceIte, herr, except_bind_error]
    · push_neg at hhead
      have hok := (decodeEntryF_enc f opts hstrict).1 hd' 1 c
        (binEncNodes tl ++ binaryTypeMapEnd :: junk) hwf.1 hnul.1 (by omega)
        (Or.inr (by push_cast at hhead ⊢; omega)) (Or.inl hmn)
      have htl : opts.maxDepth < (heightL tl : Int) := by
        rcases max_choice (heightN hd') (heightL tl) with hmx | hmx <;>
          rw [hmx] at hh <;> omega
      clear hh
      have htail := decodeDocLoopF_depthErr hstrict hmn hmd tl f (doc0.addRoot hd')
        (c + countN hd') junk hwf.2 hnul.2 (by omega) htl
      simp only [binEncNodes, hshape, List.append_assoc, List.cons_append]
      simp only [decodeDocLoopF, htne, reduceIte, hok, except_bind_ok]
      simp only [hstrict, Bool.false_eq_true, false_and, reduceIte]
      exact htail

/-- Root-loop node-count error: with the depth budget unlimited and a
positive node budget smaller than the document's node count, decoding fails
with exactly the node-limit error. -/
theorem decodeDocLoopF_nodesErr {opts : DecodeOptions} (hstrict : opts.strict = false)
    (hmd : opts.maxDepth ≤ 0) (hmn : 0 < opts.maxNodes) :
    ∀ (roots : List Node) (fuel : Nat) (doc0 : Document) (c : Int) (junk : List Nat),
      wfNodes roots = true → nulFreeL roots = true → encFuelL roots ≤ fuel →
      c ≤ opts.maxNodes → opts.maxNodes < c + (countL roots : Int) →
      decodeDocLoopF fuel opts doc0 c (binEncNodes roots ++ binaryTypeMapEnd :: junk) =
        .error .nodeLimitExceeded
  | [], _, _, _, _, _, _, _, hcle, hh => by
    simp only [countL] at hh
    push_cast at hh
    omega
  | hd' :: tl, fuel, doc0, c, junk, hwf, hnul, hf, hcle, hh => by
    have h1 : 1 ≤ fuel := le_trans (encFuelL_pos _) hf
    obtain ⟨f, rfl⟩ : ∃ f, fuel = f + 1 := ⟨fuel - 1, by omega⟩
    simp only [wfNodes, Bool.and_eq_true] at hwf
    simp only [nulFreeL, Bool.and_eq_true] at hnul
    simp only [encFuelL] at hf
    simp only [countL] at hh
    have hshape := binEncNode_eq hd'
    have htne := binType_ne_mapEnd hd'
    by_cases hhead : opts.maxNodes < c + (countN hd' : Int)
    · have herr := (decodeEntryF_nodesErr f opts hstrict hmd hmn).1 hd' 1 c
        (binEncNodes tl ++ binaryTypeMapEnd :: junk) hwf.1 hnul.1 (by omega) hcle hhead
      simp only [binEncNodes, hshape, List.append_assoc, List.cons_append]
      simp only [decodeDocLoopF, htne, reduceIte, herr, except_bind_error]
    · push_neg at hhead
      have hok := (decodeEntryF_enc f opts hstrict).1 hd' 1 c
        (binEncNodes tl ++ binaryTypeMapEnd :: junk) hwf.1 hnul.1 (by omega)
        (Or.inl hmd) (Or.inr hhead)
      have htail := decodeDocLoopF_nodesErr hstrict hmd hmn tl f (doc0.addRoot hd')
        (c + countN hd') junk hwf.2 hnul.2 (by omega) hhead
        (by push_cast at hh ⊢; omega)
      simp only [binEncNodes, hshape, List.append_assoc, List.cons_append]
      simp only [decodeDocLoopF, htne, reduceIte, hok, except_bind_ok]
      simp only [hstrict, Bool.false_eq_true, false_and, reduceIte]
      exact htail

/-! ## Encoded-size bounds: the wrapper fuel `input.length + 1` suffices -/

mutual

theorem binEncNode_len : ∀ n : Node, encFuelN n ≤ (binEncNode n).length ∧
    2 ≤ (binEncNode n).length
  | .mk sv uv key cs kind => by
    cases kind with
    | object =>
      have ih := binEncNodes_len cs
      simp only [binEncNode, encFuelN]
      simp only [List.length_append, List.length_cons, List.length_append]
      simp only [List.length_append, List.length_cons, List.length_nil]
      omega
    | string =>
      have ih := binEncNodes_len ([] : List Node)
      simp only [binEncNode, encFuelN, encFuelL]
      simp only [List.length_cons, List.length_append, List.length_nil]
      omega
    | uint32 =>
      simp only [binEncNode, encFuelN, encFuelL, putUint32LE]
      simp only [List.length_cons, List.length_append, List.length_nil]
      omega

theorem binEncNodes_len : ∀ ns : List Node, encFuelL ns ≤ (binEncNodes ns).length + 1
  | [] => by simp [binEncNodes, encFuelL]
  | c :: cs => by
    have ihn := binEncNode_len c
    have ihl := binEncNodes_len cs
    simp only [binEncNodes, encFuelL, List.length_append]
    omega

end

/-! ## Text lexer (lexer.go) -/

/-- The Unicode `White_Space` code points above ASCII (`unicode.IsSpace`'s
answer for runes larger than 0x7f). -/
def unicodeIsSpace (n : Nat) : Bool :=
  n = 0x85 || n = 0xA0 || n = 0x1680 || (0x2000 ≤ n && n ≤ 0x200A) ||
    n = 0x2028 || n = 0x2029 || n = 0x202F || n = 0x205F || n = 0x3000

/-- `isWhitespace`: ASCII fast path, Unicode fallback. -/
def isWhitespace (c : Char) : Bool :=
  if c.toNat ≤ 0x7f then
    c = spChar || c = tabChar || c = nlChar || c = crChar || c = vtChar || c = ffChar
  else
    unicodeIsSpace c.toNat

/-- `skipWhitespace`: drop leading whitespace runes. -/
def skipWhitespace : Str → Str
  | [] => []
  | c :: rest => if isWhitespace c then skipWhitespace rest else c :: rest

/-- `skipLineComment`: drop runes up to and including the newline (or all of
them at end of input). -/
def skipLineComment : Str → Str
  | [] => []
  | c :: rest => if c = nlChar then rest else skipLineComment rest

/-- The decoded expansion of one escaped rune inside a quoted string
(`readQuotedString`'s switch): the five recognized escapes decode, anything
else stays as backslash plus the rune. -/
def escDecode (e : Char) : Str :=
  if e = 'n' then [nlChar]
  else if e = 't' then [tabChar]
  else if e = 'r' then [crChar]
  else if e = bslash then [bslash]
  else if e = dquote then [dquote]
  else [bslash, e]

/-- Body of `readQuotedString`, after the opening quote was consumed. -/
def readQuotedBody : Str → Except VdfErr (Str × Str)
  | [] => .error .unexpectedEOFInQuotedString
  | c :: rest =>
    if c = dquote then .ok ([], rest)
    else if c = bslash then
      match rest with
      | [] => .error .unexpectedEOFInEscapeSequence
      | e :: rest2 => do
        let (s, r) ← readQuotedBody rest2
        .ok (escDecode e ++ s, r)
    else do
      let (s, r) ← readQuotedBody rest
      .ok (c :: s, r)

/-- `readQuotedString`: consume the opening quote, then the body.  (The empty
case cannot be reached from `nextToken`, which only calls this after peeking
a quote rune.) -/
def readQuotedString : Str → Except VdfErr (Str × Str)
  | [] => .error .unexpectedEOFInQuotedString
  | _ :: rest => readQuotedBody rest

/-- `readUnquotedString`: runes up to whitespace, a brace, a quote, or end of
input (never fails). -/
def readUnquotedString : Str → Str × Str
  | [] => ([], [])
  | c :: rest =>
    if isWhitespace c || c = lbrace || c = rbrace || c = dquote then ([], c :: rest)
    else
      let (s, r) := readUnquotedString rest
      (c :: s, r)

/-- `textTokenKind`. -/
inductive TokenKind where
  | eof
  | str
  | lbrace
  | rbrace
deriving DecidableEq, Repr

/-- `textToken` (line/column omitted; see the header note). -/
structure Token where
  kind : TokenKind
  value : Str
deriving DecidableEq, Repr

/-- `nextToken`: skip whitespace, dispatch on the next rune.  A slash is a
comment only when followed by a second slash, otherwise it starts an
unquoted token; the comment branch loops, so it carries fuel (each loop
iteration consumes the two slashes, so the wrapper's fuel is sufficient and
the out-of-fuel branch is unreachable). -/
def nextTokenF : Nat → Str → Except VdfErr (Token × Str)
  | 0, _ => .error .unexpectedCharacter
  | fuel + 1, input =>
    let input := skipWhitespace input
    match input with
    | [] => .ok (⟨.eof, []⟩, [])
    | c :: rest =>
      if c = '/' then
        match rest with
        | c2 :: rest2 =>
          if c2 = '/' then nextTokenF fuel (skipLineComment rest2)
          else
            let (s, r) := readUnquotedString rest
            .ok (⟨.str, '/' :: s⟩, r)
        | [] =>
          let (s, r) := readUnquotedString rest
          .ok (⟨.str, '/' :: s⟩, r)
      else if c = lbrace then .ok (⟨.lbrace, [lbrace]⟩, rest)
      else if c = rbrace then .ok (⟨.rbrace, [rbrace]⟩, rest)
      else if c = dquote then do
        let (s, r) ← readQuotedString (c :: rest)
        .ok (⟨.str, s⟩, r)
      else
        let (s, r) := readUnquotedString (c :: rest)
        if s = [] then .error .unexpectedCharacter
        else .ok (⟨.str, s⟩, r)

/-- `nextToken` with its always-sufficient fuel. -/
def nextToken (input : Str) : Except VdfErr (Token × Str) :=
  nextTokenF (input.length + 1) input

/-! ## Text parser (parser.go), with explicit fuel

The source parser keeps a one-token peek buffer; since the lexer is a pure
function of the remaining input, peeking is modelled by running `nextToken`
and discarding the advanced input. -/

mutual

/-- `textParser.parseNode`: a key token, then either a scalar value token or
an object.  State: remaining input, depth, node counter. -/
def parseNodeF : Nat → DecodeOptions → Str → Nat → Int → Except VdfErr (Node × Str × Int)
  | 0, _, _, _, _ => .error .unexpectedEOFInObject
  | fuel + 1, opts, input, depth, c => do
    let _ ← checkDepthLimit opts depth
    let (keyTok, input) ← nextToken input
    if keyTok.kind = .str then do
      let (nextTok, _) ← nextToken input
      match nextTok.kind with
      | .str => do
        let (valueTok, input) ← nextToken input
        let c ← incrementNodeCount opts c
        .ok (NewStringNode keyTok.value valueTok.value, input, c)
      | .lbrace => parseObjectF fuel opts keyTok.value input depth c
      | _ => .error .expectedValueOrObject
    else .error .expectedStringKey

/-- `textParser.parseObject`: consume the opening brace, count the object
node, then the child loop. -/
def parseObjectF : Nat → DecodeOptions → Str → Str → Nat → Int →
    Except VdfErr (Node × Str × Int)
  | 0, _, _, _, _, _ => .error .unexpectedEOFInObject
  | fuel + 1, opts, key, input, depth, c => do
    let (lb, input) ← nextToken input
    if lb.kind = .lbrace then do
      let c ← incrementNodeCount opts c
      parseObjLoopF fuel opts (NewObjectNode key) input depth c
    else .error .expectedObjectStart

/-- The child loop of `parseObject`: peek — a closing brace finishes the
object, end of input is an error, anything else parses one child at
`depth + 1` (rejecting duplicate keys in strict mode). -/
def parseObjLoopF : Nat → DecodeOptions → Node → Str → Nat → Int →
    Except VdfErr (Node × Str × Int)
  | 0, _, _, _, _, _ => .error .unexpectedEOFInObject
  | fuel + 1, opts, node, input, depth, c => do
    let (tok, _) ← nextToken input
    match tok.kind with
    | .rbrace => do
      let (_, input) ← nextToken input
      .ok (node, input, c)
    | .eof => .error .unexpectedEOFInObject
    | _ => do
      let (child, input, c) ← parseNodeF fuel opts input (depth + 1) c
      if opts.strict ∧ containsKey node.children child.key then
        .error .duplicateKeyInStrictMode
      else
        parseObjLoopF fuel opts (node.add child) input depth c

end

/-- `parseTextDocument`'s root loop: parse roots at depth 1 until the end
token (rejecting duplicate root keys in strict mode). -/
def parseDocLoopF : Nat → DecodeOptions → Document → Str → Int → Except VdfErr Document
  | 0, _, _, _, _ => .error .unexpectedEOFInObject
  | fuel + 1, opts, doc, input, c => do
    let (tok, _) ← nextToken input
    if tok.kind = .eof then .ok doc
    else do
      let (node, input, c) ← parseNodeF fuel opts input 1 c
      if opts.strict ∧ containsKey doc.roots node.key then
        .error .duplicateKeyInStrictMode
      else
        parseDocLoopF fuel opts (doc.addRoot node) input c

/-- `parseTextDocument`: decode a full text stream.  Fuel `input.length + 1`
always suffices: every fuel decrement consumes at least one input rune. -/
def parseTextDocument (opts : DecodeOptions) (input : Str) : Except VdfErr Document :=
  parseDocLoopF (input.length + 1) opts (NewDocumentWithFormat .text) input 0

/-! ## Text encoder (text_encode.go) -/

/-- Runes escaped by the text encoder. -/
def isSpecialChar (c : Char) : Bool :=
  c = bslash || c = dquote || c = nlChar || c = tabChar || c = crChar

/-- One rune's escaped form. -/
def escChar (c : Char) : Str :=
  if c = bslash then [bslash, bslash]
  else if c = dquote then [bslash, dquote]
  else if c = nlChar then [bslash, 'n']
  else if c = tabChar then [bslash, 't']
  else if c = crChar then [bslash, 'r']
  else [c]

/-- `escapeString`: fast path when no rune needs escaping, otherwise the
builder loop (a concat-map over the runes). -/
def escapeString (value : Str) : Str :=
  if !value.any isSpecialChar then value
  else value.flatMap escChar

/-- `textValueForNode`: a string leaf's value, or a uint32 leaf's unsigned
decimal form (`strconv.FormatUint`). -/
def textValueForNode : Node → Except VdfErr Str
  | .mk sv uv _ _ kind =>
    match kind with
    | .string =>
      match sv with
      | none => .error .invalidNodeState
      | some v => .ok v
    | .uint32 =>
      match uv with
      | none => .error .invalidNodeState
      | some v => .ok (Nat.repr v).data
    | .object => .error .invalidNodeState

/-- `strings.Repeat(opts.Indent, depth)`. -/
def indentRepeat (indent : Str) (depth : Nat) : Str :=
  (List.replicate depth indent).flatten

mutual

/-- `encodeTextNode`: one node in pretty or compact layout (fuel as for the
binary encoder; the out-of-fuel branch is unreachable from the wrapper). -/
def encodeTextNodeF : Nat → EncodeOptions → Node → Nat → Except VdfErr Str
  | 0, _, _, _ => .error .invalidNodeState
  | fuel + 1, opts, .mk sv uv key cs kind, depth =>
    match kind with
    | .object =>
      if opts.compact then do
        let body ← encodeTextNodesF fuel opts (orderedNodes cs opts.deterministic) (depth + 1)
        .ok (dquote :: escapeString key ++ [dquote, spChar, lbrace, spChar] ++ body ++
          [rbrace, spChar])
      else do
        let body ← encodeTextNodesF fuel opts (orderedNodes cs opts.deterministic) (depth + 1)
        .ok (indentRepeat opts.indent depth ++ dquote :: escapeString key ++
          [dquote, nlChar] ++ indentRepeat opts.indent depth ++ [lbrace, nlChar] ++ body ++
          indentRepeat opts.indent depth ++ [rbrace, nlChar])
    | .string => do
      let value ← textValueForNode (.mk sv uv key cs kind)
      if opts.compact then
        .ok (dquote :: escapeString key ++ [dquote, spChar] ++ dquote :: escapeString value ++
          [dquote, spChar])
      else
        .ok (indentRepeat opts.indent depth ++ dquote :: escapeString key ++
          [dquote, tabChar, tabChar] ++ dquote :: escapeString value ++ [dquote, nlChar])
    | .uint32 => do
      let value ← textValueForNode (.mk sv uv key cs kind)
      if opts.compact then
        .ok (dquote :: escapeString key ++ [dquote, spChar] ++ dquote :: escapeString value ++
          [dquote, spChar])
      else
        .ok (indentRepeat opts.indent depth ++ dquote :: escapeString key ++
          [dquote, tabChar, tabChar] ++ dquote :: escapeString value ++ [dquote, nlChar])

/-- The child loop of `encodeTextNode`'s object case. -/
def encodeTextNodesF : Nat → EncodeOptions → List Node → Nat → Except VdfErr Str
  | 0, _, _, _ => .error .invalidNodeState
  | _ + 1, _, [], _ => .ok []
  | fuel + 1, opts, c :: cs, depth => do
    let e ← encodeTextNodeF fuel opts c depth
    let rest ← encodeTextNodesF fuel opts cs depth
    .ok (e ++ rest)

end

/-- The root loop of `encodeTextDocument`: a blank separator line between
consecutive roots in pretty mode. -/
def encodeTextRootsF : Nat → EncodeOptions → List Node → Except VdfErr Str
  | 0, _, _ => .error .invalidNodeState
  | _ + 1, _, [] => .ok []
  | fuel + 1, opts, [r] => encodeTextNodeF fuel opts r 0
  | fuel + 1, opts, r :: rs => do
    let e ← encodeTextNodeF fuel opts r 0
    let rest ← encodeTextRootsF fuel opts rs
    .ok (e ++ (if opts.compact then [] else [nlChar]) ++ rest)

/-- `encodeTextDocument` (applied to already-normalized options, as the
source encoder does). -/
def encodeTextDocument (opts : EncodeOptions) (doc : Document) : Except VdfErr Str :=
  let roots := orderedNodes doc.roots opts.deterministic
  encodeTextRootsF (encFuelL roots) opts roots

/-! ## Specification form of the default (pretty, tab-indent) text encoding -/

/-- Escaping as a plain concat-map. -/
def escStr (s : Str) : Str := s.flatMap escChar

/-- A quoted token holding the escaped form of `s`. -/
def quoteTok (s : Str) : Str := dquote :: escStr s ++ [dquote]

/-- `depth` tabs. -/
def indentN (depth : Nat) : Str := List.replicate depth tabChar

mutual

/-- Default-options text encoding of one node at an indent depth. -/
def txtEncNode : Nat → Node → Str
  | d, .mk sv uv key cs kind =>
    match kind with
    | .object =>
      indentN d ++ quoteTok key ++ [nlChar] ++ indentN d ++ [lbrace, nlChar] ++
        txtEncNodes (d + 1) cs ++ indentN d ++ [rbrace, nlChar]
    | .string =>
      indentN d ++ quoteTok key ++ [tabChar, tabChar] ++ quoteTok (sv.getD []) ++ [nlChar]
    | .uint32 =>
      indentN d ++ quoteTok key ++ [tabChar, tabChar] ++
        quoteTok (Nat.repr (uv.getD 0)).data ++ [nlChar]

/-- Default-options text encoding of a node list. -/
def txtEncNodes : Nat → List Node → Str
  | _, [] => []
  | d, c :: cs => txtEncNode d c ++ txtEncNodes d cs

end

/-- Default-options text encoding of a root list (blank line separators). -/
def txtEncRoots : List Node → Str
  | [] => []
  | [r] => txtEncNode 0 r
  | r :: rs => txtEncNode 0 r ++ [nlChar] ++ txtEncRoots rs

mutual

/-- What text-decoding the text encoding of a node returns: objects keep
their shape, every scalar leaf comes back as a string node holding the
leaf's rendered text (uint32 leaves keep only their decimal form). -/
def textNorm : Node → Node
  | .mk sv uv key cs kind =>
    match kind with
    | .object => .mk none none key (textNorms cs) .object
    | .string => NewStringNode key (sv.getD [])
    | .uint32 => NewStringNode key (Nat.repr (uv.getD 0)).data

/-- `textNorm` over a list. -/
def textNorms : List Node → List Node
  | [] => []
  | c :: cs => textNorm c :: textNorms cs

end

/-! ## Lexer lemmas on encoder-shaped input -/

/-- Every rune of the list is whitespace. -/
def WsOnly (l : Str) : Prop := ∀ c ∈ l, isWhitespace c = true

theorem wsOnly_nil : WsOnly [] := by intro c hc; cases hc

theorem wsOnly_append {a b : Str} (ha : WsOnly a) (hb : WsOnly b) : WsOnly (a ++ b) := by
  intro c hc
  rcases List.mem_append.mp hc with h | h
  · exact ha c h
  · exact hb c h

theorem wsOnly_nl : WsOnly [nlChar] := by
  intro c hc
  simp only [List.mem_singleton] at hc
  subst hc
  decide

theorem wsOnly_nl_nl : WsOnly [nlChar, nlChar] := by
  intro c hc
  simp only [List.mem_cons, List.not_mem_nil, or_false, or_self] at hc
  subst hc
  decide

theorem wsOnly_indent (d : Nat) : WsOnly (indentN d) := by
  intro c hc
  have := List.eq_of_mem_replicate hc
  subst this
  decide

theorem wsOnly_tabs : WsOnly [tabChar, tabChar] := by
  intro c hc
  simp only [List.mem_cons, List.not_mem_nil, or_false, or_self] at hc
  subst hc
  decide

theorem skipWhitespace_ws : ∀ {pre : Str}, WsOnly pre →
    ∀ l, skipWhitespace (pre ++ l) = skipWhitespace l
  | [], _, l => rfl
  | c :: pre, h, l => by
    have hc := h c (List.mem_cons_self c pre)
    have ih := @skipWhitespace_ws pre (fun x hx => h x (List.mem_cons_of_mem c hx)) l
    rw [List.cons_append]
    simp [skipWhitespace, hc, ih]

theorem skipWhitespace_not {c : Char} (hc : isWhitespace c = false) (l : Str) :
    skipWhitespace (c :: l) = c :: l := by
  simp [skipWhitespace, hc]

/-- Non-special runes escape to themselves. -/
theorem escChar_of_not_special {c : Char} (h : isSpecialChar c = false) : escChar c = [c] := by
  simp only [isSpecialChar, Bool.or_eq_false_iff, decide_eq_false_iff_not] at h
  obtain ⟨⟨⟨⟨h1, h2⟩, h3⟩, h4⟩, h5⟩ := h
  simp [escChar, h1, h2, h3, h4, h5]

theorem escStr_cons (c : Char) (s : Str) : escStr (c :: s) = escChar c ++ escStr s := rfl

/-- Escaping is the identity on strings with no special rune. -/
theorem escStr_of_no_special : ∀ {v : Str}, v.any isSpecialChar = false → escStr v = v
  | [], _ => rfl
  | c :: cs, h => by
    simp only [List.any_cons, Bool.or_eq_false_iff] at h
    rw [escStr_cons, escChar_of_not_special h.1, escStr_of_no_special h.2]
    rfl

/-- The source's fast-path `escapeString` equals the plain concat-map. -/
theorem escapeString_eq_escStr (value : Str) : escapeString value = escStr value := by
  unfold escapeString
  split
  · rename_i h
    simp only [Bool.not_eq_true'] at h
    exact (escStr_of_no_special h).symm
  · rfl

theorem readQuotedBody_cons_dquote (rest : Str) :
    readQuotedBody (dquote :: rest) = .ok ([], rest) := by
  rw [readQuotedBody.eq_def]
  dsimp only
  rw [if_pos rfl]

theorem readQuotedBody_cons_esc (e : Char) (rest : Str) :
    readQuotedBody (bslash :: e :: rest) =
      (do
        let (s, r) ← readQuotedBody rest
        .ok (escDecode e ++ s, r)) := by
  rw [readQuotedBody.eq_def]
  dsimp only
  rw [if_neg (by decide), if_pos rfl]

theorem readQuotedBody_cons_plain {c : Char} (h1 : c ≠ dquote) (h2 : c ≠ bslash)
    (rest : Str) :
    readQuotedBody (c :: rest) =
      (do
        let (s, r) ← readQuotedBody rest
        .ok (c :: s, r)) := by
  rw [readQuotedBody.eq_def]
  dsimp only
  rw [if_neg h1, if_neg h2]

/-- Decoding the escaped form of a string inside quotes recovers it exactly. -/
theorem readQuotedBody_escStr : ∀ (s : Str) (rest : Str),
    readQuotedBody (escStr s ++ dquote :: rest) = .ok (s, rest)
  | [], rest => by
    rw [show escStr [] = [] from rfl, List.nil_append, readQuotedBody_cons_dquote]
  | c :: s, rest => by
    have ih := readQuotedBody_escStr s rest
    rw [escStr_cons, List.append_assoc]
    by_cases h1 : c = bslash
    · subst h1
      rw [show escChar bslash = [bslash, bslash] by decide]
      rw [show ([bslash, bslash] : Str) ++ (escStr s ++ dquote :: rest) =
        bslash :: bslash :: (escStr s ++ dquote :: rest) from rfl]
      rw [readQuotedBody_cons_esc, ih]
      rw [show escDecode bslash = [bslash] by decide]
      rfl
    · by_cases h2 : c = dquote
      · subst h2
        rw [show escChar dquote = [bslash, dquote] by decide]
        rw [show ([bslash, dquote] : Str) ++ (escStr s ++ dquote :: rest) =
          bslash :: dquote :: (escStr s ++ dquote :: rest) from rfl]
        rw [readQuotedBody_cons_esc, ih]
        rw [show escDecode dquote = [dquote] by decide]
        rfl
      · by_cases h3 : c = nlChar
        · subst h3
          rw [show escChar nlChar = [bslash, 'n'] by decide]
          rw [show ([bslash, 'n'] : Str) ++ (escStr s ++ dquote :: rest) =
            bslash :: 'n' :: (escStr s ++ dquote :: rest) from rfl]
          rw [readQuotedBody_cons_esc, ih]
          rw [show escDecode 'n' = [nlChar] by decide]
          rfl
        · by_cases h4 : c = tabChar
          · subst h4
            rw [show escChar tabChar = [bslash, 't'] by decide]
            rw [show ([bslash, 't'] : Str) ++ (escStr s ++ dquote :: rest) =
              bslash :: 't' :: (escStr s ++ dquote :: rest) from rfl]
            rw [readQuotedBody_cons_esc, ih]
            rw [show escDecode 't' = [tabChar] by decide]
            rfl
          · by_cases h5 : c = crChar
            · subst h5
              rw [show escChar crChar = [bslash, 'r'] by decide]
              rw [show ([bslash, 'r'] : Str) ++ (escStr s ++ dquote :: rest) =
                bslash :: 'r' :: (escStr s ++ dquote :: rest) from rfl]
              rw [readQuotedBody_cons_esc, ih]
              rw [show escDecode 'r' = [crChar] by decide]
              rfl
            · have hesc : escChar c = [c] :=
                escChar_of_not_special (by
                  simp [isSpecialChar, h1, h2, h3, h4, h5])
              rw [hesc, List.singleton_append, readQuotedBody_cons_plain h2 h1, ih]
              rfl

/-- Whitespace-only input is skipped entirely. -/
theorem skipWhitespace_all {pre : Str} (hws : WsOnly pre) : skipWhitespace pre = [] := by
  have h := skipWhitespace_ws hws []
  simpa using h

/-- `nextToken` on a whitespace prefix followed by a quoted token. -/
theorem nextToken_quoted {pre : Str} (hws : WsOnly pre) (s rest : Str) :
    nextToken (pre ++ quoteTok s ++ rest) = .ok (⟨.str, s⟩, rest) := by
  unfold nextToken nextTokenF
  rw [List.append_assoc, skipWhitespace_ws hws]
  rw [show quoteTok s ++ rest = dquote :: (escStr s ++ [dquote] ++ rest) by simp [quoteTok]]
  rw [skipWhitespace_not (by decide)]
  dsimp only
  rw [if_neg (by decide), if_neg (by decide), if_neg (by decide), if_pos rfl]
  have hq : readQuotedString (dquote :: (escStr s ++ [dquote] ++ rest)) = .ok (s, rest) := by
    show readQuotedBody (escStr s ++ [dquote] ++ rest) = .ok (s, rest)
    rw [List.append_assoc, List.singleton_append]
    exact readQuotedBody_escStr s rest
  rw [hq]
  rfl

/-- `nextToken` on a whitespace prefix followed by an opening brace. -/
theorem nextToken_lbrace {pre : Str} (hws : WsOnly pre) (rest : Str) :
    nextToken (pre ++ lbrace :: rest) = .ok (⟨.lbrace, [lbrace]⟩, rest) := by
  unfold nextToken nextTokenF
  rw [skipWhitespace_ws hws]
  rw [skipWhitespace_not (by decide)]
  dsimp only
  rw [if_neg (by decide), if_pos rfl]

/-- `nextToken` on a whitespace prefix followed by a closing brace. -/
theorem nextToken_rbrace {pre : Str} (hws : WsOnly pre) (rest : Str) :
    nextToken (pre ++ rbrace :: rest) = .ok (⟨.rbrace, [rbrace]⟩, rest) := by
  unfold nextToken nextTokenF
  rw [skipWhitespace_ws hws]
  rw [skipWhitespace_not (by decide)]
  dsimp only
  rw [if_neg (by decide), if_neg (by decide), if_pos rfl]

/-- `nextToken` on pure whitespace: the end-of-input token. -/
theorem nextToken_eof {pre : Str} (hws : WsOnly pre) :
    nextToken pre = .ok (⟨.eof, []⟩, []) := by
  unfold nextToken nextTokenF
  rw [skipWhitespace_all hws]

/-! ## Text parser specification lemmas -/

mutual

/-- Fuel sufficient for `parseNodeF` on a subtree's encoding (`parseNode` and
`parseObject` each cost one level, the child loop one per child). -/
def ptFuelN : Node → Nat
  | .mk _ _ _ cs kind =>
    match kind with
    | .object => 2 + ptFuelL cs
    | _ => 1

/-- Fuel sufficient for `parseObjLoopF` on a child list's encoding. -/
def ptFuelL : List Node → Nat
  | [] => 1
  | c :: cs => 1 + max (ptFuelN c) (ptFuelL cs)

end

/-- Fuel sufficient for `parseDocLoopF` on a root list's encoding. -/
def ptFuelD : List Node → Nat
  | [] => 1
  | r :: rs => 1 + max (ptFuelN r) (ptFuelD rs)

theorem ptFuelN_pos (n : Node) : 1 ≤ ptFuelN n := by
  cases n with
  | mk sv uv key cs kind => cases kind <;> simp only [ptFuelN] <;> omega

theorem ptFuelL_pos (ns : List Node) : 1 ≤ ptFuelL ns := by
  cases ns <;> simp only [ptFuelL] <;> omega

theorem ptFuelD_pos (ns : List Node) : 1 ≤ ptFuelD ns := by
  cases ns <;> simp only [ptFuelD] <;> omega

/-- Every node's text encoding starts with indentation and its quoted key, so
peeking at it yields a string token holding the key. -/
theorem nextToken_txtEncNode {pre : Str} (hws : WsOnly pre) (d : Nat) (n : Node) (X : Str) :
    ∃ after, nextToken (pre ++ txtEncNode d n ++ X) = .ok (⟨.str, n.key⟩, after) := by
  cases n with
  | mk sv uv key cs kind =>
    have hws' : WsOnly (pre ++ indentN d) := wsOnly_append hws (wsOnly_indent d)
    cases kind with
    | object =>
      refine ⟨[nlChar] ++ indentN d ++ [lbrace, nlChar] ++ txtEncNodes (d + 1) cs ++
        indentN d ++ [rbrace, nlChar] ++ X, ?_⟩
      rw [show pre ++ txtEncNode d (.mk sv uv key cs .object) ++ X =
        (pre ++ indentN d) ++ quoteTok key ++ ([nlChar] ++ indentN d ++ [lbrace, nlChar] ++
          txtEncNodes (d + 1) cs ++ indentN d ++ [rbrace, nlChar] ++ X) by
        simp [txtEncNode]]
      exact nextToken_quoted hws' key _
    | string =>
      refine ⟨[tabChar, tabChar] ++ quoteTok (sv.getD []) ++ [nlChar] ++ X, ?_⟩
      rw [show pre ++ txtEncNode d (.mk sv uv key cs .string) ++ X =
        (pre ++ indentN d) ++ quoteTok key ++ ([tabChar, tabChar] ++ quoteTok (sv.getD []) ++
          [nlChar] ++ X) by
        simp [txtEncNode]]
      exact nextToken_quoted hws' key _
    | uint32 =>
      refine ⟨[tabChar, tabChar] ++ quoteTok (Nat.repr (uv.getD 0)).data ++ [nlChar] ++ X, ?_⟩
      rw [show pre ++ txtEncNode d (.mk sv uv key cs .uint32) ++ X =
        (pre ++ indentN d) ++ quoteTok key ++ ([tabChar, tabChar] ++
          quoteTok (Nat.repr (uv.getD 0)).data ++ [nlChar] ++ X) by
        simp [txtEncNode]]
      exact nextToken_quoted hws' key _

/-- Core text-parser success lemma: parsing the default text encoding of a
well-formed subtree—when neither resource limit is hit—returns the subtree's
`textNorm` image, consumes its encoding up to the final newline, and advances
the node counter by its node count. -/
theorem parseText_enc (fuel : Nat) (opts : DecodeOptions) (hstrict : opts.strict = false) :
    (∀ (n : Node) (d dp : Nat) (c : Int) (pre rest : Str),
      wfNode n = true → WsOnly pre → ptFuelN n ≤ fuel →
      (opts.maxDepth ≤ 0 ∨ (dp : Int) + ((heightN n : Int) - 1) ≤ opts.maxDepth) →
      (opts.maxNodes ≤ 0 ∨ c + (countN n : Int) ≤ opts.maxNodes) →
      parseNodeF fuel opts (pre ++ txtEncNode d n ++ rest) dp c =
        .ok (textNorm n, nlChar :: rest, c + countN n)) ∧
    (∀ (ns : List Node) (d dp : Nat) (c : Int) (key : Str) (acc : List Node)
        (pre ws2 rest : Str),
      wfNodes ns = true → WsOnly pre → WsOnly ws2 → ptFuelL ns ≤ fuel →
      (opts.maxDepth ≤ 0 ∨ (dp : Int) + (heightL ns : Int) ≤ opts.maxDepth) →
      (opts.maxNodes ≤ 0 ∨ c + (countL ns : Int) ≤ opts.maxNodes) →
      parseObjLoopF fuel opts (.mk none none key acc .object)
          (pre ++ txtEncNodes d ns ++ ws2 ++ rbrace :: rest) dp c =
        .ok (.mk none none key (acc ++ textNorms ns) .object, rest, c + countL ns)) := by
  induction fuel using Nat.strong_induction_on with
  | _ fuel ih =>
    cases fuel with
    | zero =>
      constructor
      · intro n _ _ _ _ _ _ _ hf _ _
        have := ptFuelN_pos n
        omega
      · intro ns _ _ _ _ _ _ _ _ _ _ _ hf _ _
        have := ptFuelL_pos ns
        omega
    | succ f1 =>
      obtain ⟨ihn, ihl⟩ := ih f1 (by omega)
      constructor
      · rintro ⟨sv, uv, key, cs, kind⟩ d dp c pre rest hwf hpre hf hd hc
        have hdep : checkDepthLimit opts dp = .ok () := by
          refine checkDepth_ok ?_
          have := heightN_pos (Node.mk sv uv key cs kind)
          omega
        have hwsk : WsOnly (pre ++ indentN d) := wsOnly_append hpre (wsOnly_indent d)
        cases kind with
        | object =>
          simp only [wfNode, Bool.and_eq_true, Option.isNone_iff_eq_none] at hwf
          obtain ⟨⟨hsv, huv⟩, hcs⟩ := hwf
          subst hsv huv
          obtain ⟨f2, rfl⟩ : ∃ f2, f1 = f2 + 1 := by
            simp only [ptFuelN] at hf
            exact ⟨f1 - 1, by omega⟩
          obtain ⟨_, ihl2⟩ := ih f2 (by omega)
          -- the key token, the peeked opening brace, and the child loop
          have e1 : pre ++ txtEncNode d (.mk none none key cs .object) ++ rest =
              (pre ++ indentN d) ++ quoteTok key ++
                ([nlChar] ++ indentN d ++ lbrace ::
                  ([nlChar] ++ txtEncNodes (d + 1) cs ++ indentN d ++
                    rbrace :: nlChar :: rest)) := by
            simp [txtEncNode]
          have hkey := nextToken_quoted hwsk key
            ([nlChar] ++ indentN d ++ lbrace ::
              ([nlChar] ++ txtEncNodes (d + 1) cs ++ indentN d ++ rbrace :: nlChar :: rest))
          have hlb := nextToken_lbrace
            (wsOnly_append wsOnly_nl (wsOnly_indent d))
            ([nlChar] ++ txtEncNodes (d + 1) cs ++ indentN d ++ rbrace :: nlChar :: rest)
          have hinc : incrementNodeCount opts c = .ok (c + 1) := by
            refine increment_ok ?_
            have := countN_pos (Node.mk none none key cs .object)
            omega
          have hloop := ihl2 cs (d + 1) dp (c + 1) key [] [nlChar] (indentN d)
            (nlChar :: rest) hcs wsOnly_nl (wsOnly_indent d)
            (by simp only [ptFuelN, ptFuelL] at hf ⊢; omega)
            (by simp only [heightN, Node.kind] at hd ⊢; omega)
            (by simp only [countN, Node.kind] at hc ⊢; push_cast at hc ⊢; omega)
          rw [e1]
          simp only [parseNodeF, hdep, except_bind_ok, hkey, reduceIte, hlb]
          simp only [parseObjectF, hlb, except_bind_ok, reduceIte, hinc]
          rw [show NewObjectNode key = Node.mk none none key [] .object from rfl]
          rw [hloop]
          simp only [List.nil_append, Except.ok.injEq, Prod.mk.injEq, textNorm, countN,
            Node.kind]
          refine ⟨trivial, trivial, ?_⟩
          push_cast
          omega
        | string =>
          simp only [wfNode, Bool.and_eq_true, Option.isSome_iff_exists,
            Option.isNone_iff_eq_none, decide_eq_true_eq] at hwf
          obtain ⟨⟨⟨v, hsv⟩, huv⟩, hcs⟩ := hwf
          subst hsv huv hcs
          have e1 : pre ++ txtEncNode d (.mk (some v) none key [] .string) ++ rest =
              (pre ++ indentN d) ++ quoteTok key ++
                ([tabChar, tabChar] ++ quoteTok v ++ (nlChar :: rest)) := by
            simp [txtEncNode]
          have hkey := nextToken_quoted hwsk key
            ([tabChar, tabChar] ++ quoteTok v ++ (nlChar :: rest))
          have hval : nextToken ([tabChar, tabChar] ++ quoteTok v ++ (nlChar :: rest)) =
              .ok (⟨.str, v⟩, nlChar :: rest) := nextToken_quoted wsOnly_tabs v _
          have hinc : incrementNodeCount opts c = .ok (c + 1) := by
            refine increment_ok ?_
            simp only [countN, Node.kind] at hc
            omega
          rw [e1]
          simp only [parseNodeF, hdep, except_bind_ok, hkey]
          simp only [reduceIte, hval, except_bind_ok, hinc]
          simp only [textNorm, NewStringNode, countN, Node.kind, Option.getD_some,
            Except.ok.injEq, Prod.mk.injEq]
          refine ⟨trivial, trivial, ?_⟩
          push_cast
          omega
        | uint32 =>
          cases uv with
          | none => simp [wfNode] at hwf
          | some u =>
            simp only [wfNode, Bool.and_eq_true, Option.isNone_iff_eq_none,
              decide_eq_true_eq] at hwf
            obtain ⟨⟨hu, hsv⟩, hcs⟩ := hwf
            subst hsv hcs
            have e1 : pre ++ txtEncNode d (.mk none (some u) key [] .uint32) ++ rest =
                (pre ++ indentN d) ++ quoteTok key ++
                  ([tabChar, tabChar] ++ quoteTok (Nat.repr u).data ++ (nlChar :: rest)) := by
              simp [txtEncNode]
            have hkey := nextToken_quoted hwsk key
              ([tabChar, tabChar] ++ quoteTok (Nat.repr u).data ++ (nlChar :: rest))
            have hval : nextToken ([tabChar, tabChar] ++ quoteTok (Nat.repr u).data ++
                (nlChar :: rest)) = .ok (⟨.str, (Nat.repr u).data⟩, nlChar :: rest) :=
              nextToken_quoted wsOnly_tabs (Nat.repr u).data _
            have hinc : incrementNodeCount opts c = .ok (c + 1) := by
              refine increment_ok ?_
              simp only [countN, Node.kind] at hc
              omega
            rw [e1]
            simp only [parseNodeF, hdep, except_bind_ok, hkey]
            simp only [reduceIte, hval, except_bind_ok, hinc]
            simp only [textNorm, NewStringNode, countN, Node.kind, Option.getD_some,
              Except.ok.injEq, Prod.mk.injEq]
            refine ⟨trivial, trivial, ?_⟩
            push_cast
            omega
      · intro ns d dp c key acc pre ws2 rest hwf hpre hws2 hf hd hc
        cases ns with
        | nil =>
          have hrb : nextToken (pre ++ txtEncNodes d [] ++ ws2 ++ rbrace :: rest) =
              .ok (⟨.rbrace, [rbrace]⟩, rest) := by
            rw [show pre ++ txtEncNodes d [] ++ ws2 ++ rbrace :: rest =
              (pre ++ ws2) ++ rbrace :: rest by simp [txtEncNodes]]
            exact nextToken_rbrace (wsOnly_append hpre hws2) rest
          simp only [parseObjLoopF, hrb, except_bind_ok]
          simp [textNorms, countL]
        | cons hd' tl =>
          simp only [wfNodes, Bool.and_eq_true] at hwf
          have hrw : pre ++ txtEncNodes d (hd' :: tl) ++ ws2 ++ rbrace :: rest =
              pre ++ txtEncNode d hd' ++ (txtEncNodes d tl ++ ws2 ++ rbrace :: rest) := by
            simp [txtEncNodes]
          obtain ⟨after, hpeek⟩ := nextToken_txtEncNode hpre d hd'
            (txtEncNodes d tl ++ ws2 ++ rbrace :: rest)
          have hhead := ihn hd' d (dp + 1) c pre (txtEncNodes d tl ++ ws2 ++ rbrace :: rest)
            hwf.1 hpre (by simp only [ptFuelL] at hf; omega)
            (by
              rcases hd with h | h
              · exact Or.inl h
              · right
                have := le_max_left (heightN hd') (heightL tl)
                simp only [heightL] at h
                push_cast at h ⊢
                omega)
            (by
              rcases hc with h | h
              · exact Or.inl h
              · right
                simp only [countL] at h
                push_cast at h ⊢
                omega)
          have htail := ihl tl d dp (c + countN hd') key (acc ++ [textNorm hd']) [nlChar] ws2
            rest hwf.2 wsOnly_nl hws2 (by simp only [ptFuelL] at hf; omega)
            (by
              rcases hd with h | h
              · exact Or.inl h
              · right
                have := le_max_right (heightN hd') (heightL tl)
                simp only [heightL] at h
                push_cast at h ⊢
                omega)
            (by
              rcases hc with h | h
              · exact Or.inl h
              · right
                simp only [countL] at h
                push_cast at h ⊢
                omega)
          rw [hrw]
          simp only [parseObjLoopF, hpeek, except_bind_ok]
          simp only [hhead, except_bind_ok]
          simp only [hstrict, Bool.false_eq_true, false_and, reduceIte]
          rw [add_object]
          rw [show nlChar :: (txtEncNodes d tl ++ ws2 ++ rbrace :: rest) =
            [nlChar] ++ txtEncNodes d tl ++ ws2 ++ rbrace :: rest by simp]
          rw [htail]
          simp only [textNorms, countL, Except.ok.injEq, Prod.mk.injEq, List.append_assoc,
            List.cons_append, List.nil_append]
          refine ⟨trivial, trivial, ?_⟩
          push_cast
          omega

/-- Text depth-limit lemma: with the node budget unlimited and a positive
depth budget, parsing the encoding of a subtree that reaches past the budget
fails with exactly the depth-limit error. -/
theorem parseText_depthErr (fuel : Nat) (opts : DecodeOptions) (hstrict : opts.strict = false)
    (hmn : opts.maxNodes ≤ 0) (hmd : 0 < opts.maxDepth) :
    (∀ (n : Node) (d dp : Nat) (c : Int) (pre rest : Str),
      wfNode n = true → WsOnly pre → ptFuelN n ≤ fuel →
      opts.maxDepth < (dp : Int) + ((heightN n : Int) - 1) →
      parseNodeF fuel opts (pre ++ txtEncNode d n ++ rest) dp c =
        .error .depthLimitExceeded) ∧
    (∀ (ns : List Node) (d dp : Nat) (c : Int) (key : Str) (acc : List Node)
        (pre ws2 rest : Str),
      wfNodes ns = true → WsOnly pre → WsOnly ws2 → ptFuelL ns ≤ fuel →
      (dp : Int) ≤ opts.maxDepth →
      opts.maxDepth < (dp : Int) + (heightL ns : Int) →
      parseObjLoopF fuel opts (.mk none none key acc .object)
          (pre ++ txtEncNodes d ns ++ ws2 ++ rbrace :: rest) dp c =
        .error .depthLimitExceeded) := by
  induction fuel using Nat.strong_induction_on with
  | _ fuel ih =>
    cases fuel with
    | zero =>
      constructor
      · intro n _ _ _ _ _ _ _ hf _
        have := ptFuelN_pos n
        omega
      · intro ns _ _ _ _ _ _ _ _ _ _ _ hf _ _
        have := ptFuelL_pos ns
        omega
    | succ f1 =>
      obtain ⟨ihn, ihl⟩ := ih f1 (by omega)
      obtain ⟨okn, _⟩ := parseText_enc f1 opts hstrict
      constructor
      · rintro ⟨sv, uv, key, cs, kind⟩ d dp c pre rest hwf hpre hf hd
        by_cases hdeep : opts.maxDepth < (dp : Int)
        · have hdep := checkDepth_err hmd hdeep
          simp only [parseNodeF, hdep, except_bind_error]
        · push_neg at hdeep
          have hdep := @checkDepth_ok opts dp (Or.inr hdeep)
          have hwsk : WsOnly (pre ++ indentN d) := wsOnly_append hpre (wsOnly_indent d)
          cases kind with
          | object =>
            simp only [wfNode, Bool.and_eq_true, Option.isNone_iff_eq_none] at hwf
            obtain ⟨⟨hsv, huv⟩, hcs⟩ := hwf
            subst hsv huv
            obtain ⟨f2, rfl⟩ : ∃ f2, f1 = f2 + 1 := by
              simp only [ptFuelN] at hf
              exact ⟨f1 - 1, by omega⟩
            obtain ⟨_, ihl2⟩ := ih f2 (by omega)
            have e1 : pre ++ txtEncNode d (.mk none none key cs .object) ++ rest =
                (pre ++ indentN d) ++ quoteTok key ++
                  ([nlChar] ++ indentN d ++ lbrace ::
                    ([nlChar] ++ txtEncNodes (d + 1) cs ++ indentN d ++
                      rbrace :: nlChar :: rest)) := by
              simp [txtEncNode]
            have hkey := nextToken_quoted hwsk key
              ([nlChar] ++ indentN d ++ lbrace ::
                ([nlChar] ++ txtEncNodes (d + 1) cs ++ indentN d ++ rbrace :: nlChar :: rest))
            have hlb := nextToken_lbrace
              (wsOnly_append wsOnly_nl (wsOnly_indent d))
              ([nlChar] ++ txtEncNodes (d + 1) cs ++ indentN d ++ rbrace :: nlChar :: rest)
            have hinc : incrementNodeCount opts c = .ok (c + 1) := increment_ok (Or.inl hmn)
            have hloop := ihl2 cs (d + 1) dp (c + 1) key [] [nlChar] (indentN d)
              (nlChar :: rest) hcs wsOnly_nl (wsOnly_indent d)
              (by simp only [ptFuelN, ptFuelL] at hf ⊢; omega) hdeep
              (by simp only [heightN, Node.kind] at hd ⊢; push_cast at hd ⊢; omega)
            rw [e1]
            simp only [parseNodeF, hdep, except_bind_ok, hkey, reduceIte, hlb]
            simp only [parseObjectF, hlb, except_bind_ok, reduceIte, hinc]
            rw [show NewObjectNode key = Node.mk none none key [] .object from rfl]
            rw [hloop]
          | string =>
            simp only [heightN, Node.kind] at hd
            push_cast at hd
            omega
          | uint32 =>
            simp only [heightN, Node.kind] at hd
            push_cast at hd
            omega
      · intro ns d dp c key acc pre ws2 rest hwf hpre hws2 hf hdle hd
        cases ns with
        | nil =>
          simp only [heightL] at hd
          push_cast at hd
          omega
        | cons hd' tl =>
          simp only [wfNodes, Bool.and_eq_true] at hwf
          simp only [heightL] at hd
          have hrw : pre ++ txtEncNodes d (hd' :: tl) ++ ws2 ++ rbrace :: rest =
              pre ++ txtEncNode d hd' ++ (txtEncNodes d tl ++ ws2 ++ rbrace :: rest) := by
            simp [txtEncNodes]
          obtain ⟨after, hpeek⟩ := nextToken_txtEncNode hpre d hd'
            (txtEncNodes d tl ++ ws2 ++ rbrace :: rest)
          by_cases hh : opts.maxDepth < ((dp : Int) + 1) + ((heightN hd' : Int) - 1)
          · have hhead := ihn hd' d (dp + 1) c pre
              (txtEncNodes d tl ++ ws2 ++ rbrace :: rest) hwf.1 hpre
              (by simp only [ptFuelL] at hf; omega) (by push_cast at hh ⊢; omega)
            rw [hrw]
            simp only [parseObjLoopF, hpeek, except_bind_ok, hhead, except_bind_error]
          · push_neg at hh
            have hhead := okn hd' d (dp + 1) c pre
              (txtEncNodes d tl ++ ws2 ++ rbrace :: rest) hwf.1 hpre
              (by simp only [ptFuelL] at hf; omega)
              (Or.inr (by push_cast at hh ⊢; omega)) (Or.inl hmn)
            have htl : opts.maxDepth < (dp : Int) + (heightL tl : Int) := by
              rcases max_choice (heightN hd') (heightL tl) with hmx | hmx <;>
                rw [hmx] at hd <;> omega
            have htail := ihl tl d dp (c + countN hd') key (acc ++ [textNorm hd']) [nlChar]
              ws2 rest hwf.2 wsOnly_nl hws2 (by simp only [ptFuelL] at hf; omega) hdle htl
            rw [hrw]
            simp only [parseObjLoopF, hpeek, except_bind_ok, hhead]
            simp only [hstrict, Bool.false_eq_true, false_and, reduceIte]
            rw [add_object]
            rw [show nlChar :: (txtEncNodes d tl ++ ws2 ++ rbrace :: rest) =
              [nlChar] ++ txtEncNodes d tl ++ ws2 ++ rbrace :: rest by simp]
            rw [htail]

/-- Text node-limit lemma: with the depth budget unlimited and a positive
node budget not yet exhausted, parsing the encoding of a subtree whose node
count overruns the budget fails with exactly the node-limit error. -/
theorem parseText_nodesErr (fuel : Nat) (opts : DecodeOptions) (hstrict : opts.strict = false)
    (hmd : opts.maxDepth ≤ 0) (hmn : 0 < opts.maxNodes) :
    (∀ (n : Node) (d dp : Nat) (c : Int) (pre rest : Str),
      wfNode n = true → WsOnly pre → ptFuelN n ≤ fuel →
      c ≤ opts.maxNodes → opts.maxNodes < c + (countN n : Int) →
      parseNodeF fuel opts (pre ++ txtEncNode d n ++ rest) dp c =
        .error .nodeLimitExceeded) ∧
    (∀ (ns : List Node) (d dp : Nat) (c : Int) (key : Str) (acc : List Node)
        (pre ws2 rest : Str),
      wfNodes ns = true → WsOnly pre → WsOnly ws2 → ptFuelL ns ≤ fuel →
      c ≤ opts.maxNodes → opts.maxNodes < c + (countL ns : Int) →
      parseObjLoopF fuel opts (.mk none none key acc .object)
          (pre ++ txtEncNodes d ns ++ ws2 ++ rbrace :: rest) dp c =
        .error .nodeLimitExceeded) := by
  induction fuel using Nat.strong_induction_on with
  | _ fuel ih =>
    cases fuel with
    | zero =>
      constructor
      · intro n _ _ _ _ _ _ _ hf _ _
        have := ptFuelN_pos n
        omega
      · intro ns _ _ _ _ _ _ _ _ _ _ _ hf _ _
        have := ptFuelL_pos ns
        omega
    | succ f1 =>
      obtain ⟨ihn, ihl⟩ := ih f1 (by omega)
      obtain ⟨okn, _⟩ := parseText_enc f1 opts hstrict
      constructor
      · rintro ⟨sv, uv, key, cs, kind⟩ d dp c pre rest hwf hpre hf hcle hc
        have hdep := @checkDepth_ok opts dp (Or.inl hmd)
        have hwsk : WsOnly (pre ++ indentN d) := wsOnly_append hpre (wsOnly_indent d)
        cases kind with
        | object =>
          simp only [wfNode, Bool.and_eq_true, Option.isNone_iff_eq_none] at hwf
          obtain ⟨⟨hsv, huv⟩, hcs⟩ := hwf
          subst hsv huv
          obtain ⟨f2, rfl⟩ : ∃ f2, f1 = f2 + 1 := by
            simp only [ptFuelN] at hf
            exact ⟨f1 - 1, by omega⟩
          obtain ⟨_, ihl2⟩ := ih f2 (by omega)
          have e1 : pre ++ txtEncNode d (.mk none none key cs .object) ++ rest =
              (pre ++ indentN d) ++ quoteTok key ++
                ([nlChar] ++ indentN d ++ lbrace ::
                  ([nlChar] ++ txtEncNodes (d + 1) cs ++ indentN d ++
                    rbrace :: nlChar :: rest)) := by
            simp [txtEncNode]
          have hkey := nextToken_quoted hwsk key
            ([nlChar] ++ indentN d ++ lbrace ::
              ([nlChar] ++ txtEncNodes (d + 1) cs ++ indentN d ++ rbrace :: nlChar :: rest))
          have hlb := nextToken_lbrace
            (wsOnly_append wsOnly_nl (wsOnly_indent d))
            ([nlChar] ++ txtEncNodes (d + 1) cs ++ indentN d ++ rbrace :: nlChar :: rest)
          by_cases hover : opts.maxNodes < c + 1
          · have hinc := increment_err hmn hover
            rw [e1]
            simp only [parseNodeF, hdep, except_bind_ok, hkey, reduceIte, hlb]
            simp only [parseObjectF, hlb, except_bind_ok, reduceIte, hinc,
              except_bind_error]
          · push_neg at hover
            have hinc := @increment_ok opts c (Or.inr hover)
            have hloop := ihl2 cs (d + 1) dp (c + 1) key [] [nlChar] (indentN d)
              (nlChar :: rest) hcs wsOnly_nl (wsOnly_indent d)
              (by simp only [ptFuelN, ptFuelL] at hf ⊢; omega) hover
              (by simp only [countN, Node.kind] at hc ⊢; push_cast at hc ⊢; omega)
            rw [e1]
            simp only [parseNodeF, hdep, except_bind_ok, hkey, reduceIte, hlb]
            simp only [parseObjectF, hlb, except_bind_ok, reduceIte, hinc]
            rw [show NewObjectNode key = Node.mk none none key [] .object from rfl]
            rw [hloop]
        | string =>
          simp only [wfNode, Bool.and_eq_true, Option.isSome_iff_exists,
            Option.isNone_iff_eq_none, decide_eq_true_eq] at hwf
          obtain ⟨⟨⟨v, hsv⟩, huv⟩, hcs⟩ := hwf
          subst hsv huv hcs
          have e1 : pre ++ txtEncNode d (.mk (some v) none key [] .string) ++ rest =
              (pre ++ indentN d) ++ quoteTok key ++
                ([tabChar, tabChar] ++ quoteTok v ++ (nlChar :: rest)) := by
            simp [txtEncNode]
          have hkey := nextToken_quoted hwsk key
            ([tabChar, tabChar] ++ quoteTok v ++ (nlChar :: rest))
          have hval : nextToken ([tabChar, tabChar] ++ quoteTok v ++ (nlChar :: rest)) =
              .ok (⟨.str, v⟩, nlChar :: rest) := nextToken_quoted wsOnly_tabs v _
          have hinc : incrementNodeCount opts c = .error .nodeLimitExceeded := by
            refine increment_err hmn ?_
            simp only [countN, Node.kind] at hc
            push_cast at hc
            omega
          rw [e1]
          simp only [parseNodeF, hdep, except_bind_ok, hkey]
          simp only [reduceIte, hval, except_bind_ok, hinc, except_bind_error]
        | uint32 =>
          cases uv with
          | none => simp [wfNode] at hwf
          | some u =>
            simp only [wfNode, Bool.and_eq_true, Option.isNone_iff_eq_none,
              decide_eq_true_eq] at hwf
            obtain ⟨⟨hu, hsv⟩, hcs⟩ := hwf
            subst hsv hcs
            have e1 : pre ++ txtEncNode d (.mk none (some u) key [] .uint32) ++ rest =
                (pre ++ indentN d) ++ quoteTok key ++
                  ([tabChar, tabChar] ++ quoteTok (Nat.repr u).data ++ (nlChar :: rest)) := by
              simp [txtEncNode]
            have hkey := nextToken_quoted hwsk key
              ([tabChar, tabChar] ++ quoteTok (Nat.repr u).data ++ (nlChar :: rest))
            have hval : nextToken ([tabChar, tabChar] ++ quoteTok (Nat.repr u).data ++
                (nlChar :: rest)) = .ok (⟨.str, (Nat.repr u).data⟩, nlChar :: rest) :=
              nextToken_quoted wsOnly_tabs (Nat.repr u).data _
            have hinc : incrementNodeCount opts c = .error .nodeLimitExceeded := by
              refine increment_err hmn ?_
              simp only [countN, Node.kind] at hc
              push_cast at hc
              omega
            rw [e1]
            simp only [parseNodeF, hdep, except_bind_ok, hkey]
            simp only [reduceIte, hval, except_bind_ok, hinc, except_bind_error]
      · intro ns d dp c key acc pre ws2 rest hwf hpre hws2 hf hcle hc
        cases ns with
        | nil =>
          simp only [countL] at hc
          push_cast at hc
          omega
        | cons hd' tl =>
          simp only [wfNodes, Bool.and_eq_true] at hwf
          simp only [countL] at hc
          have hrw : pre ++ txtEncNodes d (hd' :: tl) ++ ws2 ++ rbrace :: rest =
              pre ++ txtEncNode d hd' ++ (txtEncNodes d tl ++ ws2 ++ rbrace :: rest) := by
            simp [txtEncNodes]
          obtain ⟨after, hpeek⟩ := nextToken_txtEncNode hpre d hd'
            (txtEncNodes d tl ++ ws2 ++ rbrace :: rest)
          by_cases hh : opts.maxNodes < c + (countN hd' : Int)
          · have hhead := ihn hd' d (dp + 1) c pre
              (txtEncNodes d tl ++ ws2 ++ rbrace :: rest) hwf.1 hpre
              (by simp only [ptFuelL] at hf; omega) hcle hh
            rw [hrw]
            simp only [parseObjLoopF, hpeek, except_bind_ok, hhead, except_bind_error]
          · push_neg at hh
            have hhead := okn hd' d (dp + 1) c pre
              (txtEncNodes d tl ++ ws2 ++ rbrace :: rest) hwf.1 hpre
              (by simp only [ptFuelL] at hf; omega) (Or.inl hmd) (Or.inr hh)
            have htail := ihl tl d dp (c + countN hd') key (acc ++ [textNorm hd'])
              [nlChar] ws2 rest hwf.2 wsOnly_nl hws2
              (by simp only [ptFuelL] at hf; omega) hh (by push_cast at hc ⊢; omega)
            rw [hrw]
            simp only [parseObjLoopF, hpeek, except_bind_ok, hhead]
            simp only [hstrict, Bool.false_eq_true, false_and, reduceIte]
            rw [add_object]
            rw [show nlChar :: (txtEncNodes d tl ++ ws2 ++ rbrace :: rest) =
              [nlChar] ++ txtEncNodes d tl ++ ws2 ++ rbrace :: rest by simp]
            rw [htail]

/-- The root loop accepts end of input after trailing whitespace. -/
theorem parseDocLoopF_ws {opts : DecodeOptions} {fuel : Nat} {doc : Document} {ws : Str}
    {c : Int} (hws : WsOnly ws) (hf : 1 ≤ fuel) :
    parseDocLoopF fuel opts doc ws c = .ok doc := by
  obtain ⟨f, rfl⟩ : ∃ f, fuel = f + 1 := ⟨fuel - 1, by omega⟩
  simp only [parseDocLoopF, nextToken_eof hws, except_bind_ok]
  rfl

theorem wfNodes_cons {a : Node} {l : List Node} :
    wfNodes (a :: l) = true ↔ (wfNode a = true ∧ wfNodes l = true) := by
  rw [show wfNodes (a :: l) = (wfNode a && wfNodes l) from rfl]
  simp

theorem heightL_cons (a : Node) (l : List Node) :
    heightL (a :: l) = max (heightN a) (heightL l) := rfl

theorem countL_cons (a : Node) (l : List Node) :
    countL (a :: l) = countN a + countL l := rfl

theorem ptFuelD_cons (a : Node) (l : List Node) :
    ptFuelD (a :: l) = 1 + max (ptFuelN a) (ptFuelD l) := rfl

/-- Root-loop success for the text parser: each root of the encoding parses
at depth 1, and trailing whitespace ends the document. -/
theorem parseDocLoopF_enc {opts : DecodeOptions} (hstrict : opts.strict = false) :
    ∀ (roots : List Node) (fuel : Nat) (doc0 : Document) (c : Int) (pre : Str),
      wfNodes roots = true → WsOnly pre → ptFuelD roots ≤ fuel →
      (opts.maxDepth ≤ 0 ∨ (heightL roots : Int) ≤ opts.maxDepth) →
      (opts.maxNodes ≤ 0 ∨ c + (countL roots : Int) ≤ opts.maxNodes) →
      parseDocLoopF fuel opts doc0 (pre ++ txtEncRoots roots) c =
        .ok { doc0 with roots := doc0.roots ++ textNorms roots }
  | [], fuel, doc0, c, pre, _, hpre, hf, _, _ => by
    rw [show txtEncRoots [] = [] from rfl, List.append_nil]
    rw [parseDocLoopF_ws hpre (le_trans (ptFuelD_pos []) hf)]
    simp [textNorms]
  | [r], fuel, doc0, c, pre, hwf, hpre, hf, hdep, hnode => by
    obtain ⟨f, rfl⟩ : ∃ f, fuel = f + 1 := ⟨fuel - 1, by
      have := ptFuelD_pos [r]
      omega⟩
    obtain ⟨hwf1, _⟩ := wfNodes_cons.mp hwf
    rw [ptFuelD_cons] at hf
    obtain ⟨after, hpeek⟩ := nextToken_txtEncNode hpre 0 r []
    have hr := (parseText_enc f opts hstrict).1 r 0 1 c pre [] hwf1 hpre
      (by simp only [ptFuelD] at hf; omega)
      (by
        rcases hdep with h | h
        · exact Or.inl h
        · right
          rw [heightL_cons] at h
          have h1 := heightN_pos r
          push_cast at h ⊢
          omega)
      (by
        rcases hnode with h | h
        · exact Or.inl h
        · right
          rw [countL_cons] at h
          push_cast at h ⊢
          omega)
    rw [show txtEncRoots [r] = txtEncNode 0 r from rfl]
    rw [show pre ++ txtEncNode 0 r = pre ++ txtEncNode 0 r ++ [] by simp]
    simp only [parseDocLoopF, hpeek, except_bind_ok, reduceCtorEq, reduceIte, hr,
      hstrict, Bool.false_eq_true, false_and]
    rw [parseDocLoopF_ws wsOnly_nl (by simp only [ptFuelD] at hf; omega)]
    simp [Document.addRoot, textNorms]
  | r :: r2 :: rs, fuel, doc0, c, pre, hwf, hpre, hf, hdep, hnode => by
    obtain ⟨f, rfl⟩ : ∃ f, fuel = f + 1 := ⟨fuel - 1, by
      have := ptFuelD_pos (r :: r2 :: rs)
      omega⟩
    obtain ⟨hwf1, hwf2⟩ := wfNodes_cons.mp hwf
    rw [ptFuelD_cons] at hf
    obtain ⟨after, hpeek⟩ := nextToken_txtEncNode hpre 0 r
      ([nlChar] ++ txtEncRoots (r2 :: rs))
    have hr := (parseText_enc f opts hstrict).1 r 0 1 c pre
      ([nlChar] ++ txtEncRoots (r2 :: rs)) hwf1 hpre (by omega)
      (by
        rcases hdep with h | h
        · exact Or.inl h
        · right
          rw [heightL_cons] at h
          push_cast at h ⊢
          omega)
      (by
        rcases hnode with h | h
        · exact Or.inl h
        · right
          rw [countL_cons] at h
          push_cast at h ⊢
          omega)
    have htail := parseDocLoopF_enc hstrict (r2 :: rs) f (doc0.addRoot (textNorm r))
      (c + countN r) [nlChar, nlChar] hwf2 wsOnly_nl_nl (by omega)
      (by
        rcases hdep with h | h
        · exact Or.inl h
        · right
          rw [heightL_cons] at h
          push_cast at h ⊢
          omega)
      (by
        rcases hnode with h | h
        · exact Or.inl h
        · right
          rw [countL_cons] at h
          push_cast at h ⊢
          omega)
    rw [show txtEncRoots (r :: r2 :: rs) =
      txtEncNode 0 r ++ [nlChar] ++ txtEncRoots (r2 :: rs) from rfl]
    rw [show pre ++ (txtEncNode 0 r ++ [nlChar] ++ txtEncRoots (r2 :: rs)) =
      pre ++ txtEncNode 0 r ++ ([nlChar] ++ txtEncRoots (r2 :: rs)) by simp]
    simp only [parseDocLoopF, hpeek, except_bind_ok, reduceCtorEq, reduceIte, hr,
      hstrict, Bool.false_eq_true, false_and]
    rw [show nlChar :: ([nlChar] ++ txtEncRoots (r2 :: rs)) =
      [nlChar, nlChar] ++ txtEncRoots (r2 :: rs) from rfl]
    rw [htail]
    simp [Document.addRoot, textNorms]

/-- Root-loop depth error for the text parser. -/
theorem parseDocLoopF_depthErr {opts : DecodeOptions} (hstrict : opts.strict = false)
    (hmn : opts.maxNodes ≤ 0) (hmd : 0 < opts.maxDepth) :
    ∀ (roots : List Node) (fuel : Nat) (doc0 : Document) (c : Int) (pre : Str),
      wfNodes roots = true → WsOnly pre → ptFuelD roots ≤ fuel →
      opts.maxDepth < (heightL roots : Int) →
      parseDocLoopF fuel opts doc0 (pre ++ txtEncRoots roots) c =
        .error .depthLimitExceeded
  | [], _, _, _, _, _, _, _, hh => by
    simp only [heightL] at hh
    omega
  | [r], fuel, doc0, c, pre, hwf, hpre, hf, hh => by
    obtain ⟨f, rfl⟩ : ∃ f, fuel = f + 1 := ⟨fuel - 1, by
      have := ptFuelD_pos [r]
      omega⟩
    obtain ⟨hwf1, _⟩ := wfNodes_cons.mp hwf
    rw [ptFuelD_cons] at hf
    have hh' : opts.maxDepth < (heightN r : Int) := by
      rw [heightL_cons] at hh
      push_cast at hh ⊢
      simp only [heightL] at hh
      omega
    obtain ⟨after, hpeek⟩ := nextToken_txtEncNode hpre 0 r []
    have herr := (parseText_depthErr f opts hstrict hmn hmd).1 r 0 1 c pre []
      hwf1 hpre (by omega) (by push_cast at hh' ⊢; omega)
    rw [show txtEncRoots [r] = txtEncNode 0 r from rfl]
    rw [show pre ++ txtEncNode 0 r = pre ++ txtEncNode 0 r ++ [] by simp]
    simp only [parseDocLoopF, hpeek, except_bind_ok, reduceCtorEq, reduceIte, herr,
      except_bind_error]
  | r :: r2 :: rs, fuel, doc0, c, pre, hwf, hpre, hf, hh => by
    obtain ⟨f, rfl⟩ : ∃ f, fuel = f + 1 := ⟨fuel - 1, by
      have := ptFuelD_pos (r :: r2 :: rs)
      omega⟩
    obtain ⟨hwf1, hwf2⟩ := wfNodes_cons.mp hwf
    rw [ptFuelD_cons] at hf
    rw [heightL_cons] at hh
    obtain ⟨after, hpeek⟩ := nextToken_txtEncNode hpre 0 r
      ([nlChar] ++ txtEncRoots (r2 :: rs))
    rw [show txtEncRoots (r :: r2 :: rs) =
      txtEncNode 0 r ++ [nlChar] ++ txtEncRoots (r2 :: rs) from rfl]
    rw [show pre ++ (txtEncNode 0 r ++ [nlChar] ++ txtEncRoots (r2 :: rs)) =
      pre ++ txtEncNode 0 r ++ ([nlChar] ++ txtEncRoots (r2 :: rs)) by simp]
    by_cases hhead : opts.maxDepth < (heightN r : Int)
    · have herr := (parseText_depthErr f opts hstrict hmn hmd).1 r 0 1 c pre
        ([nlChar] ++ txtEncRoots (r2 :: rs)) hwf1 hpre
        (by omega) (by push_cast at hhead ⊢; omega)
      simp only [parseDocLoopF, hpeek, except_bind_ok, reduceCtorEq, reduceIte, herr,
        except_bind_error]
    · push_neg at hhead
      have hok := (parseText_enc f opts hstrict).1 r 0 1 c pre
        ([nlChar] ++ txtEncRoots (r2 :: rs)) hwf1 hpre (by omega)
        (Or.inr (by push_cast at hhead ⊢; omega)) (Or.inl hmn)
      have htlh : opts.maxDepth < (heightL (r2 :: rs) : Int) := by
        push_cast at hh ⊢
        omega
      have htail := parseDocLoopF_depthErr hstrict hmn hmd (r2 :: rs) f
        (doc0.addRoot (textNorm r)) (c + countN r) [nlChar, nlChar] hwf2 wsOnly_nl_nl
        (by omega) htlh
      simp only [parseDocLoopF, hpeek, except_bind_ok, reduceCtorEq, reduceIte, hok,
        hstrict, Bool.false_eq_true, false_and]
      rw [show nlChar :: ([nlChar] ++ txtEncRoots (r2 :: rs)) =
        [nlChar, nlChar] ++ txtEncRoots (r2 :: rs) from rfl]
      exact htail

/-- Root-loop node-count error for the text parser. -/
theorem parseDocLoopF_nodesErr {opts : DecodeOptions} (hstrict : opts.strict = false)
    (hmd : opts.maxDepth ≤ 0) (hmn : 0 < opts.maxNodes) :
    ∀ (roots : List Node) (fuel : Nat) (doc0 : Document) (c : Int) (pre : Str),
      wfNodes roots = true → WsOnly pre → ptFuelD roots ≤ fuel →
      c ≤ opts.maxNodes → opts.maxNodes < c + (countL roots : Int) →
      parseDocLoopF fuel opts doc0 (pre ++ txtEncRoots roots) c =
        .error .nodeLimitExceeded
  | [], _, _, _, _, _, _, _, hcle, hh => by
    simp only [countL] at hh
    push_cast at hh
    omega
  | [r], fuel, doc0, c, pre, hwf, hpre, hf, hcle, hh => by
    obtain ⟨f, rfl⟩ : ∃ f, fuel = f + 1 := ⟨fuel - 1, by
      have := ptFuelD_pos [r]
      omega⟩
    obtain ⟨hwf1, _⟩ := wfNodes_cons.mp hwf
    rw [ptFuelD_cons] at hf
    have hh' : opts.maxNodes < c + (countN r : Int) := by
      rw [countL_cons] at hh
      push_cast at hh ⊢
      simp only [countL] at hh
      omega
    obtain ⟨after, hpeek⟩ := nextToken_txtEncNode hpre 0 r []
    have herr := (parseText_nodesErr f opts hstrict hmd hmn).1 r 0 1 c pre []
      hwf1 hpre (by omega) hcle hh'
    rw [show txtEncRoots [r] = txtEncNode 0 r from rfl]
    rw [show pre ++ txtEncNode 0 r = pre ++ txtEncNode 0 r ++ [] by simp]
    simp only [parseDocLoopF, hpeek, except_bind_ok, reduceCtorEq, reduceIte, herr,
      except_bind_error]
  | r :: r2 :: rs, fuel, doc0, c, pre, hwf, hpre, hf, hcle, hh => by
    obtain ⟨f, rfl⟩ : ∃ f, fuel = f + 1 := ⟨fuel - 1, by
      have := ptFuelD_pos (r :: r2 :: rs)
      omega⟩
    obtain ⟨hwf1, hwf2⟩ := wfNodes_cons.mp hwf
    rw [ptFuelD_cons] at hf
    rw [countL_cons] at hh
    obtain ⟨after, hpeek⟩ := nextToken_txtEncNode hpre 0 r
      ([nlChar] ++ txtEncRoots (r2 :: rs))
    rw [show txtEncRoots (r :: r2 :: rs) =
      txtEncNode 0 r ++ [nlChar] ++ txtEncRoots (r2 :: rs) from rfl]
    rw [show pre ++ (txtEncNode 0 r ++ [nlChar] ++ txtEncRoots (r2 :: rs)) =
      pre ++ txtEncNode 0 r ++ ([nlChar] ++ txtEncRoots (r2 :: rs)) by simp]
    by_cases hhead : opts.maxNodes < c + (countN r : Int)
    · have herr := (parseText_nodesErr f opts hstrict hmd hmn).1 r 0 1 c pre
        ([nlChar] ++ txtEncRoots (r2 :: rs)) hwf1 hpre (by omega) hcle hhead
      simp only [parseDocLoopF, hpeek, except_bind_ok, reduceCtorEq, reduceIte, herr,
        except_bind_error]
    · push_neg at hhead
      have hok := (parseText_enc f opts hstrict).1 r 0 1 c pre
        ([nlChar] ++ txtEncRoots (r2 :: rs)) hwf1 hpre (by omega)
        (Or.inl hmd) (Or.inr hhead)
      have htail := parseDocLoopF_nodesErr hstrict hmd hmn (r2 :: rs) f
        (doc0.addRoot (textNorm r)) (c + countN r) [nlChar, nlChar] hwf2 wsOnly_nl_nl
        (by omega) hhead (by push_cast at hh ⊢; omega)
      simp only [parseDocLoopF, hpeek, except_bind_ok, reduceCtorEq, reduceIte, hok,
        hstrict, Bool.false_eq_true, false_and]
      rw [show nlChar :: ([nlChar] ++ txtEncRoots (r2 :: rs)) =
        [nlChar, nlChar] ++ txtEncRoots (r2 :: rs) from rfl]
      exact htail

/-! ## Text encoded-size bounds and the encoder/specification glue -/

mutual

theorem txtEncNode_len : ∀ (d : Nat) (n : Node),
    ptFuelN n ≤ (txtEncNode d n).length ∧ 1 ≤ (txtEncNode d n).length
  | d, .mk sv uv key cs kind => by
    cases kind with
    | object =>
      have ih := txtEncNodes_len (d + 1) cs
      simp only [txtEncNode, ptFuelN, quoteTok, List.length_append, List.length_cons]
      omega
    | string =>
      simp only [txtEncNode, ptFuelN, quoteTok, List.length_append, List.length_cons]
      omega
    | uint32 =>
      simp only [txtEncNode, ptFuelN, quoteTok, List.length_append, List.length_cons]
      omega

theorem txtEncNodes_len : ∀ (d : Nat) (ns : List Node),
    ptFuelL ns ≤ (txtEncNodes d ns).length + 1
  | _, [] => by simp [txtEncNodes, ptFuelL]
  | d, c :: cs => by
    have ihn := txtEncNode_len d c
    have ihl := txtEncNodes_len d cs
    simp only [txtEncNodes, ptFuelL, List.length_append]
    omega

end

theorem txtEncRoots_len : ∀ roots : List Node,
    ptFuelD roots ≤ (txtEncRoots roots).length + 1
  | [] => by simp [txtEncRoots, ptFuelD]
  | [r] => by
    have ihn := txtEncNode_len 0 r
    rw [ptFuelD_cons]
    simp only [ptFuelD, txtEncRoots]
    omega
  | r :: r2 :: rs => by
    have ihn := txtEncNode_len 0 r
    have ihd := txtEncRoots_len (r2 :: rs)
    rw [ptFuelD_cons]
    rw [show txtEncRoots (r :: r2 :: rs) =
      txtEncNode 0 r ++ [nlChar] ++ txtEncRoots (r2 :: rs) from rfl]
    simp only [List.length_append, List.length_cons, List.length_nil]
    omega

/-- The options `Write`/`WriteString` reach the text encoder with: text
format, one-tab indent, pretty layout, source sibling order. -/
def textEncodeOpts : EncodeOptions :=
  normalizeEncodeOptions
    { indent := [], format := .text, compact := false, deterministic := false,
      validate := false }

theorem textEncodeOpts_indent : textEncodeOpts.indent = [tabChar] := by decide

theorem textEncodeOpts_compact : textEncodeOpts.compact = false := rfl

theorem textEncodeOpts_det : textEncodeOpts.deterministic = false := rfl

theorem indentRepeat_tab : ∀ d : Nat, indentRepeat [tabChar] d = indentN d
  | 0 => rfl
  | d + 1 => by
    simp only [indentRepeat, indentN, List.replicate_succ, List.flatten_cons]
    rw [show (List.replicate d [tabChar]).flatten = indentRepeat [tabChar] d from rfl]
    rw [indentRepeat_tab d]
    rfl

/-- The fueled text encoder produces exactly the specification encoding on
well-formed subtrees (default options). -/
theorem encodeText_enc : ∀ fuel : Nat,
    (∀ (n : Node) (d : Nat), wfNode n = true → encFuelN n ≤ fuel →
      encodeTextNodeF fuel textEncodeOpts n d = .ok (txtEncNode d n)) ∧
    (∀ (ns : List Node) (d : Nat), wfNodes ns = true → encFuelL ns ≤ fuel →
      encodeTextNodesF fuel textEncodeOpts ns d = .ok (txtEncNodes d ns))
  | 0 => by
    constructor
    · intro n _ _ hf
      have := encFuelN_pos n
      omega
    · intro ns _ _ hf
      have := encFuelL_pos ns
      omega
  | fuel + 1 => by
    obtain ⟨ihn, ihl⟩ := encodeText_enc fuel
    constructor
    · rintro ⟨sv, uv, key, cs, kind⟩ d hwf hf
      cases kind with
      | object =>
        simp only [wfNode, Bool.and_eq_true, Option.isNone_iff_eq_none] at hwf
        obtain ⟨⟨hsv, huv⟩, hcs⟩ := hwf
        subst hsv huv
        have hbody := ihl cs (d + 1) hcs (by simp only [encFuelN] at hf; omega)
        simp only [encodeTextNodeF, textEncodeOpts_det, textEncodeOpts_compact,
          textEncodeOpts_indent, orderedNodes_id, Bool.false_eq_true, reduceIte, hbody,
          except_bind_ok]
        rw [indentRepeat_tab, escapeString_eq_escStr]
        simp [txtEncNode, quoteTok]
      | string =>
        simp only [wfNode, Bool.and_eq_true, Option.isSome_iff_exists,
          Option.isNone_iff_eq_none, decide_eq_true_eq] at hwf
        obtain ⟨⟨⟨v, hsv⟩, huv⟩, hcs⟩ := hwf
        subst hsv huv hcs
        simp only [encodeTextNodeF, textValueForNode, except_bind_ok, textEncodeOpts_det,
          textEncodeOpts_compact, textEncodeOpts_indent, Bool.false_eq_true, reduceIte]
        rw [indentRepeat_tab, escapeString_eq_escStr, escapeString_eq_escStr]
        simp [txtEncNode, quoteTok]
      | uint32 =>
        cases uv with
        | none => simp [wfNode] at hwf
        | some u =>
          simp only [wfNode, Bool.and_eq_true, Option.isNone_iff_eq_none,
            decide_eq_true_eq] at hwf
          obtain ⟨⟨hu, hsv⟩, hcs⟩ := hwf
          subst hsv hcs
          simp only [encodeTextNodeF, textValueForNode, except_bind_ok, textEncodeOpts_det,
            textEncodeOpts_compact, textEncodeOpts_indent, Bool.false_eq_true, reduceIte]
          rw [indentRepeat_tab, escapeString_eq_escStr, escapeString_eq_escStr]
          simp [txtEncNode, quoteTok]
    · intro ns d hwf hf
      cases ns with
      | nil => simp [encodeTextNodesF, txtEncNodes]
      | cons c cs =>
        obtain ⟨hwf1, hwf2⟩ := wfNodes_cons.mp hwf
        have h1 := ihn c d hwf1 (by simp only [encFuelL] at hf; omega)
        have h2 := ihl cs d hwf2 (by simp only [encFuelL] at hf; omega)
        simp [encodeTextNodesF, h1, h2, txtEncNodes]

/-- The root loop of the text encoder produces the specification encoding. -/
theorem encodeTextRoots_ok : ∀ (fuel : Nat) (roots : List Node),
    wfNodes roots = true → encFuelL roots ≤ fuel →
    encodeTextRootsF fuel textEncodeOpts roots = .ok (txtEncRoots roots)
  | 0, roots, _, hf => by
    have := encFuelL_pos roots
    omega
  | fuel + 1, [], _, _ => by simp [encodeTextRootsF, txtEncRoots]
  | fuel + 1, [r], hwf, hf => by
    obtain ⟨hwf1, _⟩ := wfNodes_cons.mp hwf
    have h1 := (encodeText_enc fuel).1 r 0 hwf1 (by simp only [encFuelL] at hf; omega)
    simp [encodeTextRootsF, h1, txtEncRoots]
  | fuel + 1, r :: r2 :: rs, hwf, hf => by
    obtain ⟨hwf1, hwf2⟩ := wfNodes_cons.mp hwf
    have h1 := (encodeText_enc fuel).1 r 0 hwf1 (by simp only [encFuelL] at hf; omega)
    have h2 := encodeTextRoots_ok fuel (r2 :: rs) hwf2
      (by simp only [encFuelL] at hf ⊢; omega)
    simp only [encodeTextRootsF, h1, except_bind_ok, h2]
    rw [show txtEncRoots (r :: r2 :: rs) =
      txtEncNode 0 r ++ [nlChar] ++ txtEncRoots (r2 :: rs) from rfl]
    simp [textEncodeOpts_compact]

/-- `encodeTextDocument` with default options on a well-formed document. -/
theorem encodeTextDocument_ok {d : Document} (hwf : wfNodes d.roots = true) :
    encodeTextDocument textEncodeOpts d = .ok (txtEncRoots d.roots) := by
  unfold encodeTextDocument
  rw [textEncodeOpts_det, orderedNodes_id]
  exact encodeTextRoots_ok (encFuelL d.roots) d.roots hwf le_rfl

/-! ## Wrapper-level decoder theorems: the exported entry points -/

/-- `parseBinaryDocument` on the encoding of well-formed roots followed by a
terminator and arbitrary junk: the junk is never examined. -/
theorem parseBinaryDocument_enc {opts : DecodeOptions} (hstrict : opts.strict = false)
    (hmd : opts.maxDepth ≤ 0) (hmn : opts.maxNodes ≤ 0) {roots : List Node}
    (hwf : wfNodes roots = true) (hnul : nulFreeL roots = true) (junk : List Nat) :
    parseBinaryDocument opts (binEncNodes roots ++ binaryTypeMapEnd :: junk) =
      .ok { roots := roots, format := .binary } := by
  unfold parseBinaryDocument
  have hlen := binEncNodes_len roots
  have h := decodeDocLoopF_enc hstrict roots
    ((binEncNodes roots ++ binaryTypeMapEnd :: junk).length + 1)
    (NewDocumentWithFormat .binary) 0 junk hwf hnul
    (by simp only [List.length_append, List.length_cons]; omega)
    (Or.inl hmd) (Or.inl hmn)
  rw [h]
  rfl

/-- `parseBinaryDocument` on empty input: the empty binary document. -/
theorem parseBinaryDocument_empty (opts : DecodeOptions) :
    parseBinaryDocument opts [] = .ok (NewDocumentWithFormat .binary) := rfl

/-- `parseBinaryDocument` on an encoding missing its root terminator: buffer
overflow once at least one root was read. -/
theorem parseBinaryDocument_trunc {opts : DecodeOptions} (hstrict : opts.strict = false)
    (hmd : opts.maxDepth ≤ 0) (hmn : opts.maxNodes ≤ 0) {roots : List Node}
    (hwf : wfNodes roots = true) (hnul : nulFreeL roots = true) (hne : roots ≠ []) :
    parseBinaryDocument opts (binEncNodes roots) = .error .bufferOverflow := by
  unfold parseBinaryDocument
  have hlen := binEncNodes_len roots
  exact decodeDocLoopF_truncated hstrict hmd hmn roots _ (NewDocumentWithFormat .binary) 0
    hwf hnul (by omega) (by intro hcon; rw [List.append_eq_nil] at hcon; exact hne hcon.2)

/-- `parseBinaryDocument` under a positive depth budget below the height. -/
theorem parseBinaryDocument_depthErr {opts : DecodeOptions} (hstrict : opts.strict = false)
    (hmn : opts.maxNodes ≤ 0) (hmd : 0 < opts.maxDepth) {roots : List Node}
    (hwf : wfNodes roots = true) (hnul : nulFreeL roots = true)
    (hh : opts.maxDepth < (heightL roots : Int)) :
    parseBinaryDocument opts (binEncNodes roots ++ [binaryTypeMapEnd]) =
      .error .depthLimitExceeded := by
  unfold parseBinaryDocument
  have hlen := binEncNodes_len roots
  exact decodeDocLoopF_depthErr hstrict hmn hmd roots _ (NewDocumentWithFormat .binary) 0 []
    hwf hnul (by simp only [List.length_append, List.length_cons]; omega) hh

/-- `parseBinaryDocument` under a positive node budget below the count. -/
theorem parseBinaryDocument_nodesErr {opts : DecodeOptions} (hstrict : opts.strict = false)
    (hmd : opts.maxDepth ≤ 0) (hmn : 0 < opts.maxNodes) {roots : List Node}
    (hwf : wfNodes roots = true) (hnul : nulFreeL roots = true)
    (hh : opts.maxNodes < (countL roots : Int)) :
    parseBinaryDocument opts (binEncNodes roots ++ [binaryTypeMapEnd]) =
      .error .nodeLimitExceeded := by
  unfold parseBinaryDocument
  have hlen := binEncNodes_len roots
  exact decodeDocLoopF_nodesErr hstrict hmd hmn roots _ (NewDocumentWithFormat .binary) 0 []
    hwf hnul (by simp only [List.length_append, List.length_cons]; omega) (by omega)
    (by omega)

/-- `parseTextDocument` on the default text encoding of well-formed roots:
objects keep their shape, every scalar leaf comes back as a string node. -/
theorem parseTextDocument_enc {opts : DecodeOptions} (hstrict : opts.strict = false)
    (hmd : opts.maxDepth ≤ 0) (hmn : opts.maxNodes ≤ 0) {roots : List Node}
    (hwf : wfNodes roots = true) :
    parseTextDocument opts (txtEncRoots roots) =
      .ok { roots := textNorms roots, format := .text } := by
  unfold parseTextDocument
  have hlen := txtEncRoots_len roots
  have h := parseDocLoopF_enc hstrict roots ((txtEncRoots roots).length + 1)
    (NewDocumentWithFormat .text) 0 [] hwf wsOnly_nil (by omega)
    (Or.inl hmd) (Or.inl hmn)
  simp only [List.nil_append] at h
  rw [h]
  rfl

/-- `parseTextDocument` under a positive depth budget below the height. -/
theorem parseTextDocument_depthErr {opts : DecodeOptions} (hstrict : opts.strict = false)
    (hmn : opts.maxNodes ≤ 0) (hmd : 0 < opts.maxDepth) {roots : List Node}
    (hwf : wfNodes roots = true) (hh : opts.maxDepth < (heightL roots : Int)) :
    parseTextDocument opts (txtEncRoots roots) = .error .depthLimitExceeded := by
  unfold parseTextDocument
  have hlen := txtEncRoots_len roots
  have h := parseDocLoopF_depthErr hstrict hmn hmd roots ((txtEncRoots roots).length + 1)
    (NewDocumentWithFormat .text) 0 [] hwf wsOnly_nil (by omega) hh
  simpa using h

/-- `parseTextDocument` under a positive node budget below the count. -/
theorem parseTextDocument_nodesErr {opts : DecodeOptions} (hstrict : opts.strict = false)
    (hmd : opts.maxDepth ≤ 0) (hmn : 0 < opts.maxNodes) {roots : List Node}
    (hwf : wfNodes roots = true) (hh : opts.maxNodes < (countL roots : Int)) :
    parseTextDocument opts (txtEncRoots roots) = .error .nodeLimitExceeded := by
  unfold parseTextDocument
  have hlen := txtEncRoots_len roots
  have h := parseDocLoopF_nodesErr hstrict hmd hmn roots ((txtEncRoots roots).length + 1)
    (NewDocumentWithFormat .text) 0 [] hwf wsOnly_nil (by omega) (by omega) (by omega)
  simpa using h

/-! ## No uint32 nodes out of the text parser (C10 machinery) -/

mutual

/-- No node of the subtree has kind `uint32`. -/
def noU32N : Node → Bool
  | .mk _ _ _ cs kind =>
    match kind with
    | .uint32 => false
    | .object => noU32L cs
    | .string => true

/-- `noU32N` on every element. -/
def noU32L : List Node → Bool
  | [] => true
  | c :: cs => noU32N c && noU32L cs

end

theorem noU32L_append : ∀ as bs : List Node,
    noU32L (as ++ bs) = (noU32L as && noU32L bs)
  | [], _ => by simp [noU32L]
  | a :: as, bs => by
    simp [noU32L, noU32L_append as bs, Bool.and_assoc]

theorem noU32_add {n child : Node} (hn : noU32N n = true) (hc : noU32N child = true) :
    noU32N (n.add child) = true := by
  cases n with
  | mk sv uv k cs kd =>
    cases kd with
    | object =>
      simp only [Node.add, reduceIte]
      simp only [noU32N] at hn ⊢
      rw [noU32L_append]
      simp [hn, noU32L, hc]
    | string => simpa [Node.add] using hn
    | uint32 => simpa [Node.add] using hn

/-- The text parser only ever builds string and object nodes. -/
theorem parseText_noU32 : ∀ (fuel : Nat) (opts : DecodeOptions),
    (∀ input depth c n rest c2,
      parseNodeF fuel opts input depth c = .ok (n, rest, c2) → noU32N n = true) ∧
    (∀ key input depth c n rest c2,
      parseObjectF fuel opts key input depth c = .ok (n, rest, c2) → noU32N n = true) ∧
    (∀ node input depth c n rest c2, noU32N node = true →
      parseObjLoopF fuel opts node input depth c = .ok (n, rest, c2) → noU32N n = true)
  | 0, opts => by
    refine ⟨?_, ?_, ?_⟩
    · intro input depth c n rest c2 h
      simp [parseNodeF] at h
    · intro key input depth c n rest c2 h
      simp [parseObjectF] at h
    · intro node input depth c n rest c2 _ h
      simp [parseObjLoopF] at h
  | fuel + 1, opts => by
    obtain ⟨ihn, iho, ihl⟩ := parseText_noU32 fuel opts
    refine ⟨?_, ?_, ?_⟩
    · intro input depth c n rest c2 h
      simp only [parseNodeF] at h
      cases hck : checkDepthLimit opts depth with
      | error e => rw [hck] at h; simp at h
      | ok u =>
        rw [hck] at h
        simp only [except_bind_ok] at h
        cases hnt : nextToken input with
        | error e => rw [hnt] at h; simp at h
        | ok p =>
          obtain ⟨keyTok, input1⟩ := p
          rw [hnt] at h
          simp only [except_bind_ok] at h
          by_cases hk : keyTok.kind = .str
          · rw [if_pos hk] at h
            cases hnt2 : nextToken input1 with
            | error e => rw [hnt2] at h; simp at h
            | ok q =>
              obtain ⟨nextTok, dropTok⟩ := q
              rw [hnt2] at h
              simp only [except_bind_ok] at h
              cases hnk : nextTok.kind
              all_goals rw [hnk] at h
              all_goals dsimp only at h
              · simp at h
              · -- str: a scalar leaf (the value read resolves to the peek)
                cases hinc : incrementNodeCount opts c with
                | error e => rw [hinc] at h; simp at h
                | ok c3 =>
                  rw [hinc] at h
                  simp only [except_bind_ok, Except.ok.injEq, Prod.mk.injEq] at h
                  obtain ⟨h1, -, -⟩ := h
                  subst h1
                  simp [NewStringNode, noU32N]
              · -- lbrace: an object
                exact iho _ _ _ _ _ _ _ h
              · simp at h
          · rw [if_neg hk] at h
            simp at h
    · intro key input depth c n rest c2 h
      simp only [parseObjectF] at h
      cases hnt : nextToken input with
      | error e => rw [hnt] at h; simp at h
      | ok p =>
        obtain ⟨lb, input1⟩ := p
        rw [hnt] at h
        simp only [except_bind_ok] at h
        by_cases hlb : lb.kind = .lbrace
        · rw [if_pos hlb] at h
          cases hinc : incrementNodeCount opts c with
          | error e => rw [hinc] at h; simp at h
          | ok c3 =>
            rw [hinc] at h
            simp only [except_bind_ok] at h
            exact ihl _ _ _ _ _ _ _ (by simp [NewObjectNode, noU32N, noU32L]) h
        · rw [if_neg hlb] at h
          simp at h
    · intro node input depth c n rest c2 hnode h
      simp only [parseObjLoopF] at h
      cases hnt : nextToken input with
      | error e => rw [hnt] at h; simp at h
      | ok p =>
        obtain ⟨tok, dropTok⟩ := p
        rw [hnt] at h
        simp only [except_bind_ok] at h
        cases hnk : tok.kind
        all_goals rw [hnk] at h
        all_goals dsimp only at h
        · simp at h
        · -- str: parse one child
          cases hpn : parseNodeF fuel opts input (depth + 1) c with
          | error e => rw [hpn] at h; simp at h
          | ok r =>
            obtain ⟨child, input2, c3⟩ := r
            rw [hpn] at h
            simp only [except_bind_ok] at h
            by_cases hdup : opts.strict = true ∧ containsKey node.children child.key = true
            · rw [if_pos hdup] at h; simp at h
            · rw [if_neg hdup] at h
              exact ihl _ _ _ _ _ _ _ (noU32_add hnode (ihn _ _ _ _ _ _ hpn)) h
        · -- lbrace: also the default arm
          cases hpn : parseNodeF fuel opts input (depth + 1) c with
          | error e => rw [hpn] at h; simp at h
          | ok r =>
            obtain ⟨child, input2, c3⟩ := r
            rw [hpn] at h
            simp only [except_bind_ok] at h
            by_cases hdup : opts.strict = true ∧ containsKey node.children child.key = true
            · rw [if_pos hdup] at h; simp at h
            · rw [if_neg hdup] at h
              exact ihl _ _ _ _ _ _ _ (noU32_add hnode (ihn _ _ _ _ _ _ hpn)) h
        · -- rbrace: return the accumulated node (the consume resolves to the peek)
          simp only [Except.ok.injEq, Prod.mk.injEq] at h
          obtain ⟨h1, -, -⟩ := h
          subst h1
          exact hnode

/-- The text parser root loop preserves the no-uint32 invariant. -/
theorem parseDocLoopF_noU32 : ∀ (fuel : Nat) (opts : DecodeOptions) (doc : Document)
    (input : Str) (c : Int) (doc2 : Document), noU32L doc.roots = true →
    parseDocLoopF fuel opts doc input c = .ok doc2 → noU32L doc2.roots = true
  | 0, opts, doc, input, c, doc2, _, h => by simp [parseDocLoopF] at h
  | fuel + 1, opts, doc, input, c, doc2, hdoc, h => by
    simp only [parseDocLoopF] at h
    cases hnt : nextToken input with
    | error e => rw [hnt] at h; simp at h
    | ok p =>
      obtain ⟨tok, dropTok⟩ := p
      rw [hnt] at h
      simp only [except_bind_ok] at h
      by_cases heof : tok.kind = .eof
      · rw [if_pos heof] at h
        simp only [Except.ok.injEq] at h
        subst h
        exact hdoc
      · rw [if_neg heof] at h
        cases hpn : parseNodeF fuel opts input 1 c with
        | error e => rw [hpn] at h; simp at h
        | ok r =>
          obtain ⟨node, input2, c3⟩ := r
          rw [hpn] at h
          simp only [except_bind_ok] at h
          by_cases hdup : opts.strict = true ∧ containsKey doc.roots node.key = true
          · rw [if_pos hdup] at h; simp at h
          · rw [if_neg hdup] at h
            refine parseDocLoopF_noU32 fuel opts _ _ _ _ ?_ h
            simp only [Document.addRoot]
            rw [noU32L_append]
            simp [hdoc, noU32L, (parseText_noU32 fuel opts).1 _ _ _ _ _ _ hpn]

mutual

/-- `textNorm` is the identity on well-formed subtrees without uint32
leaves. -/
theorem textNorm_id : ∀ n : Node, wfNode n = true → noU32N n = true → textNorm n = n
  | .mk sv uv key cs kind, hwf, hu => by
    cases kind with
    | object =>
      simp only [wfNode, Bool.and_eq_true, Option.isNone_iff_eq_none] at hwf
      obtain ⟨⟨hsv, huv⟩, hcs⟩ := hwf
      simp only [noU32N] at hu
      subst hsv huv
      simp only [textNorm, Node.mk.injEq, true_and, and_true]
      exact textNorms_id cs hcs hu
    | string =>
      simp only [wfNode, Bool.and_eq_true, Option.isSome_iff_exists,
        Option.isNone_iff_eq_none, decide_eq_true_eq] at hwf
      obtain ⟨⟨⟨v, hsv⟩, huv⟩, hcs⟩ := hwf
      subst hsv huv hcs
      simp [textNorm, NewStringNode]
    | uint32 => simp [noU32N] at hu

/-- `textNorms` is the identity on well-formed lists without uint32 leaves. -/
theorem textNorms_id : ∀ ns : List Node, wfNodes ns = true → noU32L ns = true →
    textNorms ns = ns
  | [], _, _ => rfl
  | c :: cs, hwf, hu => by
    obtain ⟨hwf1, hwf2⟩ := wfNodes_cons.mp hwf
    simp only [noU32L, Bool.and_eq_true] at hu
    simp only [textNorms, List.cons.injEq]
    exact ⟨textNorm_id c hwf1 hu.1, textNorms_id cs hwf2 hu.2⟩

end


/-! ## Manual streaming encoder (encoder.go)

The in-memory writer never fails, so Go write errors cannot occur; each
method returns the Go error value (`none` = nil) together with the updated
encoder, matching the source's in-place mutation.  Text output accumulates
in `outT`, binary output in `outB`. -/

/-- `Encoder`: options plus the manual-streaming state fields. -/
structure Encoder where
  opts : EncodeOptions
  manualDepth : Int
  manualBinaryUsed : Bool
  manualBinaryFinished : Bool
  outT : Str
  outB : List Nat
deriving Repr

/-- `NewEncoder`: normalized options, zeroed manual state. -/
def newEncoder (opts : EncodeOptions) : Encoder :=
  { opts := normalizeEncodeOptions opts, manualDepth := 0, manualBinaryUsed := false,
    manualBinaryFinished := false, outT := [], outB := [] }

/-- `Encoder.manualFormat`: auto resolves to text. -/
def manualFormat (e : Encoder) : Format :=
  if e.opts.format = .auto then .text else e.opts.format

theorem manualFormat_ne_auto (e : Encoder) : manualFormat e ≠ .auto := by
  unfold manualFormat
  by_cases h : e.opts.format = .auto
  · simp [h]
  · simp [h]

/-- `Encoder.StartObject`.  In binary mode the source sets the used flag and
increments the depth before the fallible key write. -/
def Encoder.startObject (e : Encoder) (key : Str) : Option VdfErr × Encoder :=
  match manualFormat e with
  | .text =>
    let indent := indentRepeat e.opts.indent e.manualDepth.toNat
    if e.opts.compact then
      (none, { e with
        outT := e.outT ++ [dquote] ++ escapeString key ++ [dquote, spChar, lbrace, spChar],
        manualDepth := e.manualDepth + 1 })
    else
      (none, { e with
        outT := e.outT ++ indent ++ [dquote] ++ escapeString key ++ [dquote, nlChar] ++
          indent ++ [lbrace, nlChar],
        manualDepth := e.manualDepth + 1 })
  | .binary =>
    match writeNullTerminatedString key with
    | .error err =>
      (some err, { e with
        manualBinaryUsed := true
        manualDepth := e.manualDepth + 1
        outB := e.outB ++ [binaryTypeMapStart] })
    | .ok bs =>
      (none, { e with
        manualBinaryUsed := true
        manualDepth := e.manualDepth + 1
        outB := e.outB ++ [binaryTypeMapStart] ++ bs })
  | .auto => (some .invalidFormat, e)

/-- `Encoder.WriteString`. -/
def Encoder.writeString (e : Encoder) (key value : Str) : Option VdfErr × Encoder :=
  match manualFormat e with
  | .text =>
    let indent := indentRepeat e.opts.indent e.manualDepth.toNat
    if e.opts.compact then
      (none, { e with outT := e.outT ++ [dquote] ++ escapeString key ++
        [dquote, spChar, dquote] ++ escapeString value ++ [dquote, spChar] })
    else
      (none, { e with outT := e.outT ++ indent ++ [dquote] ++ escapeString key ++
        [dquote, tabChar, tabChar, dquote] ++ escapeString value ++ [dquote, nlChar] })
  | .binary =>
    match writeNullTerminatedString key with
    | .error err =>
      (some err, { e with manualBinaryUsed := true, outB := e.outB ++ [binaryTypeString] })
    | .ok kb =>
      match writeNullTerminatedString value with
      | .error err =>
        (some err, { e with
          manualBinaryUsed := true
          outB := e.outB ++ [binaryTypeString] ++ kb })
      | .ok vb =>
        (none, { e with
          manualBinaryUsed := true
          outB := e.outB ++ [binaryTypeString] ++ kb ++ vb })
  | .auto => (some .invalidFormat, e)

/-- `Encoder.WriteUint32` (the Go parameter type bounds the value). -/
def Encoder.writeUint32 (e : Encoder) (key : Str) (value : Nat) : Option VdfErr × Encoder :=
  match manualFormat e with
  | .text =>
    let indent := indentRepeat e.opts.indent e.manualDepth.toNat
    let rendered := (Nat.repr (value % 4294967296)).data
    if e.opts.compact then
      (none, { e with outT := e.outT ++ [dquote] ++ escapeString key ++
        [dquote, spChar, dquote] ++ escapeString rendered ++ [dquote, spChar] })
    else
      (none, { e with outT := e.outT ++ indent ++ [dquote] ++ escapeString key ++
        [dquote, tabChar, tabChar, dquote] ++ escapeString rendered ++ [dquote, nlChar] })
  | .binary =>
    match writeNullTerminatedString key with
    | .error err =>
      (some err, { e with manualBinaryUsed := true, outB := e.outB ++ [binaryTypeNumber] })
    | .ok kb =>
      (none, { e with
        manualBinaryUsed := true
        outB := e.outB ++ [binaryTypeNumber] ++ kb ++ putUint32LE value })
  | .auto => (some .invalidFormat, e)

/-- `Encoder.EndObject`: both stream modes refuse to close with no open
object; otherwise the depth decrements and the footer is written (text
indent computed at the already-decremented depth, as in the source). -/
def Encoder.endObject (e : Encoder) : Option VdfErr × Encoder :=
  match manualFormat e with
  | .text =>
    if e.manualDepth ≤ 0 then (some .invalidNodeState, e)
    else
      let indent := indentRepeat e.opts.indent (e.manualDepth - 1).toNat
      if e.opts.compact then
        (none, { e with
          manualDepth := e.manualDepth - 1
          outT := e.outT ++ [rbrace, spChar] })
      else
        (none, { e with
          manualDepth := e.manualDepth - 1
          outT := e.outT ++ indent ++ [rbrace, nlChar] })
  | .binary =>
    if e.manualDepth ≤ 0 then (some .invalidNodeState, e)
    else (none, { e with
      manualDepth := e.manualDepth - 1
      outB := e.outB ++ [binaryTypeMapEnd] })
  | .auto => (some .invalidFormat, e)

/-- `Encoder.Close`: a no-op unless binary manual mode was used and not yet
finished; then it requires balanced depth and writes the root terminator. -/
def Encoder.close (e : Encoder) : Option VdfErr × Encoder :=
  if manualFormat e ≠ .binary ∨ e.manualBinaryUsed = false ∨ e.manualBinaryFinished = true then
    (none, e)
  else if e.manualDepth ≠ 0 then (some .invalidNodeState, e)
  else (none, { e with manualBinaryFinished := true, outB := e.outB ++ [binaryTypeMapEnd] })

/-- One manual streaming call. -/
inductive ManualOp where
  | startObject (key : Str)
  | writeString (key value : Str)
  | writeUint32 (key : Str) (value : Nat)
  | endObject
  | close
deriving DecidableEq, Repr

/-- Dispatch one call. -/
def stepOp (e : Encoder) : ManualOp → Option VdfErr × Encoder
  | .startObject key => e.startObject key
  | .writeString key value => e.writeString key value
  | .writeUint32 key value => e.writeUint32 key value
  | .endObject => e.endObject
  | .close => e.close

/-- Run a call sequence, keeping the (mutated) encoder of every step. -/
def runOps (e : Encoder) (ops : List ManualOp) : Encoder :=
  ops.foldl (fun e op => (stepOp e op).2) e

/-- The open-object depth determined by the call trace alone: every
`StartObject` call increments it (successful or not), `EndObject` decrements
it unless nothing is open. -/
def traceDepth : Int → List ManualOp → Int
  | d, [] => d
  | d, .startObject _ :: ops => traceDepth (d + 1) ops
  | d, .endObject :: ops => traceDepth (if d ≤ 0 then d else d - 1) ops
  | d, .writeString _ _ :: ops => traceDepth d ops
  | d, .writeUint32 _ _ :: ops => traceDepth d ops
  | d, .close :: ops => traceDepth d ops

theorem stepOp_opts (e : Encoder) (op : ManualOp) : (stepOp e op).2.opts = e.opts := by
  cases op
  all_goals simp only [stepOp, Encoder.startObject, Encoder.writeString, Encoder.writeUint32,
    Encoder.endObject, Encoder.close]
  all_goals repeat' split
  all_goals rfl

theorem stepOp_depth (e : Encoder) (op : ManualOp) :
    (stepOp e op).2.manualDepth =
      match op with
      | .startObject _ => e.manualDepth + 1
      | .endObject => if e.manualDepth ≤ 0 then e.manualDepth else e.manualDepth - 1
      | _ => e.manualDepth := by
  cases op
  all_goals simp only [stepOp, Encoder.startObject, Encoder.writeString, Encoder.writeUint32,
    Encoder.endObject, Encoder.close]
  all_goals repeat' split
  all_goals first
    | rfl
    | (rename_i hf _; exact absurd hf (by simpa using manualFormat_ne_auto e))
    | (rename_i hf; exact absurd hf (by simpa using manualFormat_ne_auto e))

theorem runOps_state : ∀ (ops : List ManualOp) (e : Encoder),
    (runOps e ops).manualDepth = traceDepth e.manualDepth ops ∧
    (runOps e ops).opts = e.opts
  | [], e => ⟨rfl, rfl⟩
  | op :: ops, e => by
    obtain ⟨ih1, ih2⟩ := runOps_state ops (stepOp e op).2
    have hstep := stepOp_depth e op
    have hopts := stepOp_opts e op
    refine ⟨?_, ?_⟩
    · show (runOps (stepOp e op).2 ops).manualDepth = traceDepth e.manualDepth (op :: ops)
      rw [ih1, hstep]
      cases op <;> rfl
    · show (runOps (stepOp e op).2 ops).opts = e.opts
      rw [ih2, hopts]

theorem traceDepth_nonneg : ∀ (ops : List ManualOp) (d : Int), 0 ≤ d →
    0 ≤ traceDepth d ops
  | [], d, hd => hd
  | .startObject _ :: ops, d, hd => traceDepth_nonneg ops (d + 1) (by omega)
  | .endObject :: ops, d, hd => by
    by_cases h : d ≤ 0
    · simpa [traceDepth, h] using traceDepth_nonneg ops d hd
    · simpa [traceDepth, h] using traceDepth_nonneg ops (d - 1) (by omega)
  | .writeString _ _ :: ops, d, hd => traceDepth_nonneg ops d hd
  | .writeUint32 _ _ :: ops, d, hd => traceDepth_nonneg ops d hd
  | .close :: ops, d, hd => traceDepth_nonneg ops d hd

theorem endObject_err (e : Encoder) :
    (Encoder.endObject e).1 =
      if e.manualDepth ≤ 0 then some .invalidNodeState else none := by
  unfold Encoder.endObject
  cases hf : manualFormat e
  · exact absurd hf (manualFormat_ne_auto e)
  · by_cases h : e.manualDepth ≤ 0
    · simp [h]
    · by_cases hc : e.opts.compact = true <;> simp [h, hc]
  · by_cases h : e.manualDepth ≤ 0 <;> simp [h]

theorem close_err (e : Encoder) :
    (Encoder.close e).1 =
      if manualFormat e = .binary ∧ e.manualBinaryUsed = true ∧
          e.manualBinaryFinished = false ∧ e.manualDepth ≠ 0
      then some .invalidNodeState else none := by
  unfold Encoder.close
  by_cases h1 : manualFormat e = .binary
  · by_cases h2 : e.manualBinaryUsed = true
    · by_cases h3 : e.manualBinaryFinished = true
      · simp [h1, h2, h3]
      · by_cases h4 : e.manualDepth = 0
        · simp [h1, h2, h3, h4]
        · simp [h1, h2, h3, h4]
    · simp [h1, Bool.not_eq_true] at h2
      simp [h1, h2]
  · simp [h1]

/-! ## Event iterator (events.go) -/

/-- `eventFrame`: traversal progress for one node. -/
structure EventFrame where
  node : Node
  childIndex : Nat
  started : Bool
deriving Repr

/-- `EventType` (document start/end, object start/end, scalar leaves). -/
inductive EventType where
  | documentStart
  | documentEnd
  | objectStart
  | objectEnd
  | string
  | uint32
deriving DecidableEq, Repr

/-- `Event`: one streaming traversal event. -/
structure Event where
  type : EventType
  key : Str
  depth : Nat
  stringValue : Option Str
  uint32Value : Option Nat
deriving DecidableEq, Repr

/-- `eventIterator` state; the head of `stack` is the top frame. -/
structure EventIterator where
  doc : Document
  stack : List EventFrame
  rootIndex : Nat
  started : Bool
  finished : Bool
deriving Repr

/-- `newEventIterator`. -/
def newEventIterator (doc : Document) : EventIterator :=
  { doc := doc, stack := [], rootIndex := 0, started := false, finished := false }

/-- `eventIterator.next`: `none` once the stream is exhausted.  The source's
inner `for` loop pushes or pops frames without emitting; the fuel bounds
those silent iterations and is never exhausted on the concrete documents the
claims evaluate. -/
def nextEvF : Nat → EventIterator → Option Event × EventIterator
  | 0, it => (none, it)
  | fuel + 1, it =>
    if it.finished then (none, it)
    else if it.started = false then
      (some ⟨.documentStart, [], 0, none, none⟩, { it with started := true })
    else
      match it.stack with
      | [] =>
        match it.doc.roots.drop it.rootIndex with
        | [] => (some ⟨.documentEnd, [], 0, none, none⟩, { it with finished := true })
        | root :: _ =>
          nextEvF fuel { it with
            rootIndex := it.rootIndex + 1
            stack := [⟨root, 0, false⟩] }
      | frame :: below =>
        let depth := it.stack.length
        match frame.node.kind with
        | .object =>
          if frame.started = false then
            (some ⟨.objectStart, frame.node.key, depth, none, none⟩,
             { it with stack := ⟨frame.node, frame.childIndex, true⟩ :: below })
          else
            match frame.node.children.drop frame.childIndex with
            | child :: _ =>
              nextEvF fuel { it with stack := ⟨child, 0, false⟩ ::
                ⟨frame.node, frame.childIndex + 1, true⟩ :: below }
            | [] =>
              (some ⟨.objectEnd, frame.node.key, depth, none, none⟩,
               { it with stack := below })
        | .string =>
          (some ⟨.string, frame.node.key, depth, frame.node.stringValue, none⟩,
           { it with stack := below })
        | .uint32 =>
          (some ⟨.uint32, frame.node.key, depth, none, frame.node.uint32Value⟩,
           { it with stack := below })

/-- The first `n` results of repeatedly calling `next` (with ample inner
fuel); `none` entries mark the exhausted signal. -/
def nextN : Nat → EventIterator → List (Option Event)
  | 0, _ => []
  | n + 1, it =>
    let r := nextEvF 64 it
    r.1 :: nextN n r.2


/-! ## Maps and document validation (types.go)

Go's `Map` is an unordered hash map; the model is an association list whose
observable behaviour (`m[k]` lookup, `_, exists := m[k]` membership, and
`m[k] = v` overwrite) matches Go's.  A `none` result models a nil-pointer
dereference panic (possible only on ill-formed nodes). -/

/-- A `Map` value: string, number, or nested map. -/
inductive MapValue where
  | str (s : Str)
  | u32 (v : Nat)
  | map (m : List (Str × MapValue))

/-- The association-list model of `Map`. -/
abbrev MapList := List (Str × MapValue)

/-- `m[k]` lookup. -/
def mapLookup : MapList → Str → Option MapValue
  | [], _ => none
  | (k2, v2) :: rest, k => if k2 = k then some v2 else mapLookup rest k

/-- `_, exists := m[k]`. -/
def mapMember (m : MapList) (k : Str) : Bool := (mapLookup m k).isSome

/-- `m[k] = v`: replace the key's entry or append a new one. -/
def mapSet : MapList → Str → MapValue → MapList
  | [], k, v => [(k, v)]
  | (k2, v2) :: rest, k, v =>
    if k2 = k then (k2, v) :: rest else (k2, v2) :: mapSet rest k v

theorem mapLookup_set : ∀ (m : MapList) (k : Str) (v : MapValue) (k2 : Str),
    mapLookup (mapSet m k v) k2 = if k = k2 then some v else mapLookup m k2
  | [], k, v, k2 => by simp [mapSet, mapLookup]
  | (k3, v3) :: rest, k, v, k2 => by
    by_cases h3 : k3 = k
    · subst h3
      by_cases h2 : k3 = k2 <;> simp [mapSet, mapLookup, h2]
    · by_cases h2 : k3 = k2
      · subst h2
        simp [mapSet, mapLookup, h3, Ne.symm h3]
      · simp [mapSet, mapLookup, h3, h2, mapLookup_set rest k v k2]

theorem mapMember_set (m : MapList) (k : Str) (v : MapValue) (k2 : Str) :
    mapMember (mapSet m k v) k2 = true ↔ (k = k2 ∨ mapMember m k2 = true) := by
  unfold mapMember
  rw [mapLookup_set]
  by_cases h : k = k2 <;> simp [h]

/-- `containsKey` characterization. -/
theorem containsKey_iff (nodes : List Node) (key : Str) :
    containsKey nodes key = true ↔ ∃ c ∈ nodes, c.key = key := by
  simp [containsKey]

mutual

/-- `validateNode` (nil nodes and cycles cannot arise in the tree model;
the error-message wrapping of the source is not modelled). -/
def validateNode : Node → Except VdfErr Unit
  | .mk sv uv _ cs kind =>
    match kind with
    | .object =>
      if sv ≠ none ∨ uv ≠ none then .error .invalidNodeState
      else validateNodes cs
    | .string =>
      match sv with
      | none => .error .invalidNodeState
      | some _ =>
        if uv ≠ none ∨ cs ≠ [] then .error .invalidNodeState else .ok ()
    | .uint32 =>
      match uv with
      | none => .error .invalidNodeState
      | some _ =>
        if sv ≠ none ∨ cs ≠ [] then .error .invalidNodeState else .ok ()

/-- `validateNode` over a list, stopping at the first error. -/
def validateNodes : List Node → Except VdfErr Unit
  | [] => .ok ()
  | c :: cs =>
    match validateNode c with
    | .error e => .error e
    | .ok _ => validateNodes cs

end

/-- `Document.Validate`. -/
def validateDocument (d : Document) : Except VdfErr Unit := validateNodes d.roots

mutual

theorem validateNode_wf : ∀ n : Node, wfNode n = true → validateNode n = .ok ()
  | .mk sv uv key cs kind, hwf => by
    cases kind with
    | object =>
      simp only [wfNode, Bool.and_eq_true, Option.isNone_iff_eq_none] at hwf
      obtain ⟨⟨hsv, huv⟩, hcs⟩ := hwf
      subst hsv huv
      simp only [validateNode]
      rw [if_neg (by simp)]
      exact validateNodes_wf cs hcs
    | string =>
      simp only [wfNode, Bool.and_eq_true, Option.isSome_iff_exists,
        Option.isNone_iff_eq_none, decide_eq_true_eq] at hwf
      obtain ⟨⟨⟨v, hsv⟩, huv⟩, hcs⟩ := hwf
      subst hsv huv hcs
      simp [validateNode]
    | uint32 =>
      cases uv with
      | none => simp [wfNode] at hwf
      | some u =>
        simp only [wfNode, Bool.and_eq_true, Option.isNone_iff_eq_none,
          decide_eq_true_eq] at hwf
        obtain ⟨⟨hu, hsv⟩, hcs⟩ := hwf
        subst hsv hcs
        simp [validateNode]

theorem validateNodes_wf : ∀ cs : List Node, wfNodes cs = true → validateNodes cs = .ok ()
  | [], _ => rfl
  | c :: cs, hwf => by
    obtain ⟨hwf1, hwf2⟩ := wfNodes_cons.mp hwf
    simp only [validateNodes, validateNode_wf c hwf1]
    exact validateNodes_wf cs hwf2

end

/-! ## Strict and lossy map conversion (types.go) -/

mutual

/-- `nodeToStrictValue`. -/
def nodeToStrictValue : Node → Option (Except VdfErr MapValue)
  | .mk sv uv _ cs kind =>
    match kind with
    | .string =>
      match sv with
      | some s => some (.ok (.str s))
      | none => none
    | .uint32 =>
      match uv with
      | some v => some (.ok (.u32 v))
      | none => none
    | .object =>
      match strictChildren cs [] with
      | none => none
      | some (.error e) => some (.error e)
      | some (.ok m) => some (.ok (.map m))

/-- The conversion loop shared by `nodeToStrictValue`'s object case and
`ToMapStrict`'s root loop: existing keys are rejected before converting the
entry. -/
def strictChildren : List Node → MapList → Option (Except VdfErr MapList)
  | [], m => some (.ok m)
  | c :: cs, m =>
    if mapMember m c.key then some (.error .duplicateKeyInStrictMode)
    else
      match nodeToStrictValue c with
      | none => none
      | some (.error e) => some (.error e)
      | some (.ok v) => strictChildren cs (mapSet m c.key v)

end

/-- `Document.ToMapStrict`: validate, then convert the roots. -/
def toMapStrict (d : Document) : Option (Except VdfErr MapList) :=
  match validateDocument d with
  | .error e => some (.error e)
  | .ok _ => strictChildren d.roots []

mutual

/-- `nodeToLossyValue`. -/
def nodeToLossyValue : Node → Option MapValue
  | .mk sv uv _ cs kind =>
    match kind with
    | .string =>
      match sv with
      | some s => some (.str s)
      | none => none
    | .uint32 =>
      match uv with
      | some v => some (.u32 v)
      | none => none
    | .object =>
      match lossyChildren cs [] with
      | none => none
      | some m => some (.map m)

/-- The overwrite loop of the lossy conversion (also `ToMapLossy`'s root
loop): later same-key entries replace earlier ones. -/
def lossyChildren : List Node → MapList → Option MapList
  | [], m => some m
  | c :: cs, m =>
    match nodeToLossyValue c with
    | none => none
    | some v => lossyChildren cs (mapSet m c.key v)

end

/-- `Document.ToMapLossy` (no validation pass). -/
def toMapLossy (d : Document) : Option MapList := lossyChildren d.roots []

/-- Pairwise-distinct keys in one sibling list. -/
def keysDistinct : List Node → Bool
  | [] => true
  | c :: cs => !(containsKey cs c.key) && keysDistinct cs

mutual

/-- No two siblings share a key anywhere in the subtree. -/
def dupFreeN : Node → Bool
  | .mk _ _ _ cs _ => keysDistinct cs && dupFreeL cs

/-- `dupFreeN` on every element. -/
def dupFreeL : List Node → Bool
  | [] => true
  | c :: cs => dupFreeN c && dupFreeL cs

end

/-- No two siblings share a key anywhere in the document, roots included. -/
def dupFreeD (d : Document) : Bool := keysDistinct d.roots && dupFreeL d.roots

/-- The last list entry carrying the key. -/
def lastWithKey : List Node → Str → Option Node
  | [], _ => none
  | c :: cs, k =>
    match lastWithKey cs k with
    | some n => some n
    | none => if c.key = k then some c else none

mutual

theorem nodeToLossyValue_wf : ∀ n : Node, wfNode n = true →
    ∃ v, nodeToLossyValue n = some v
  | .mk sv uv key cs kind, hwf => by
    cases kind with
    | object =>
      simp only [wfNode, Bool.and_eq_true] at hwf
      obtain ⟨m2, hm2, -⟩ := lossyChildren_wf cs [] hwf.2
      exact ⟨.map m2, by simp [nodeToLossyValue, hm2]⟩
    | string =>
      simp only [wfNode, Bool.and_eq_true, Option.isSome_iff_exists] at hwf
      obtain ⟨⟨⟨v, hsv⟩, -⟩, -⟩ := hwf
      subst hsv
      exact ⟨.str v, by simp [nodeToLossyValue]⟩
    | uint32 =>
      cases uv with
      | none => simp [wfNode] at hwf
      | some u => exact ⟨.u32 u, by simp [nodeToLossyValue]⟩

theorem lossyChildren_wf : ∀ (cs : List Node) (m : MapList), wfNodes cs = true →
    ∃ m2, lossyChildren cs m = some m2 ∧
      ∀ k, mapLookup m2 k =
        (match lastWithKey cs k with
         | some c => nodeToLossyValue c
         | none => mapLookup m k)
  | [], m, _ => ⟨m, rfl, fun k => by simp [lastWithKey]⟩
  | c :: cs, m, hwf => by
    obtain ⟨hwf1, hwf2⟩ := wfNodes_cons.mp hwf
    obtain ⟨v, hv⟩ := nodeToLossyValue_wf c hwf1
    obtain ⟨m2, hm2, hchar⟩ := lossyChildren_wf cs (mapSet m c.key v) hwf2
    refine ⟨m2, by simp [lossyChildren, hv, hm2], fun k => ?_⟩
    rw [hchar k]
    cases hlast : lastWithKey cs k with
    | some n => simp [lastWithKey, hlast]
    | none =>
      simp only [lastWithKey, hlast]
      rw [mapLookup_set]
      by_cases hk : c.key = k
      · subst hk
        simp [hv]
      · simp [hk]

end

mutual

theorem nodeToStrictValue_ok : ∀ n : Node, wfNode n = true → dupFreeN n = true →
    ∃ v, nodeToStrictValue n = some (.ok v)
  | .mk sv uv key cs kind, hwf, hdup => by
    cases kind with
    | object =>
      simp only [wfNode, Bool.and_eq_true] at hwf
      simp only [dupFreeN, Bool.and_eq_true] at hdup
      obtain ⟨m2, hm2⟩ := strictChildren_ok cs [] hwf.2 hdup.1 hdup.2
        (fun c _ => rfl)
      exact ⟨.map m2, by simp [nodeToStrictValue, hm2]⟩
    | string =>
      simp only [wfNode, Bool.and_eq_true, Option.isSome_iff_exists] at hwf
      obtain ⟨⟨⟨v, hsv⟩, -⟩, -⟩ := hwf
      subst hsv
      exact ⟨.str v, by simp [nodeToStrictValue]⟩
    | uint32 =>
      cases uv with
      | none => simp [wfNode] at hwf
      | some u => exact ⟨.u32 u, by simp [nodeToStrictValue]⟩

theorem strictChildren_ok : ∀ (cs : List Node) (m : MapList), wfNodes cs = true →
    keysDistinct cs = true → dupFreeL cs = true →
    (∀ c ∈ cs, mapMember m c.key = false) →
    ∃ m2, strictChildren cs m = some (.ok m2)
  | [], m, _, _, _, _ => ⟨m, rfl⟩
  | c :: cs, m, hwf, hkd, hdf, hmem => by
    obtain ⟨hwf1, hwf2⟩ := wfNodes_cons.mp hwf
    simp only [keysDistinct, Bool.and_eq_true, Bool.not_eq_true'] at hkd
    simp only [dupFreeL, Bool.and_eq_true] at hdf
    obtain ⟨v, hv⟩ := nodeToStrictValue_ok c hwf1 hdf.1
    have hmc : mapMember m c.key = false := hmem c (List.mem_cons_self c cs)
    obtain ⟨m2, hm2⟩ := strictChildren_ok cs (mapSet m c.key v) hwf2 hkd.2 hdf.2
      (by
        intro c2 hc2
        rw [Bool.eq_false_iff]
        intro hcon
        rcases (mapMember_set m c.key v c2.key).mp hcon with h | h
        · have : containsKey cs c.key = true :=
            (containsKey_iff cs c.key).mpr ⟨c2, hc2, h.symm⟩
          rw [this] at hkd
          exact absurd hkd.1 (by simp)
        · have := hmem c2 (List.mem_cons_of_mem c hc2)
          rw [this] at h
          exact absurd h (by simp))
    exact ⟨m2, by simp [strictChildren, hmc, hv, hm2]⟩

end

mutual

theorem nodeToStrictValue_err : ∀ n : Node, wfNode n = true → dupFreeN n = false →
    nodeToStrictValue n = some (.error .duplicateKeyInStrictMode)
  | .mk sv uv key cs kind, hwf, hdup => by
    cases kind with
    | object =>
      simp only [wfNode, Bool.and_eq_true] at hwf
      simp only [dupFreeN, Bool.and_eq_false_iff] at hdup
      have herr := strictChildren_err cs [] hwf.2
        (by
          rcases hdup with h | h
          · exact Or.inl h
          · exact Or.inr (Or.inl h))
      simp [nodeToStrictValue, herr]
    | string =>
      simp only [wfNode, Bool.and_eq_true, decide_eq_true_eq] at hwf
      obtain ⟨-, hcs⟩ := hwf
      subst hcs
      simp [dupFreeN, keysDistinct, dupFreeL, containsKey] at hdup
    | uint32 =>
      simp only [wfNode, Bool.and_eq_true, decide_eq_true_eq] at hwf
      obtain ⟨-, hcs⟩ := hwf
      subst hcs
      simp [dupFreeN, keysDistinct, dupFreeL, containsKey] at hdup

theorem strictChildren_err : ∀ (cs : List Node) (m : MapList), wfNodes cs = true →
    (keysDistinct cs = false ∨ dupFreeL cs = false ∨
      (∃ c ∈ cs, mapMember m c.key = true)) →
    strictChildren cs m = some (.error .duplicateKeyInStrictMode)
  | [], m, _, hbad => by
    rcases hbad with h | h | ⟨c, hc, -⟩
    · simp [keysDistinct] at h
    · simp [dupFreeL] at h
    · cases hc
  | c :: cs, m, hwf, hbad => by
    obtain ⟨hwf1, hwf2⟩ := wfNodes_cons.mp hwf
    by_cases hmc : mapMember m c.key = true
    · simp [strictChildren, hmc]
    · rw [Bool.not_eq_true] at hmc
      by_cases hd : dupFreeN c = true
      · obtain ⟨v, hv⟩ := nodeToStrictValue_ok c hwf1 hd
        have hbad2 : keysDistinct cs = false ∨ dupFreeL cs = false ∨
            (∃ c2 ∈ cs, mapMember (mapSet m c.key v) c2.key = true) := by
          rcases hbad with h | h | ⟨c2, hc2, hm2⟩
          · simp only [keysDistinct, Bool.and_eq_false_iff] at h
            rcases h with h | h
            · have h2 : containsKey cs c.key = true := by simpa using h
              obtain ⟨c2, hc2, hk2⟩ := (containsKey_iff cs c.key).mp h2
              exact Or.inr (Or.inr ⟨c2, hc2,
                (mapMember_set m c.key v c2.key).mpr (Or.inl hk2.symm)⟩)
            · exact Or.inl h
          · simp only [dupFreeL, Bool.and_eq_false_iff] at h
            rcases h with h | h
            · rw [hd] at h
              exact absurd h (by simp)
            · exact Or.inr (Or.inl h)
          · rcases List.mem_cons.mp hc2 with rfl | hc2
            · rw [hmc] at hm2
              exact absurd hm2 (by simp)
            · exact Or.inr (Or.inr ⟨c2, hc2,
                (mapMember_set m c.key v c2.key).mpr (Or.inr hm2)⟩)
        have herr := strictChildren_err cs (mapSet m c.key v) hwf2 hbad2
        simp [strictChildren, hmc, hv, herr]
      · rw [Bool.not_eq_true] at hd
        have herr := nodeToStrictValue_err c hwf1 hd
        simp [strictChildren, hmc, herr]

end


/-! ## Claim theorems -/

/-- A concrete constructor-built document: one object root with one string
child. -/
def c1wDoc : Document :=
  NewDocument.addRoot ((NewObjectNode ("a").data).add (NewStringNode ("k").data ("v").data))

/-- C1 (amended).  For a constructor-built document with NUL-free strings,
decoding the binary encoding returns the document exactly; decoding the
default text encoding returns its `textNorm` image, in which every uint32
leaf has become a string node holding its decimal rendering; when the
document has no uint32 leaf the text round-trip is also exact. -/
theorem c1_roundtrip {d : Document} (hb : BuiltDoc d)
    {eopts : EncodeOptions} (hdet : eopts.deterministic = false)
    {opts : DecodeOptions} (hstrict : opts.strict = false)
    (hmd : opts.maxDepth ≤ 0) (hmn : opts.maxNodes ≤ 0) :
    (∀ bs, encodeBinaryDocument eopts d = .ok bs →
      parseBinaryDocument opts bs = .ok { roots := d.roots, format := .binary }) ∧
    (∀ s, encodeTextDocument textEncodeOpts d = .ok s →
      parseTextDocument opts s = .ok { roots := textNorms d.roots, format := .text }) ∧
    (noU32L d.roots = true → textNorms d.roots = d.roots) := by
  have hwf := hb.wfRoots_of
  refine ⟨?_, ?_, ?_⟩
  · intro bs henc
    obtain ⟨h1, h2⟩ := encodeBinaryDocument_ok hdet hwf henc
    subst h1
    exact parseBinaryDocument_enc hstrict hmd hmn hwf h2 []
  · intro s henc
    rw [encodeTextDocument_ok hwf] at henc
    injection henc with henc
    subst henc
    exact parseTextDocument_enc hstrict hmd hmn hwf
  · exact textNorms_id d.roots hwf

/-- C1 counterexample: the text round-trip of a document holding a uint32
leaf returns a *string* node carrying the decimal text, not the original
uint32 node, so text decode-of-encode is not structurally equal to the
original. -/
theorem c1_counterexample :
    ((encodeTextDocument textEncodeOpts (NewDocument.addRoot (NewUint32Node ("id").data 7))).bind
        (fun s => parseTextDocument ⟨.text, false, 0, 0⟩ s)).map Document.roots =
      .ok [NewStringNode ("id").data ("7").data] ∧
    [NewStringNode ("id").data ("7").data] ≠
      (NewDocument.addRoot (NewUint32Node ("id").data 7)).roots := by
  constructor
  · decide
  · decide

/-- C1 witness: both round-trips evaluated on `c1wDoc`. -/
theorem c1_roundtrip_witness :
    parseBinaryDocument ⟨.auto, false, 0, 0⟩ (binEncDoc c1wDoc) =
      .ok { roots := c1wDoc.roots, format := .binary } ∧
    parseTextDocument ⟨.auto, false, 0, 0⟩ (txtEncRoots c1wDoc.roots) =
      .ok { roots := textNorms c1wDoc.roots, format := .text } ∧
    textNorms c1wDoc.roots = c1wDoc.roots := by
  obtain ⟨h1, h2, h3⟩ := c1_roundtrip
    (show BuiltDoc c1wDoc from
      BuiltDoc.addRoot _ _ BuiltDoc.new
        (BuiltNode.add _ _ (BuiltNode.obj _) (BuiltNode.str _ _)))
    (show textEncodeOpts.deterministic = false from rfl)
    (show (⟨.auto, false, 0, 0⟩ : DecodeOptions).strict = false from rfl)
    (le_refl 0) (le_refl 0)
  exact ⟨h1 (binEncDoc c1wDoc) (by decide),
    h2 (txtEncRoots c1wDoc.roots) (by decide), h3 (by decide)⟩

/-- C2 (amended).  Over every manual streaming call sequence (text and
binary alike) the encoder's open-object depth equals the trace depth, in
which every `StartObject` call — successful or not — increments and
`EndObject` decrements only when something is open; `EndObject` errors
exactly when the depth is zero; and `Close` errors exactly when the stream
is binary, was used, is unfinished and the depth is nonzero — in text mode
`Close` never fails, balanced or not. -/
theorem c2_manual_balance (opts : EncodeOptions) (ops : List ManualOp) :
    (runOps (newEncoder opts) ops).manualDepth = traceDepth 0 ops ∧
    0 ≤ (runOps (newEncoder opts) ops).manualDepth ∧
    ((Encoder.endObject (runOps (newEncoder opts) ops)).1 =
      if (runOps (newEncoder opts) ops).manualDepth ≤ 0 then some .invalidNodeState
      else none) ∧
    ((Encoder.close (runOps (newEncoder opts) ops)).1 =
      if manualFormat (runOps (newEncoder opts) ops) = .binary ∧
          (runOps (newEncoder opts) ops).manualBinaryUsed = true ∧
          (runOps (newEncoder opts) ops).manualBinaryFinished = false ∧
          (runOps (newEncoder opts) ops).manualDepth ≠ 0
        then some .invalidNodeState else none) := by
  obtain ⟨h1, -⟩ := runOps_state ops (newEncoder opts)
  refine ⟨h1, ?_, endObject_err _, close_err _⟩
  rw [h1]
  exact traceDepth_nonneg ops 0 le_rfl

/-- C2 counterexample: a text-mode encoder after one `StartObject` has an
open object, yet `Close` returns nil — finalization with unbalanced open
objects does not fail in text mode. -/
theorem c2_counterexample :
    0 < (runOps (newEncoder ⟨[], .text, false, false, false⟩)
      [.startObject ("a").data]).manualDepth ∧
    (Encoder.close (runOps (newEncoder ⟨[], .text, false, false, false⟩)
      [.startObject ("a").data])).1 = none := by
  constructor
  · decide
  · decide

/-- C3 (amended).  A type byte outside the four known values fails with the
unrecognized-type error carrying the byte *only if* the following key read
succeeds (a NUL terminator exists); the key is read before the type is
examined, so when the input truncates inside the key the error is the
buffer-overflow one instead.  The two errors are distinct. -/
theorem c3_unrecognized {opts : DecodeOptions} (t : Nat) (rest : List Nat)
    (ht : t ≠ binaryTypeMapStart ∧ t ≠ binaryTypeString ∧ t ≠ binaryTypeNumber ∧
      t ≠ binaryTypeMapEnd) :
    parseBinaryDocument opts (t :: rest) =
      (if 0 ∈ rest then .error (.unrecognizedType t) else .error .bufferOverflow) ∧
    (∀ b : Nat, VdfErr.unrecognizedType b ≠ VdfErr.bufferOverflow) := by
  obtain ⟨h0, h1, h2, h8⟩ := ht
  constructor
  · by_cases hmem : 0 ∈ rest
    · rw [if_pos hmem]
      obtain ⟨s, r, hr⟩ := readNTS_of_mem rest hmem
      unfold parseBinaryDocument
      simp only [List.length_cons, decodeDocLoopF]
      rw [if_neg h8]
      simp only [decodeEntryF]
      rw [checkDepth_one]
      simp only [except_bind_ok]
      rw [hr]
      simp only [except_bind_ok]
      rw [if_neg h0, if_neg h1, if_neg h2]
      rfl
    · rw [if_neg hmem]
      unfold parseBinaryDocument
      simp only [List.length_cons, decodeDocLoopF]
      rw [if_neg h8]
      simp only [decodeEntryF]
      rw [checkDepth_one]
      simp only [except_bind_ok]
      rw [readNTS_of_not_mem rest hmem]
      rfl
  · intro b h
    exact VdfErr.noConfusion h

/-- C3 counterexample: type byte 5 with the input ending inside the key is a
buffer overflow, not unrecognized-type 5 — refuting "every stream whose next
type byte is unknown fails with the unrecognized-type error". -/
theorem c3_counterexample :
    parseBinaryDocument ⟨.binary, false, 0, 0⟩ [5] = .error .bufferOverflow ∧
    (Except.error VdfErr.bufferOverflow : Except VdfErr Document) ≠
      .error (.unrecognizedType 5) := by
  constructor
  · decide
  · decide

/-- C3 witness: type byte 5 with a terminated key gives unrecognized-type 5. -/
theorem c3_witness :
    parseBinaryDocument ⟨.binary, false, 0, 0⟩ (5 :: [0]) =
      (if 0 ∈ [0] then .error (.unrecognizedType 5) else .error .bufferOverflow) ∧
    (∀ b : Nat, VdfErr.unrecognizedType b ≠ VdfErr.bufferOverflow) :=
  c3_unrecognized 5 [0] (by decide)

/-- A concrete document of height 2 and node count 2 for the C4 witness. -/
def c4Doc : Document :=
  NewDocument.addRoot ((NewObjectNode ("b").data).add (NewStringNode ("k").data ("v").data))

/-- C4.  Decoding a well-formed document's encoding with `MaxDepth` one less
than its height fails with the depth-limit error, with `MaxNodes` one less
than its node count fails with the node-limit error — in both codecs, each
limit enforced with the other disabled — and with both limits 0 decoding
succeeds (0 = unlimited). -/
theorem c4_limits {d : Document} (hwf : wfNodes d.roots = true)
    (hnul : nulFreeL d.roots = true) :
    (1 < docHeight d →
      parseTextDocument ⟨.text, false, (docHeight d : Int) - 1, 0⟩ (txtEncRoots d.roots) =
        .error .depthLimitExceeded ∧
      parseBinaryDocument ⟨.binary, false, (docHeight d : Int) - 1, 0⟩
        (binEncNodes d.roots ++ [binaryTypeMapEnd]) = .error .depthLimitExceeded) ∧
    (1 < docCount d →
      parseTextDocument ⟨.text, false, 0, (docCount d : Int) - 1⟩ (txtEncRoots d.roots) =
        .error .nodeLimitExceeded ∧
      parseBinaryDocument ⟨.binary, false, 0, (docCount d : Int) - 1⟩
        (binEncNodes d.roots ++ [binaryTypeMapEnd]) = .error .nodeLimitExceeded) ∧
    parseTextDocument ⟨.text, false, 0, 0⟩ (txtEncRoots d.roots) =
      .ok { roots := textNorms d.roots, format := .text } ∧
    parseBinaryDocument ⟨.binary, false, 0, 0⟩ (binEncNodes d.roots ++ [binaryTypeMapEnd]) =
      .ok { roots := d.roots, format := .binary } := by
  have hdh : docHeight d = heightL d.roots := rfl
  have hdc : docCount d = countL d.roots := rfl
  refine ⟨?_, ?_, ?_, ?_⟩
  · intro hh
    constructor
    · exact parseTextDocument_depthErr
        (show (⟨.text, false, (docHeight d : Int) - 1, 0⟩ : DecodeOptions).strict = false
          from rfl)
        (le_refl 0) (by simp only []; omega) hwf (by simp only []; omega)
    · exact parseBinaryDocument_depthErr
        (show (⟨.binary, false, (docHeight d : Int) - 1, 0⟩ : DecodeOptions).strict = false
          from rfl)
        (le_refl 0) (by simp only []; omega) hwf hnul (by simp only []; omega)
  · intro hn
    constructor
    · exact parseTextDocument_nodesErr
        (show (⟨.text, false, 0, (docCount d : Int) - 1⟩ : DecodeOptions).strict = false
          from rfl)
        (le_refl 0) (by simp only []; omega) hwf (by simp only []; omega)
    · exact parseBinaryDocument_nodesErr
        (show (⟨.binary, false, 0, (docCount d : Int) - 1⟩ : DecodeOptions).strict = false
          from rfl)
        (le_refl 0) (by simp only []; omega) hwf hnul (by simp only []; omega)
  · exact parseTextDocument_enc
      (show (⟨.text, false, 0, 0⟩ : DecodeOptions).strict = false from rfl)
      (le_refl 0) (le_refl 0) hwf
  · exact parseBinaryDocument_enc
      (show (⟨.binary, false, 0, 0⟩ : DecodeOptions).strict = false from rfl)
      (le_refl 0) (le_refl 0) hwf hnul []

/-- C4 witness: all four limit failures and both unlimited successes on
`c4Doc` (height 2, count 2, so each budget is 1). -/
theorem c4_limits_witness :
    (parseTextDocument ⟨.text, false, (docHeight c4Doc : Int) - 1, 0⟩
        (txtEncRoots c4Doc.roots) = .error .depthLimitExceeded ∧
      parseBinaryDocument ⟨.binary, false, (docHeight c4Doc : Int) - 1, 0⟩
        (binEncNodes c4Doc.roots ++ [binaryTypeMapEnd]) = .error .depthLimitExceeded) ∧
    (parseTextDocument ⟨.text, false, 0, (docCount c4Doc : Int) - 1⟩
        (txtEncRoots c4Doc.roots) = .error .nodeLimitExceeded ∧
      parseBinaryDocument ⟨.binary, false, 0, (docCount c4Doc : Int) - 1⟩
        (binEncNodes c4Doc.roots ++ [binaryTypeMapEnd]) = .error .nodeLimitExceeded) ∧
    parseTextDocument ⟨.text, false, 0, 0⟩ (txtEncRoots c4Doc.roots) =
      .ok { roots := textNorms c4Doc.roots, format := .text } ∧
    parseBinaryDocument ⟨.binary, false, 0, 0⟩
      (binEncNodes c4Doc.roots ++ [binaryTypeMapEnd]) =
      .ok { roots := c4Doc.roots, format := .binary } :=
  ⟨(c4_limits (by decide) (by decide)).1 (by decide),
   (c4_limits (by decide) (by decide)).2.1 (by decide),
   (c4_limits (by decide) (by decide)).2.2.1,
   (c4_limits (by decide) (by decide)).2.2.2⟩

/-- The text input of C5. -/
def c5Input : Str := ("\x22root\x22 \x7b \x22k\x22 \x22v\x22 \x7d").data

/-- C5.  Decoding the input and reading seven events yields exactly document
start, object start `root` (depth 1), string `k` = `v` (depth 2), object end
`root`, document end — then the exhausted signal, twice. -/
theorem c5_events :
    (parseTextDocument ⟨.text, false, 0, 0⟩ c5Input).map
        (fun doc => nextN 7 (newEventIterator doc)) =
      .ok [some ⟨.documentStart, [], 0, none, none⟩,
        some ⟨.objectStart, ("root").data, 1, none, none⟩,
        some ⟨.string, ("k").data, 2, some ("v").data, none⟩,
        some ⟨.objectEnd, ("root").data, 1, none, none⟩,
        some ⟨.documentEnd, [], 0, none, none⟩,
        none, none] := by
  decide

/-- C6.  Auto-detection classifies an input as binary exactly when its first
byte is one of the three binary entry-type bytes and a NUL appears in the
following 49-byte look-ahead window; everything else — the empty input
included — is text. -/
theorem c6_detect (input : List Nat) :
    (detectStreamFormat input = .binary ↔
      (∃ b rest, input = b :: rest ∧ (b = 0 ∨ b = 1 ∨ b = 2) ∧ 0 ∈ rest.take 49)) ∧
    (detectStreamFormat input = .text ↔
      ¬(∃ b rest, input = b :: rest ∧ (b = 0 ∨ b = 1 ∨ b = 2) ∧ 0 ∈ rest.take 49)) := by
  have hbin : detectStreamFormat input = .binary ↔
      (∃ b rest, input = b :: rest ∧ (b = 0 ∨ b = 1 ∨ b = 2) ∧ 0 ∈ rest.take 49) := by
    cases input with
    | nil =>
      constructor
      · intro h
        exact absurd h (by decide)
      · rintro ⟨b, rest, heq, -, -⟩
        cases heq
    | cons b rest =>
      have hrhs : (∃ b2 rest2, b :: rest = b2 :: rest2 ∧ (b2 = 0 ∨ b2 = 1 ∨ b2 = 2) ∧
          0 ∈ rest2.take 49) ↔ ((b = 0 ∨ b = 1 ∨ b = 2) ∧ 0 ∈ rest.take 49) := by
        constructor
        · rintro ⟨b2, rest2, heq, hb, hm⟩
          obtain ⟨rfl, rfl⟩ : b = b2 ∧ rest = rest2 := by
            injection heq with ha hb2
            exact ⟨ha, hb2⟩
          exact ⟨hb, hm⟩
        · rintro ⟨hb, hm⟩
          exact ⟨b, rest, rfl, hb, hm⟩
      rw [hrhs]
      have h1 : (b :: rest).take 64 = b :: rest.take 63 := rfl
      have h2 : (rest.take 63).take 49 = rest.take 49 := by
        rw [List.take_take]
        norm_num
      unfold detectStreamFormat looksBinaryPrefix
      simp only [h1]
      rw [if_neg (by simp)]
      rw [h2]
      by_cases hb : b ≠ binaryTypeMapStart ∧ b ≠ binaryTypeString ∧ b ≠ binaryTypeNumber
      · rw [if_pos hb]
        rw [if_neg (by simp)]
        constructor
        · intro h
          exact absurd h (by decide)
        · rintro ⟨hbv, -⟩
          obtain ⟨hb0, hb1, hb2⟩ := hb
          rcases hbv with h | h | h
          · exact absurd h hb0
          · exact absurd h hb1
          · exact absurd h hb2
      · rw [if_neg hb]
        push_neg at hb
        by_cases hm : (rest.take 49).contains 0 = true
        · rw [if_pos hm]
          have hmem : 0 ∈ rest.take 49 := by simpa using hm
          constructor
          · intro _
            refine ⟨?_, hmem⟩
            by_cases hb0 : b = 0
            · exact Or.inl hb0
            · by_cases hb1 : b = 1
              · exact Or.inr (Or.inl hb1)
              · exact Or.inr (Or.inr (hb hb0 hb1))
          · intro _
            rfl
        · rw [if_neg hm]
          constructor
          · intro h
            exact absurd h (by decide)
          · rintro ⟨-, hmem⟩
            exact absurd (by simpa using hmem) hm
  have htb : detectStreamFormat input = .text ∨ detectStreamFormat input = .binary := by
    by_cases hp : input.take 64 = []
    · exact Or.inl (by simp [detectStreamFormat, hp])
    · by_cases hl : looksBinaryPrefix (input.take 64) = true
      · exact Or.inr (by simp [detectStreamFormat, hp, hl])
      · exact Or.inl (by simp [detectStreamFormat, hp, hl])
  refine ⟨hbin, ?_, ?_⟩
  · intro ht hex
    rw [← hbin] at hex
    rw [ht] at hex
    exact absurd hex (by decide)
  · intro hnex
    rcases htb with h | h
    · exact h
    · exact absurd (hbin.mp h) hnex

/-- A one-root document for the C7 witness. -/
def c7Doc : Document := NewDocument.addRoot (NewStringNode ("k").data ("v").data)

/-- C7.  Empty binary input decodes to the empty, valid binary document;
the encoding of a nonempty root list with its root terminator stripped fails
with the buffer-overflow error. -/
theorem c7_truncation {opts : DecodeOptions} (hstrict : opts.strict = false)
    (hmd : opts.maxDepth ≤ 0) (hmn : opts.maxNodes ≤ 0) {d : Document}
    (hwf : wfNodes d.roots = true) (hnul : nulFreeL d.roots = true)
    (hne : d.roots ≠ []) :
    parseBinaryDocument opts [] = .ok (NewDocumentWithFormat .binary) ∧
    (NewDocumentWithFormat Format.binary).roots = [] ∧
    validateDocument (NewDocumentWithFormat .binary) = .ok () ∧
    parseBinaryDocument opts (binEncNodes d.roots) = .error .bufferOverflow :=
  ⟨parseBinaryDocument_empty opts, rfl, rfl,
    parseBinaryDocument_trunc hstrict hmd hmn hwf hnul hne⟩

/-- C7 witness: both halves on `c7Doc`. -/
theorem c7_truncation_witness :
    parseBinaryDocument ⟨.binary, false, 0, 0⟩ [] = .ok (NewDocumentWithFormat .binary) ∧
    (NewDocumentWithFormat Format.binary).roots = [] ∧
    validateDocument (NewDocumentWithFormat .binary) = .ok () ∧
    parseBinaryDocument ⟨.binary, false, 0, 0⟩ (binEncNodes c7Doc.roots) =
      .error .bufferOverflow :=
  c7_truncation (show (⟨.binary, false, 0, 0⟩ : DecodeOptions).strict = false from rfl)
    (le_refl 0) (le_refl 0) (by decide) (by decide) (by decide)

/-- A duplicate-key document for the C8 witness. -/
def c8Doc : Document :=
  (NewDocument.addRoot (NewStringNode ("dup").data ("A").data)).addRoot
    (NewStringNode ("dup").data ("B").data)

/-- C8.  On a well-formed document with two same-key siblings anywhere
(roots included), `ToMapStrict` fails with the duplicate-key error, while
`ToMapLossy` succeeds and each key maps to the lossy value of the *last*
same-key sibling in source order. -/
theorem c8_maps {d : Document} (hwf : wfNodes d.roots = true) :
    (dupFreeD d = false → toMapStrict d = some (.error .duplicateKeyInStrictMode)) ∧
    (∃ m, toMapLossy d = some m ∧ ∀ k, mapLookup m k =
      (match lastWithKey d.roots k with
       | some r => nodeToLossyValue r
       | none => none)) := by
  constructor
  · intro hdup
    unfold toMapStrict validateDocument
    rw [validateNodes_wf d.roots hwf]
    apply strictChildren_err d.roots [] hwf
    simp only [dupFreeD, Bool.and_eq_false_iff] at hdup
    rcases hdup with h | h
    · exact Or.inl h
    · exact Or.inr (Or.inl h)
  · obtain ⟨m2, hm2, hchar⟩ := lossyChildren_wf d.roots [] hwf
    refine ⟨m2, hm2, fun k => ?_⟩
    rw [hchar k]
    cases lastWithKey d.roots k with
    | some r => rfl
    | none => rfl

/-- C8 witness: on `c8Doc` (two roots under key `dup`), strict conversion
fails with the duplicate-key error and the lossy map's characterization
holds. -/
theorem c8_maps_witness :
    toMapStrict c8Doc = some (.error .duplicateKeyInStrictMode) ∧
    (∃ m, toMapLossy c8Doc = some m ∧ ∀ k, mapLookup m k =
      (match lastWithKey c8Doc.roots k with
       | some r => nodeToLossyValue r
       | none => none)) :=
  ⟨(c8_maps (by decide)).1 (by decide), (c8_maps (by decide)).2⟩

/-- A one-root document for the C9 witness. -/
def c9Doc : Document := NewDocument.addRoot (NewStringNode ("x").data ("y").data)

/-- C9.  A well-formed binary document's encoding followed by arbitrary
trailing bytes decodes to exactly that document: decoding stops at the
root-level terminator and never examines the junk. -/
theorem c9_trailing {opts : DecodeOptions} (hstrict : opts.strict = false)
    (hmd : opts.maxDepth ≤ 0) (hmn : opts.maxNodes ≤ 0) {d : Document}
    (hwf : wfNodes d.roots = true) (hnul : nulFreeL d.roots = true) (junk : List Nat) :
    parseBinaryDocument opts (binEncDoc d ++ junk) =
      .ok { roots := d.roots, format := .binary } := by
  have h := parseBinaryDocument_enc hstrict hmd hmn hwf hnul junk
  simpa [binEncDoc, List.append_assoc] using h

/-- C9 witness: `c9Doc`'s encoding plus three junk bytes. -/
theorem c9_trailing_witness :
    parseBinaryDocument ⟨.binary, false, 0, 0⟩ (binEncDoc c9Doc ++ [7, 7, 7]) =
      .ok { roots := c9Doc.roots, format := .binary } :=
  c9_trailing (show (⟨.binary, false, 0, 0⟩ : DecodeOptions).strict = false from rfl)
    (le_refl 0) (le_refl 0) (by decide) (by decide) [7, 7, 7]

/-- C10.  Every document the text parser returns is free of uint32 nodes:
scalar leaves are stored as string nodes holding the raw token text. -/
theorem c10_no_uint32 {opts : DecodeOptions} {input : Str} {doc : Document}
    (h : parseTextDocument opts input = .ok doc) : noU32L doc.roots = true := by
  unfold parseTextDocument at h
  exact parseDocLoopF_noU32 _ opts (NewDocumentWithFormat .text) input 0 doc rfl h

/-- C10 witness: parsing a decimal-looking scalar still yields a string
node. -/
theorem c10_no_uint32_witness :
    noU32L (Document.mk [NewStringNode ("a").data ("7").data] Format.text).roots = true :=
  c10_no_uint32
    (by decide : parseTextDocument ⟨.text, false, 0, 0⟩ ("\x22a\x22 \x227\x22").data =
      .ok (Document.mk [NewStringNode ("a").data ("7").data] Format.text))


end Vdf
